import Mathlib

/-!
A verification development for `mem_pool.c`.

The pool manager of `src/mem_pool.c` is embedded as pure state-passing
functions.  Pointers into the node heap are slot numbers (`Option Nat`,
`none` for `NULL`); addresses inside the pool region are natural numbers
(`0` for `NULL`); `unsigned` and `size_t` arithmetic wraps explicitly.
A function returns `none` where the C program does not return normally:
an `assert` that fails, or a list walk that never reaches `NULL`.
-/

namespace MemPool

/-! ## Machine arithmetic -/

/-- Wrap a natural number to the `unsigned` range (32 bits). -/
def u32 (n : Nat) : Nat := n % 4294967296

/-- Wrap a natural number to the `size_t` range (64 bits). -/
def u64 (n : Nat) : Nat := n % 18446744073709551616

/-! ## Constants (lines 16-29) -/

/-- Number of node slots a pool is opened with. -/
def MEM_NODE_HEAP_INIT_CAPACITY : Nat := 40

/-- Number of gap-index entries a pool is opened with. -/
def MEM_GAP_IX_INIT_CAPACITY : Nat := 40

/-! ## Types (lines 38-62; `pool_t` and the two enums are the ones the code uses
from `mem_pool.h`) -/

/-- Status codes returned by the library. -/
inductive alloc_status where
  | ALLOC_OK
  | ALLOC_FAIL
  | ALLOC_NOT_FREED
  | ALLOC_CALLED_AGAIN
deriving DecidableEq, Repr

/-- Placement policies. -/
inductive alloc_policy where
  | FIRST_FIT
  | BEST_FIT
deriving DecidableEq, Repr

/-- A node of the node heap: `alloc_record.mem`, `alloc_record.size`, the two
flags and the two list links (slot numbers of the same heap). -/
structure node_t where
  mem : Nat
  size : Nat
  used : Nat
  allocated : Nat
  next : Option Nat
  prev : Option Nat
deriving DecidableEq, Repr

/-- An entry of the gap index: cached size and node pointer. -/
structure gap_t where
  size : Nat
  node : Option Nat
deriving DecidableEq, Repr

/-- The user-visible part of a pool. -/
structure pool_t where
  mem : Nat
  policy : alloc_policy
  total_size : Nat
  alloc_size : Nat
  num_allocs : Nat
  num_gaps : Nat
deriving DecidableEq, Repr

/-- The pool manager. -/
structure pool_mgr_t where
  pool : pool_t
  node_heap : List node_t
  total_nodes : Nat
  used_nodes : Nat
  gap_ix : List gap_t
  gap_ix_capacity : Nat
deriving DecidableEq, Repr

/-- A zeroed node, as `calloc` leaves it. -/
def node_zero : node_t := ⟨0, 0, 0, 0, none, none⟩

/-- A zeroed gap entry. -/
def gap_zero : gap_t := ⟨0, none⟩

/-- Read `node_heap[i]`. -/
def node_at (h : List node_t) (i : Nat) : node_t := h.getD i node_zero

/-- Write through a node pointer: `node_heap[i]` becomes `f node_heap[i]`. -/
def wr (h : List node_t) (i : Nat) (f : node_t → node_t) : List node_t :=
  h.set i (f (node_at h i))

/-- Read `gap_ix[i]`. -/
def gap_at (gx : List gap_t) (i : Nat) : gap_t := gx.getD i gap_zero

/-- Numeric value of a node pointer, up to order: `NULL` is below every slot and
slots are ordered by their number (they lie in one array). -/
def node_addr : Option Nat → Nat
  | none => 0
  | some i => i + 1

/-! ## `_mem_sort_gap_ix` (lines 582-603) -/

/-- The loop of `_mem_sort_gap_ix`; the argument is the loop variable `i`. -/
def sort_loop (gx : List gap_t) : Nat → List gap_t
  | 0 => gx
  | i + 1 =>
    let cur := gap_at gx (i + 1)
    let prv := gap_at gx i
    if cur.size < prv.size then
      sort_loop ((gx.set (i + 1) prv).set i cur) i
    else if cur.size = prv.size ∧ node_addr cur.node < node_addr prv.node then
      sort_loop ((gx.set (i + 1) { cur with node := prv.node }).set i { prv with node := cur.node }) i
    else gx

/-- Bubble the last entry of the gap index up; always `ALLOC_OK`. -/
def _mem_sort_gap_ix (mgr : pool_mgr_t) : pool_mgr_t × alloc_status :=
  ({ mgr with gap_ix := sort_loop mgr.gap_ix (u32 (mgr.pool.num_gaps + 4294967295)) },
    alloc_status.ALLOC_OK)

/-! ## `_mem_add_to_gap_ix` (lines 511-529) -/

/-- Append an entry to the gap index and sort; `none` when the `assert` on the
sort status fails. -/
def _mem_add_to_gap_ix (mgr : pool_mgr_t) (size : Nat) (node : Option Nat) :
    Option (pool_mgr_t × alloc_status) :=
  let gx := mgr.gap_ix.set mgr.pool.num_gaps ⟨size, node⟩
  let mgr1 : pool_mgr_t :=
    { mgr with gap_ix := gx, pool := { mgr.pool with num_gaps := u32 (mgr.pool.num_gaps + 1) } }
  let r := _mem_sort_gap_ix mgr1
  if r.2 = alloc_status.ALLOC_OK then some (r.1, r.2) else none

/-! ## `_mem_remove_from_gap_ix` (lines 550-579) -/

/-- The search loop: first `i` in `[i, i + k)` with `gap_ix[i].node == node`. -/
def gap_find (gx : List gap_t) (node : Option Nat) : Nat → Nat → Option Nat
  | _, 0 => none
  | i, k + 1 => if (gap_at gx i).node = node then some i else gap_find gx node (i + 1) k

/-- The shifting loop: `k` iterations of `gap_ix[i] = gap_ix[i + 1]` from `i` on. -/
def gap_shift (gx : List gap_t) : Nat → Nat → List gap_t
  | _, 0 => gx
  | i, k + 1 => gap_shift (gx.set i (gap_at gx (i + 1))) (i + 1) k

/-- Remove the entry of `node` from the gap index. -/
def _mem_remove_from_gap_ix (mgr : pool_mgr_t) (_size : Nat) (node : Option Nat) :
    pool_mgr_t × alloc_status :=
  match gap_find mgr.gap_ix node 0 mgr.pool.num_gaps with
  | none => (mgr, alloc_status.ALLOC_FAIL)
  | some position =>
    let gx := gap_shift mgr.gap_ix position (u32 (mgr.pool.num_gaps + 4294967295) - position)
    let n := u32 (mgr.pool.num_gaps + 4294967295)
    ({ mgr with gap_ix := gx.set n gap_zero, pool := { mgr.pool with num_gaps := n } },
      alloc_status.ALLOC_OK)

/-! ## `mem_pool_open` (lines 139-208) -/

/-- Build the manager of a new pool.  `new_mem` is the address `malloc(size)`
returned (`0` when it failed, and then no pool is opened); the three `calloc`
calls are taken to succeed and the registry to be initialised.  The link into
the pool store (lines 202-204) does not touch the manager. -/
def mem_pool_open (new_mem : Nat) (size : Nat) (policy : alloc_policy) : Option pool_mgr_t :=
  if new_mem = 0 then none
  else
    let new_heap := (List.replicate MEM_NODE_HEAP_INIT_CAPACITY node_zero).set 0
      { mem := new_mem, size := size, used := 1, allocated := 0, next := none, prev := none }
    let new_gap := (List.replicate MEM_GAP_IX_INIT_CAPACITY gap_zero).set 0
      { size := size, node := some 0 }
    some
      { pool :=
          { mem := new_mem, policy := policy, total_size := size, alloc_size := 0,
            num_allocs := 0, num_gaps := 1 }
        node_heap := new_heap
        total_nodes := MEM_NODE_HEAP_INIT_CAPACITY
        used_nodes := 1
        gap_ix := new_gap
        gap_ix_capacity := MEM_GAP_IX_INIT_CAPACITY }

/-! ## `mem_new_alloc` (lines 246-343) -/

/-- The first-fit walk (lines 262-269).  The first argument bounds the number
of nodes visited; with `total_nodes` it is exact: a walk that has visited that
many nodes without reaching `NULL` is inside a cycle of non-matching nodes and
the C loop does not terminate (`none`). -/
def first_fit (h : List node_t) (size : Nat) : Nat → Option Nat → Option (Option Nat)
  | _, none => some none
  | 0, some _ => none
  | fuel + 1, some i =>
    if (node_at h i).allocated = 0 ∧ (node_at h i).size ≥ size then some (some i)
    else first_fit h size fuel (node_at h i).next

/-- The best-fit scan of the gap index (lines 273-279), entries `[i, i + k)`. -/
def best_fit (gx : List gap_t) (size : Nat) : Nat → Nat → Option Nat
  | _, 0 => none
  | i, k + 1 => if (gap_at gx i).size ≥ size then (gap_at gx i).node else best_fit gx size (i + 1) k

/-- The search for an unused slot (lines 305-310), slots `[i, i + k)`. -/
def find_unused (h : List node_t) : Nat → Nat → Option Nat
  | _, 0 => none
  | i, k + 1 => if (node_at h i).used = 0 then some i else find_unused h (i + 1) k

/-- Lines 314-327: initialise the new gap node `n` after `g` and link it in. -/
def link_new_gap (h : List node_t) (g n : Nat) (size remaining_gap : Nat) : List node_t :=
  let h1 := wr h n (fun nd => { nd with
    used := 1, allocated := 0, mem := (node_at h g).mem + size, size := remaining_gap })
  let h2 := wr h1 n (fun nd => { nd with next := (node_at h1 g).next })
  let h3 := match (node_at h2 g).next with
    | some x => wr h2 x (fun nd => { nd with prev := some n })
    | none => h2
  let h4 := wr h3 n (fun nd => { nd with prev := some g })
  wr h4 g (fun nd => { nd with next := some n })

/-- Lines 259-280: choose the gap node under the pool policy.  `none` is a
first-fit walk that does not terminate, `some none` is "no node found". -/
def select_gap (mgr : pool_mgr_t) (size : Nat) : Option (Option Nat) :=
  if mgr.pool.policy = alloc_policy.FIRST_FIT then
    first_fit mgr.node_heap size mgr.total_nodes (some 0)
  else some (best_fit mgr.gap_ix size 0 mgr.pool.num_gaps)

/-- Lines 284-342: turn the gap node `g` into an allocation of `size` bytes and
give the rest of it to a new gap node. -/
def carve (mgr : pool_mgr_t) (size : Nat) (g : Nat) : Option (pool_mgr_t × Nat) :=
  let mgr1 : pool_mgr_t := { mgr with pool := { mgr.pool with
    num_allocs := u32 (mgr.pool.num_allocs + 1),
    alloc_size := u64 (mgr.pool.alloc_size + size) } }
  let remaining_gap := u64 ((node_at mgr1.node_heap g).size + 18446744073709551616 - size)
  let r := _mem_remove_from_gap_ix mgr1 (node_at mgr1.node_heap g).size (some g)
  if r.2 ≠ alloc_status.ALLOC_OK then none
  else
    let mgr2 := r.1
    let mgr3 : pool_mgr_t :=
      { mgr2 with node_heap := wr mgr2.node_heap g (fun nd => { nd with allocated := 1, size := size }) }
    if remaining_gap > 0 then
      match find_unused mgr3.node_heap 0 mgr3.total_nodes with
      | none => some (mgr3, 0)
      | some n =>
        let mgr4 : pool_mgr_t :=
          { mgr3 with
            node_heap := link_new_gap mgr3.node_heap g n size remaining_gap
            used_nodes := u32 (mgr3.used_nodes + 1) }
        match _mem_add_to_gap_ix mgr4 remaining_gap (some n) with
        | none => none
        | some (mgr5, _) => some (mgr5, (node_at mgr5.node_heap g).mem)
    else some (mgr3, (node_at mgr3.node_heap g).mem)

/-- Allocate `size` bytes.  The result is the new manager state and the address
returned (`0` for `NULL`).  The guard on `gap_ix` (line 250) is never taken:
the index of an open pool is allocated. -/
def mem_new_alloc (mgr : pool_mgr_t) (size : Nat) : Option (pool_mgr_t × Nat) :=
  if mgr.used_nodes ≥ mgr.total_nodes then some (mgr, 0)
  else
    match select_gap mgr size with
    | none => none
    | some none => some (mgr, 0)
    | some (some g) => carve mgr size g

/-! ## `mem_del_alloc` (lines 345-452) -/

/-- The search for the node to delete (lines 352-358), slots `[i, i + k)`. -/
def find_mem (h : List node_t) (alloc : Nat) : Nat → Nat → Option Nat
  | _, 0 => none
  | i, k + 1 => if (node_at h i).mem = alloc then some i else find_mem h alloc (i + 1) k

/-- Lines 378-404: the heap writes of the merge of `d` with its next node `x`. -/
def absorb_next (h0 : List node_t) (d x : Nat) : List node_t :=
  let h1 := wr h0 d (fun nd => { nd with size := u64 (nd.size + (node_at h0 x).size) })
  let h2 := wr h1 x (fun nd => { nd with used := 0 })
  let h3 := match (node_at h2 x).next with
    | some y =>
      let h2a := wr h2 y (fun nd => { nd with prev := some d })
      wr h2a d (fun nd => { nd with next := (node_at h2a x).next })
    | none => wr h2 d (fun nd => { nd with next := none })
  let h4 := wr h3 x (fun nd => { nd with next := none })
  wr h4 x (fun nd => { nd with prev := none })

/-- Lines 373-405: absorb the next node into `d` when it is a used gap. -/
def merge_next (mgr : pool_mgr_t) (d : Nat) : Option pool_mgr_t :=
  match (node_at mgr.node_heap d).next with
  | none => some mgr
  | some x =>
    if (node_at mgr.node_heap x).used = 1 ∧ (node_at mgr.node_heap x).allocated = 0 then
      let r := _mem_remove_from_gap_ix mgr (node_at mgr.node_heap x).size (some x)
      if r.2 ≠ alloc_status.ALLOC_OK then none
      else
        some { r.1 with
          node_heap := absorb_next r.1.node_heap d x
          used_nodes := u32 (r.1.used_nodes + 4294967295) }
    else some mgr

/-- Lines 415-440: the heap writes of the merge of `d` into its previous node `p`. -/
def absorb_prev (h0 : List node_t) (d p : Nat) : List node_t :=
  let h1 := wr h0 p (fun nd => { nd with size := u64 (nd.size + (node_at h0 d).size) })
  let h2 := wr h1 d (fun nd => { nd with used := 0 })
  let h3 := match (node_at h2 d).next with
    | some y =>
      let h2a := wr h2 p (fun nd => { nd with next := (node_at h2 d).next })
      wr h2a y (fun nd => { nd with prev := some p })
    | none => wr h2 p (fun nd => { nd with next := none })
  let h4 := wr h3 d (fun nd => { nd with next := none })
  wr h4 d (fun nd => { nd with prev := none })

/-- Lines 410-444: absorb `d` into the previous node when that is a used gap.
The second component is the node to add to the gap index. -/
def merge_prev (mgr : pool_mgr_t) (d : Nat) : Option (pool_mgr_t × Nat) :=
  match (node_at mgr.node_heap d).prev with
  | none => some (mgr, d)
  | some p =>
    if (node_at mgr.node_heap p).used = 1 ∧ (node_at mgr.node_heap p).allocated = 0 then
      let r := _mem_remove_from_gap_ix mgr (node_at mgr.node_heap p).size (some p)
      if r.2 ≠ alloc_status.ALLOC_OK then none
      else
        some ({ r.1 with
          node_heap := absorb_prev r.1.node_heap d p
          used_nodes := u32 (r.1.used_nodes + 4294967295) }, p)
    else some (mgr, d)

/-- Lines 363-368: convert the node to a gap node and update the pool metadata. -/
def mark_free (mgr : pool_mgr_t) (d : Nat) : pool_mgr_t :=
  let h1 := wr mgr.node_heap d (fun nd => { nd with allocated := 0 })
  { mgr with
    node_heap := h1
    pool := { mgr.pool with
      num_allocs := u32 (mgr.pool.num_allocs + 4294967295)
      alloc_size := u64 (mgr.pool.alloc_size + 18446744073709551616 - (node_at h1 d).size) } }

/-- Release the allocation at address `alloc`. -/
def mem_del_alloc (mgr : pool_mgr_t) (alloc : Nat) : Option (pool_mgr_t × alloc_status) :=
  match find_mem mgr.node_heap alloc 0 mgr.total_nodes with
  | none => some (mgr, alloc_status.ALLOC_FAIL)
  | some d =>
    match merge_next (mark_free mgr d) d with
    | none => none
    | some mgr2 =>
      match merge_prev mgr2 d with
      | none => none
      | some (mgr3, r) => _mem_add_to_gap_ix mgr3 (node_at mgr3.node_heap r).size (some r)

/-! ## Observations and invariants -/

/-- Slot `i` holds a free segment (a gap). -/
def is_gap (mgr : pool_mgr_t) (i : Nat) : Prop :=
  i < mgr.total_nodes ∧ (node_at mgr.node_heap i).used = 1 ∧ (node_at mgr.node_heap i).allocated = 0

/-- Slot `i` holds an allocated segment. -/
def is_alloc (mgr : pool_mgr_t) (i : Nat) : Prop :=
  i < mgr.total_nodes ∧ (node_at mgr.node_heap i).used = 1 ∧ (node_at mgr.node_heap i).allocated = 1

/-- Address `a` is the base of a currently allocated segment. -/
def allocated_at (mgr : pool_mgr_t) (a : Nat) : Prop :=
  ∃ i, is_alloc mgr i ∧ (node_at mgr.node_heap i).mem = a

/-- The walk along `next` pointers, at most `fuel` nodes. -/
def seg_walk (h : List node_t) : Nat → Option Nat → List Nat
  | _, none => []
  | 0, some _ => []
  | fuel + 1, some i => i :: seg_walk h fuel (node_at h i).next

/-- The slots of the segment list, in list order from slot 0. -/
def seg_slots (mgr : pool_mgr_t) : List Nat :=
  seg_walk mgr.node_heap mgr.total_nodes (some 0)

/-- A segment as the triple (base, size, allocated). -/
def seg_of (h : List node_t) (i : Nat) : Nat × Nat × Nat :=
  ((node_at h i).mem, (node_at h i).size, (node_at h i).allocated)

/-- The segments of the pool in list order. -/
def seg_view (mgr : pool_mgr_t) : List (Nat × Nat × Nat) :=
  (seg_slots mgr).map (seg_of mgr.node_heap)

/-- Pool states reachable from `mem_pool_open` under a policy by allocations of
positive size and deallocations of currently allocated addresses. -/
inductive Reachable (policy : alloc_policy) : pool_mgr_t → Prop where
  | opened (new_mem size : Nat) (mgr : pool_mgr_t) :
      0 < size → size < 18446744073709551616 →
      mem_pool_open new_mem size policy = some mgr → Reachable policy mgr
  | alloc (mgr mgr' : pool_mgr_t) (size p : Nat) :
      Reachable policy mgr → 0 < size →
      mem_new_alloc mgr size = some (mgr', p) → Reachable policy mgr'
  | del (mgr mgr' : pool_mgr_t) (a : Nat) (st : alloc_status) :
      Reachable policy mgr → allocated_at mgr a →
      mem_del_alloc mgr a = some (mgr', st) → Reachable policy mgr'

/-- Head of a slot list, or `q` when it is empty. -/
def headOr (l : List Nat) (q : Option Nat) : Option Nat :=
  match l with
  | [] => q
  | j :: _ => some j

/-- Last element of a slot list, or `p` when it is empty. -/
def lastOr (l : List Nat) (p : Option Nat) : Option Nat :=
  match l with
  | [] => p
  | j :: r => lastOr r (some j)

/-- The slots of `l` are doubly linked in this order, entered from `p` and left
to `q`. -/
def ChainSeg (h : List node_t) : Option Nat → List Nat → Option Nat → Prop
  | _, [], _ => True
  | p, i :: r, q =>
    (node_at h i).prev = p ∧ (node_at h i).next = headOr r q ∧ ChainSeg h (some i) r q

/-- The segments tile the address range `[a, b)` with positive sizes. -/
def Tiles : List (Nat × Nat × Nat) → Nat → Nat → Prop
  | [], a, b => a = b
  | v :: r, a, b => v.1 = a ∧ 0 < v.2.1 ∧ Tiles r (a + v.2.1) b

/-- No two neighbours are both free. -/
def NoAdj (vs : List (Nat × Nat × Nat)) : Prop :=
  List.Chain' (fun a b => ¬ (a.2.2 = 0 ∧ b.2.2 = 0)) vs

/-- The order the gap index is kept in: by size, then by node pointer. -/
def gap_lt (a b : gap_t) : Prop :=
  a.size < b.size ∨ (a.size = b.size ∧ node_addr a.node < node_addr b.node)

/-- The first `n` entries of `gx` are exactly the entries of the slots in `F`,
with their current sizes, in strictly increasing `gap_lt` order. -/
def GapSet (h : List node_t) (F : Nat → Prop) (gx : List gap_t) (n : Nat) : Prop :=
  n ≤ gx.length ∧
  (∀ j, j < n → ∃ i, F i ∧ gap_at gx j = ⟨(node_at h i).size, some i⟩) ∧
  (∀ i, F i → ∃ j, j < n ∧ gap_at gx j = ⟨(node_at h i).size, some i⟩) ∧
  (∀ j k, j < k → k < n → gap_lt (gap_at gx j) (gap_at gx k))

/-- Sum of the sizes of the allocated segments of a view. -/
def alloc_sum (vs : List (Nat × Nat × Nat)) : Nat :=
  ((vs.filter (fun v => v.2.2 = 1)).map (fun v => v.2.1)).sum

/-- Number of allocated segments of a view. -/
def alloc_count (vs : List (Nat × Nat × Nat)) : Nat :=
  (vs.filter (fun v => v.2.2 = 1)).length

/-- The structural part of the pool invariant, for the slot list `l`. -/
structure Shape (m : pool_mgr_t) (l : List Nat) : Prop where
  heap_len : m.node_heap.length = 40
  total : m.total_nodes = 40
  gx_len : m.gap_ix.length = 40
  head : l.head? = some 0
  nodup : l.Nodup
  bound : ∀ i, i ∈ l → i < 40
  used : ∀ i, (node_at m.node_heap i).used = if i ∈ l then 1 else 0
  used_nodes : m.used_nodes = l.length
  chain : ChainSeg m.node_heap none l none
  tiles : Tiles (l.map (seg_of m.node_heap)) m.pool.mem (m.pool.mem + m.pool.total_size)
  alloc01 : ∀ i, i ∈ l → (node_at m.node_heap i).allocated = 0 ∨ (node_at m.node_heap i).allocated = 1
  stale : ∀ i, i ∈ l → ∀ j, j < i → (node_at m.node_heap j).mem ≠ (node_at m.node_heap i).mem
  size_bound : m.pool.total_size < 18446744073709551616
  mem_pos : m.pool.mem ≠ 0
  bal_size : m.pool.alloc_size = alloc_sum (l.map (seg_of m.node_heap))
  bal_num : m.pool.num_allocs = alloc_count (l.map (seg_of m.node_heap))

/-- The pool invariant, for the slot list `l`. -/
structure Rep (m : pool_mgr_t) (l : List Nat) : Prop where
  shape : Shape m l
  noadj : NoAdj (l.map (seg_of m.node_heap))
  gaps : GapSet m.node_heap (fun i => i ∈ l ∧ (node_at m.node_heap i).allocated = 0)
    m.gap_ix m.pool.num_gaps

/-- The state inside `mem_del_alloc` between its steps: the node `d` is
already marked free but not yet in the gap index, and may still have free
neighbours. -/
structure Mid (m : pool_mgr_t) (pre : List Nat) (d : Nat) (post : List Nat) : Prop where
  shape : Shape m (pre ++ d :: post)
  dfree : (node_at m.node_heap d).allocated = 0
  gaps : GapSet m.node_heap
    (fun i => (i ∈ pre ++ d :: post ∧ (node_at m.node_heap i).allocated = 0) ∧ i ≠ d)
    m.gap_ix m.pool.num_gaps
  noadj_pre : NoAdj (pre.map (seg_of m.node_heap))
  noadj_post : NoAdj (post.map (seg_of m.node_heap))

/-! ## Traces and example pools -/

/-- One call of a client of an open pool. -/
inductive pool_op where
  | alloc (size : Nat)
  | free (addr : Nat)
deriving DecidableEq, Repr

/-- Run a sequence of calls and keep the list of addresses that were returned
and not yet deallocated.  The run is `none` when a call is not of the kind the
round-trip property speaks of: an allocation of size `0` or one that returns
`NULL`, or a deallocation of an address that is not outstanding. -/
def run_trace : pool_mgr_t → List Nat → List pool_op → Option (pool_mgr_t × List Nat)
  | m, live, [] => some (m, live)
  | m, live, pool_op.alloc s :: ops =>
    if s = 0 then none
    else
      match mem_new_alloc m s with
      | some (m', p) => if p = 0 then none else run_trace m' (p :: live) ops
      | none => none
  | m, live, pool_op.free a :: ops =>
    if a ∈ live then
      match mem_del_alloc m a with
      | some (m', _) => run_trace m' (live.erase a) ops
      | none => none
    else none

/-- No two neighbours in the segment list are both free. -/
def no_adjacent_free (m : pool_mgr_t) : Prop :=
  ∀ a b, a < m.total_nodes → (node_at m.node_heap a).used = 1 →
    (node_at m.node_heap a).next = some b →
    ¬ ((node_at m.node_heap a).allocated = 0 ∧ (node_at m.node_heap b).allocated = 0)

/-- A manager that stands for "no pool" in the examples. -/
def no_pool : pool_mgr_t := ⟨⟨0, alloc_policy.FIRST_FIT, 0, 0, 0, 0⟩, [], 0, 0, [], 0⟩

/-- The state after an allocation (unchanged when the call does not return). -/
def after_alloc (m : pool_mgr_t) (s : Nat) : pool_mgr_t :=
  match mem_new_alloc m s with
  | some (m', _) => m'
  | none => m

/-- The state after a deallocation (unchanged when the call does not return). -/
def after_del (m : pool_mgr_t) (a : Nat) : pool_mgr_t :=
  match mem_del_alloc m a with
  | some (m', _) => m'
  | none => m

/-- Example: a first-fit pool of 1000 bytes at address 1000, just opened. -/
def ff0 : pool_mgr_t := (mem_pool_open 1000 1000 alloc_policy.FIRST_FIT).getD no_pool

/-- Example: three allocations of 100 bytes. -/
def ff3 : pool_mgr_t := after_alloc (after_alloc (after_alloc ff0 100) 100) 100

/-- Example: then the allocations at 1100 and 1000 are released (they coalesce). -/
def ff5 : pool_mgr_t := after_del (after_del ff3 1100) 1000

/-- Example: from `ff3`, the allocations at 1000 and 1200 are released. -/
def ff5b : pool_mgr_t := after_del (after_del ff3 1000) 1200

/-- Example: a best-fit pool of 1000 bytes at address 1000, just opened. -/
def bf0 : pool_mgr_t := (mem_pool_open 1000 1000 alloc_policy.BEST_FIT).getD no_pool

/-- Example: allocations of 100, 100 and 250 bytes. -/
def bf3 : pool_mgr_t := after_alloc (after_alloc (after_alloc bf0 100) 100) 250

/-- Example: the first two are released, then 300 and 200 bytes are allocated. -/
def bf7 : pool_mgr_t := after_alloc (after_alloc (after_del (after_del bf3 1000) 1100) 300) 200

/-- Example: the allocation at 1200 is released; the pool has two gaps of 250
bytes, slot 2 at address 1200 and slot 1 at address 1750. -/
def bf8 : pool_mgr_t := after_del bf7 1200

/-! ## `mem_inspect_pool` (lines 454-479) -/

/-- An element of the array `mem_inspect_pool` hands out (`pool_segment_t` of
`mem_pool.h`). -/
structure pool_segment_t where
  size : Nat
  allocated : Nat
deriving DecidableEq, Repr

/-- The loop of lines 466-472, `k` iterations from the node `cur`.  `none` is the
read through `current_node` when it is `NULL`. -/
def inspect_loop (h : List node_t) : Nat → Option Nat → Option (List pool_segment_t)
  | 0, _ => some []
  | _ + 1, none => none
  | k + 1, some i =>
    match inspect_loop h k (node_at h i).next with
    | none => none
    | some r => some (⟨(node_at h i).size, (node_at h i).allocated⟩ :: r)

/-- Report the segments of the pool: the manager after the call, the array
written to `*segments` and the value written to `*num_segments`.  The `calloc`
of the array is taken to succeed. -/
def mem_inspect_pool (mgr : pool_mgr_t) : Option (pool_mgr_t × List pool_segment_t × Nat) :=
  match inspect_loop mgr.node_heap mgr.used_nodes (some 0) with
  | none => none
  | some segs => some (mgr, segs, mgr.used_nodes)

/-! ## The pool store (lines 64-66, 100-137, 139-144, 202-204, 210-244) -/

/-- Number of manager pointers the pool store is allocated with. -/
def MEM_POOL_STORE_INIT_CAPACITY : Nat := 20

/-- The three static variables: `pool_store` (`none` for `NULL`, otherwise the
array of manager pointers, `0` for a `NULL` entry), `pool_store_size` and
`pool_store_capacity`. -/
structure store_t where
  pool_store : Option (List Nat)
  pool_store_size : Nat
  pool_store_capacity : Nat
deriving DecidableEq, Repr

/-- The static variables as the program starts with them. -/
def store_null : store_t := ⟨none, 0, 0⟩

/-- Read `pool_store[i]`. -/
def store_at (arr : List Nat) (i : Nat) : Nat := arr.getD i 0

/-- Set up the pool store; `calloc_ok` tells whether `calloc` succeeded. -/
def mem_init (st : store_t) (calloc_ok : Bool) : store_t × alloc_status :=
  match st.pool_store with
  | none =>
    if calloc_ok then
      (⟨some (List.replicate MEM_POOL_STORE_INIT_CAPACITY 0), 0, MEM_POOL_STORE_INIT_CAPACITY⟩,
        alloc_status.ALLOC_OK)
    else (st, alloc_status.ALLOC_FAIL)
  | some _ => (st, alloc_status.ALLOC_CALLED_AGAIN)

/-- The loop of lines 122-126 over the entries `[i, i + k)`: is one of them not
`NULL`? -/
def store_live (arr : List Nat) : Nat → Nat → Bool
  | _, 0 => false
  | i, k + 1 => if store_at arr i ≠ 0 then true else store_live arr (i + 1) k

/-- Tear the pool store down. -/
def mem_free (st : store_t) : store_t × alloc_status :=
  match st.pool_store with
  | some arr =>
    if store_live arr 0 st.pool_store_capacity then (st, alloc_status.ALLOC_NOT_FREED)
    else (⟨none, 0, 0⟩, alloc_status.ALLOC_OK)
  | none => (st, alloc_status.ALLOC_CALLED_AGAIN)

/-- Open a pool, with the pool store: `mem_pool_open` as a whole.  `new_mgr` is
the pointer `calloc` returned for the manager and `new_mem` the one `malloc`
returned for the pool (`0` when it failed).  The result is the store, the
handle returned (`0` for `NULL`) and the manager built.  `none` stands for the
write `pool_store[pool_store_size] = new_mgr` (line 203) when the index lies
outside the array that was allocated: the program has no defined behaviour
then. -/
def mem_pool_open_reg (st : store_t) (new_mgr new_mem size : Nat) (policy : alloc_policy) :
    Option (store_t × Nat × Option pool_mgr_t) :=
  match st.pool_store with
  | none => some (st, 0, none)
  | some arr =>
    if new_mgr = 0 then some (st, 0, none)
    else
      match mem_pool_open new_mem size policy with
      | none => some (st, 0, none)
      | some mgr =>
        if st.pool_store_size < arr.length then
          some (⟨some (arr.set st.pool_store_size new_mgr), u32 (st.pool_store_size + 1),
            st.pool_store_capacity⟩, new_mgr, some mgr)
        else none

/-- The search of lines 233-238 over the entries `[i, i + k)`. -/
def store_find (arr : List Nat) (p : Nat) : Nat → Nat → Option Nat
  | _, 0 => none
  | i, k + 1 => if store_at arr i = p then some i else store_find arr p (i + 1) k

/-- Close the pool behind the handle `p`, whose manager is `mgr`.  The result is
the store, the manager (`none` once it is freed) and the status.  While
`pool_store` is `NULL` the capacity is 0 and the loop of lines 233-238 does not
run. -/
def mem_pool_close (st : store_t) (p : Nat) (mgr : pool_mgr_t) :
    store_t × Option pool_mgr_t × alloc_status :=
  if mgr.pool.alloc_size > 0 then (st, some mgr, alloc_status.ALLOC_NOT_FREED)
  else if mgr.pool.num_gaps > 1 then (st, some mgr, alloc_status.ALLOC_NOT_FREED)
  else if mgr.pool.num_allocs > 0 then (st, some mgr, alloc_status.ALLOC_NOT_FREED)
  else
    match st.pool_store with
    | none => (st, none, alloc_status.ALLOC_OK)
    | some arr =>
      match store_find arr p 0 st.pool_store_capacity with
      | some i => ({ st with pool_store := some (arr.set i 0) }, none, alloc_status.ALLOC_OK)
      | none => (st, none, alloc_status.ALLOC_OK)

/-! ## The library as a whole -/

/-- The pool store together with the managers that are allocated, by handle. -/
structure world where
  store : store_t
  pools : List (Nat × pool_mgr_t)
deriving DecidableEq, Repr

/-- The manager behind a handle. -/
def pool_get : List (Nat × pool_mgr_t) → Nat → Option pool_mgr_t
  | [], _ => none
  | e :: r, p => if e.1 = p then some e.2 else pool_get r p

/-- Replace the manager behind a handle. -/
def pool_set : List (Nat × pool_mgr_t) → Nat → pool_mgr_t → List (Nat × pool_mgr_t)
  | [], _, _ => []
  | e :: r, p, m => if e.1 = p then (p, m) :: r else e :: pool_set r p m

/-- Drop the manager behind a handle. -/
def pool_del : List (Nat × pool_mgr_t) → Nat → List (Nat × pool_mgr_t)
  | [], _ => []
  | e :: r, p => if e.1 = p then r else e :: pool_del r p

/-- A call of one of the six user-facing functions that change state. -/
inductive reg_call where
  | init (calloc_ok : Bool)
  | free
  | open_pool (new_mgr new_mem size : Nat) (policy : alloc_policy)
  | close (p : Nat)
  | alloc (p size : Nat)
  | del (p a : Nat)
deriving DecidableEq, Repr

/-- One call.  `none` is a call without defined behaviour: a handle that is not
open, a write outside the pool store, a failed `assert`. -/
def reg_step (w : world) : reg_call → Option world
  | reg_call.init ok => some { w with store := (mem_init w.store ok).1 }
  | reg_call.free => some { w with store := (mem_free w.store).1 }
  | reg_call.open_pool new_mgr new_mem size policy =>
    match mem_pool_open_reg w.store new_mgr new_mem size policy with
    | none => none
    | some (st, _, none) => some { w with store := st }
    | some (st, p, some mgr) => some ⟨st, (p, mgr) :: w.pools⟩
  | reg_call.close p =>
    match pool_get w.pools p with
    | none => none
    | some mgr =>
      match mem_pool_close w.store p mgr with
      | (st, none, _) => some ⟨st, pool_del w.pools p⟩
      | (st, some _, _) => some { w with store := st }
  | reg_call.alloc p size =>
    match pool_get w.pools p with
    | none => none
    | some mgr =>
      match mem_new_alloc mgr size with
      | none => none
      | some (mgr', _) => some { w with pools := pool_set w.pools p mgr' }
  | reg_call.del p a =>
    match pool_get w.pools p with
    | none => none
    | some mgr =>
      match mem_del_alloc mgr a with
      | none => none
      | some (mgr', _) => some { w with pools := pool_set w.pools p mgr' }

/-- What the C library guarantees about a call: the pointer `calloc` returns
for a new manager is not one of the managers that are allocated, and a size is a
`size_t`. -/
def env_ok (w : world) : reg_call → Prop
  | reg_call.open_pool new_mgr _ size _ =>
    new_mgr ∉ w.pools.map (fun e => e.1) ∧ size < 18446744073709551616
  | reg_call.alloc _ size => size < 18446744073709551616
  | _ => True

/-- Whether a call is within what the C library guarantees can be checked. -/
instance env_ok_dec (w : world) : (c : reg_call) → Decidable (env_ok w c)
  | reg_call.open_pool new_mgr _ size _ =>
    inferInstanceAs (Decidable
      (new_mgr ∉ w.pools.map (fun e : Nat × pool_mgr_t => e.1) ∧ size < 18446744073709551616))
  | reg_call.alloc _ size => inferInstanceAs (Decidable (size < 18446744073709551616))
  | reg_call.init _ => isTrue trivial
  | reg_call.free => isTrue trivial
  | reg_call.close _ => isTrue trivial
  | reg_call.del _ _ => isTrue trivial

/-- The library before the first call. -/
def world0 : world := ⟨store_null, []⟩

/-- The states of the library reachable by calls with defined behaviour. -/
inductive WReach : world → Prop where
  | start : WReach world0
  | step (w w' : world) (c : reg_call) :
      WReach w → env_ok w c → reg_step w c = some w' → WReach w'

/-- Run a list of calls; `none` when one of them has no defined behaviour or
is outside what the C library guarantees. -/
def run_calls : world → List reg_call → Option world
  | w, [] => some w
  | w, c :: cs =>
    if env_ok w c then
      match reg_step w c with
      | none => none
      | some w' => run_calls w' cs
    else none

/-- The invariant of the library state: the non-null entries of the pool store
are, without repetition, the handles of the managers that are allocated, and
they lie below `pool_store_size`. -/
structure WInv (w : world) : Prop where
  keys_nodup : (w.pools.map (fun e => e.1)).Nodup
  keys_pos : ∀ p, p ∈ w.pools.map (fun e => e.1) → p ≠ 0
  closed : w.store.pool_store = none →
    w.pools = [] ∧ w.store.pool_store_size = 0 ∧ w.store.pool_store_capacity = 0
  opened : ∀ arr, w.store.pool_store = some arr →
    arr.length = 20 ∧ w.store.pool_store_capacity = 20 ∧ w.store.pool_store_size ≤ 20 ∧
    (∀ i, w.store.pool_store_size ≤ i → store_at arr i = 0) ∧
    (∀ p, p ≠ 0 → ((∃ i, i < 20 ∧ store_at arr i = p) ↔ p ∈ w.pools.map (fun e => e.1))) ∧
    (∀ i j, i < 20 → j < 20 → store_at arr i = store_at arr j → store_at arr i ≠ 0 → i = j)

/-- Example: `mem_init`, then twenty pools of 8 bytes are opened; the managers
are at the addresses 1 to 20. -/
def calls20 : List reg_call :=
  reg_call.init true ::
    (List.range 20).map (fun i =>
      reg_call.open_pool (i + 1) (1000 + 8 * i) 8 alloc_policy.FIRST_FIT)

/-- Example: the library after `calls20`. -/
def world20 : world := (run_calls world0 calls20).getD world0

/-- Example: `k` times, a pool of 8 bytes is opened and closed again; the
managers are at the addresses 1 to `k`. -/
def open_close_calls : Nat → List reg_call
  | 0 => []
  | k + 1 =>
    open_close_calls k ++
      [reg_call.open_pool (k + 1) (1000 + 8 * k) 8 alloc_policy.FIRST_FIT, reg_call.close (k + 1)]

/-- Example: the library after `mem_init` and twenty pools opened and closed. -/
def world20c : world :=
  (run_calls world0 (reg_call.init true :: open_close_calls 20)).getD world0

/-- Example: `mem_init`, then one first-fit pool of 1000 bytes at address 1000 is
opened, with its manager at address 7. -/
def world1 : world :=
  (run_calls world0
    [reg_call.init true, reg_call.open_pool 7 1000 1000 alloc_policy.FIRST_FIT]).getD world0

/-! ## The calls of `_mem_add_to_gap_ix` (lines 330 and 447) -/

/-- Lines 284-297 of `mem_new_alloc`: the manager once the gap node `g` is taken
out of the gap index and converted to an allocation of `size` bytes. -/
def carve_converted (mgr : pool_mgr_t) (size g : Nat) : pool_mgr_t :=
  let mgr1 : pool_mgr_t := { mgr with pool := { mgr.pool with
    num_allocs := u32 (mgr.pool.num_allocs + 1),
    alloc_size := u64 (mgr.pool.alloc_size + size) } }
  let mgr2 := (_mem_remove_from_gap_ix mgr1 (node_at mgr1.node_heap g).size (some g)).1
  { mgr2 with node_heap := wr mgr2.node_heap g (fun nd => { nd with allocated := 1, size := size }) }

/-- The manager `mem_new_alloc` passes to `_mem_add_to_gap_ix` on line 330, when
the new gap node is `n` (lines 314-327 applied to `carve_converted`). -/
def carve_add_arg (mgr : pool_mgr_t) (size g n : Nat) : pool_mgr_t :=
  let mgr3 := carve_converted mgr size g
  { mgr3 with
    node_heap := link_new_gap mgr3.node_heap g n size
      (u64 ((node_at mgr.node_heap g).size + 18446744073709551616 - size))
    used_nodes := u32 (mgr3.used_nodes + 1) }

/-- The manager and the node `mem_del_alloc` passes to `_mem_add_to_gap_ix` on
line 447, when the node to delete is `d`; `none` when an `assert` fails on the
way. -/
def del_add_arg (mgr : pool_mgr_t) (d : Nat) : Option (pool_mgr_t × Nat) :=
  match merge_next (mark_free mgr d) d with
  | none => none
  | some mgr2 => merge_prev mgr2 d

/-- Number of free segments of a view. -/
def free_count (vs : List (Nat × Nat × Nat)) : Nat :=
  (vs.filter (fun v => v.2.2 = 0)).length

/-! ## Lemmas -/

theorem node_at_ge (h : List node_t) (j : Nat) (hj : h.length ≤ j) : node_at h j = node_zero := by
  unfold node_at
  rw [List.getD_eq_getElem?_getD, List.getElem?_eq_none hj]; rfl

theorem gap_at_ge (h : List gap_t) (j : Nat) (hj : h.length ≤ j) : gap_at h j = gap_zero := by
  unfold gap_at
  rw [List.getD_eq_getElem?_getD, List.getElem?_eq_none hj]; rfl

theorem node_at_set (h : List node_t) (i j : Nat) (x : node_t) :
    node_at (h.set i x) j = if j = i ∧ i < h.length then x else node_at h j := by
  by_cases hji : j = i
  · subst hji
    by_cases hl : j < h.length
    · simp [node_at, List.getD_eq_getElem?_getD, hl]
    · rw [if_neg (by omega), node_at_ge _ _ (by simp; omega), node_at_ge _ _ (by omega)]
  · have : ¬ i = j := fun e => hji e.symm
    simp [node_at, List.getD_eq_getElem?_getD, List.getElem?_set, hji, this]

theorem gap_at_set (h : List gap_t) (i j : Nat) (x : gap_t) :
    gap_at (h.set i x) j = if j = i ∧ i < h.length then x else gap_at h j := by
  by_cases hji : j = i
  · subst hji
    by_cases hl : j < h.length
    · simp [gap_at, List.getD_eq_getElem?_getD, hl]
    · rw [if_neg (by omega), gap_at_ge _ _ (by simp; omega), gap_at_ge _ _ (by omega)]
  · have : ¬ i = j := fun e => hji e.symm
    simp [gap_at, List.getD_eq_getElem?_getD, List.getElem?_set, hji, this]

theorem gap_shift_at (k : Nat) : ∀ (gx : List gap_t) (i j : Nat),
    gap_at (gap_shift gx i k) j =
      if i ≤ j ∧ j < i + k then gap_at gx (j + 1) else gap_at gx j := by
  induction k with
  | zero =>
    intro gx i j
    have : ¬ (i ≤ j ∧ j < i) := by omega
    simp [gap_shift, this]
  | succ k ih =>
    intro gx i j
    rw [gap_shift, ih, gap_at_set, gap_at_set]
    by_cases h1 : i + 1 ≤ j ∧ j < i + 1 + k
    · have h2 : i ≤ j ∧ j < i + (k + 1) := by omega
      have h3 : ¬ (j + 1 = i ∧ i < gx.length) := by omega
      simp [h1, h2, h3]
    · rw [if_neg h1]
      by_cases h4 : j = i
      · subst h4
        have h2 : j ≤ j ∧ j < j + (k + 1) := by omega
        by_cases hl : j < gx.length
        · simp [h2, hl]
        · rw [if_neg (by omega), if_pos h2, gap_at_ge _ _ (by omega), gap_at_ge _ _ (by omega)]
      · have h2 : ¬ (i ≤ j ∧ j < i + (k + 1)) := by omega
        simp [h4, h2]

theorem gap_shift_length (k : Nat) : ∀ (gx : List gap_t) (i : Nat),
    (gap_shift gx i k).length = gx.length := by
  induction k with
  | zero => intro gx i; simp [gap_shift]
  | succ k ih => intro gx i; rw [gap_shift, ih]; simp

theorem u32_of_lt (n : Nat) (h : n < 4294967296) : u32 n = n := Nat.mod_eq_of_lt h

theorem u64_of_lt (n : Nat) (h : n < 18446744073709551616) : u64 n = n := Nat.mod_eq_of_lt h

theorem u32_pred (n : Nat) (h0 : 0 < n) (h : n < 4294967296) : u32 (n + 4294967295) = n - 1 := by
  unfold u32; omega

theorem u64_sub (a b : Nat) (hb : b ≤ a) (h : a < 18446744073709551616) :
    u64 (a + 18446744073709551616 - b) = a - b := by
  unfold u64; omega

/-! ### The order of the gap index -/

theorem gap_lt_irrefl (a : gap_t) : ¬ gap_lt a a := by
  unfold gap_lt; omega

theorem gap_lt_trans (a b c : gap_t) (h1 : gap_lt a b) (h2 : gap_lt b c) : gap_lt a c := by
  unfold gap_lt at *; omega

theorem gap_lt_total (s1 s2 i1 i2 : Nat) (hne : (⟨s1, some i1⟩ : gap_t) ≠ ⟨s2, some i2⟩) :
    gap_lt ⟨s1, some i1⟩ ⟨s2, some i2⟩ ∨ gap_lt ⟨s2, some i2⟩ ⟨s1, some i1⟩ := by
  unfold gap_lt
  simp only [node_addr]
  by_cases hs : s1 = s2
  · subst hs
    have : i1 ≠ i2 := by
      intro e; subst e; exact hne rfl
    omega
  · omega

/-! ### Searching the gap index -/

theorem gap_find_some (gx : List gap_t) (node : Option Nat) : ∀ (k i : Nat),
    (∃ j, i ≤ j ∧ j < i + k ∧ (gap_at gx j).node = node) →
    ∃ p, gap_find gx node i k = some p ∧ i ≤ p ∧ p < i + k ∧ (gap_at gx p).node = node := by
  intro k
  induction k with
  | zero => intro i ⟨j, h1, h2, _⟩; omega
  | succ k ih =>
    intro i ⟨j, h1, h2, h3⟩
    unfold gap_find
    by_cases hi : (gap_at gx i).node = node
    · exact ⟨i, by simp [hi], le_refl _, by omega, hi⟩
    · have hji : j ≠ i := by
        intro e; subst e; exact hi h3
      obtain ⟨p, hp, hp1, hp2, hp3⟩ := ih (i + 1) ⟨j, by omega, by omega, h3⟩
      exact ⟨p, by simp [hi, hp], by omega, by omega, hp3⟩

theorem gap_find_none (gx : List gap_t) (node : Option Nat) : ∀ (k i : Nat),
    (∀ j, i ≤ j → j < i + k → (gap_at gx j).node ≠ node) →
    gap_find gx node i k = none := by
  intro k
  induction k with
  | zero => intro i _; rfl
  | succ k ih =>
    intro i h
    unfold gap_find
    rw [if_neg (h i (le_refl _) (by omega))]
    exact ih (i + 1) (fun j h1 h2 => h j (by omega) (by omega))

/-! ### The bubbling loop -/

theorem sort_loop_length : ∀ (i : Nat) (gx : List gap_t), (sort_loop gx i).length = gx.length := by
  intro i
  induction i with
  | zero => intro gx; rfl
  | succ i ih =>
    intro gx
    unfold sort_loop
    simp only
    split_ifs
    · rw [ih]; simp
    · rw [ih]; simp
    · rfl

theorem sort_loop_spec : ∀ (i : Nat) (gx : List gap_t), i < gx.length →
    ∃ q, q ≤ i ∧
      (∀ j, gap_at (sort_loop gx i) j =
        if j < q then gap_at gx j else if j = q then gap_at gx i
        else if j ≤ i then gap_at gx (j - 1) else gap_at gx j) ∧
      (∀ j, q ≤ j → j < i → gap_lt (gap_at gx i) (gap_at gx j)) ∧
      (q = 0 ∨ ¬ gap_lt (gap_at gx i) (gap_at gx (q - 1))) := by
  intro i
  induction i with
  | zero =>
    intro gx _
    refine ⟨0, le_refl _, ?_, ?_, Or.inl rfl⟩
    · intro j
      unfold sort_loop
      by_cases hj : j = 0
      · subst hj; simp
      · have : ¬ j ≤ 0 := by omega
        simp [hj, this]
    · intro j _ h; omega
  | succ i ih =>
    intro gx hlen
    by_cases hsw : gap_lt (gap_at gx (i + 1)) (gap_at gx i)
    · -- a swap (in the tie case the two entries differ only in the node)
      have hstep : sort_loop gx (i + 1) =
          sort_loop ((gx.set (i + 1) (gap_at gx i)).set i (gap_at gx (i + 1))) i := by
        rw [sort_loop]
        by_cases h1 : (gap_at gx (i + 1)).size < (gap_at gx i).size
        · rw [if_pos h1]
        · have h2 : (gap_at gx (i + 1)).size = (gap_at gx i).size ∧
              node_addr (gap_at gx (i + 1)).node < node_addr (gap_at gx i).node := by
            unfold gap_lt at hsw; omega
          rw [if_neg h1, if_pos h2]
          have e1 : ({ gap_at gx (i + 1) with node := (gap_at gx i).node } : gap_t) = gap_at gx i := by
            cases hc : gap_at gx (i + 1); cases hp : gap_at gx i
            rw [hc, hp] at h2; simp at h2; simp [h2.1]
          have e2 : ({ gap_at gx i with node := (gap_at gx (i + 1)).node } : gap_t) = gap_at gx (i + 1) := by
            cases hc : gap_at gx (i + 1); cases hp : gap_at gx i
            rw [hc, hp] at h2; simp at h2; simp [h2.1]
          rw [e1, e2]
      obtain ⟨q, hq, hat, hlt, hstop⟩ :=
        ih ((gx.set (i + 1) (gap_at gx i)).set i (gap_at gx (i + 1))) (by simp; omega)
      have hg : ∀ j, gap_at ((gx.set (i + 1) (gap_at gx i)).set i (gap_at gx (i + 1))) j =
          if j = i then gap_at gx (i + 1) else if j = i + 1 then gap_at gx i else gap_at gx j := by
        intro j
        rw [gap_at_set, gap_at_set]
        by_cases h1 : j = i
        · have h3 : i < (gx.set (i + 1) (gap_at gx i)).length := by simp; omega
          rw [if_pos ⟨h1, h3⟩, if_pos h1]
        · by_cases h2 : j = i + 1
          · simp [h2, hlen]
          · simp [h1, h2]
      refine ⟨q, by omega, ?_, ?_, ?_⟩
      · intro j
        rw [hstep, hat j]
        by_cases c1 : j < q
        · rw [if_pos c1, if_pos c1, hg, if_neg (by omega), if_neg (by omega)]
        · rw [if_neg c1, if_neg c1]
          by_cases c2 : j = q
          · rw [if_pos c2, if_pos c2, hg, if_pos rfl]
          · rw [if_neg c2, if_neg c2]
            by_cases c3 : j ≤ i
            · rw [if_pos c3, if_pos (by omega), hg, if_neg (by omega), if_neg (by omega)]
            · rw [if_neg c3]
              by_cases c4 : j = i + 1
              · subst c4
                rw [if_pos (le_refl _), hg, if_neg (by omega), if_pos rfl]
                simp
              · rw [if_neg (by omega), hg, if_neg (by omega), if_neg c4]
      · intro j h1 h2
        by_cases c : j = i
        · subst c; exact hsw
        · have := hlt j h1 (by omega)
          rw [hg, hg, if_pos rfl, if_neg (by omega), if_neg (by omega)] at this
          exact this
      · rcases hstop with h0 | hs
        · exact Or.inl h0
        · by_cases hq0 : q = 0
          · exact Or.inl hq0
          · right
            rw [hg, hg, if_pos rfl, if_neg (by omega), if_neg (by omega)] at hs
            exact hs
    · -- no swap: the loop stops
      have hstep : sort_loop gx (i + 1) = gx := by
        rw [sort_loop]
        have h1 : ¬ (gap_at gx (i + 1)).size < (gap_at gx i).size := by
          unfold gap_lt at hsw; omega
        have h2 : ¬ ((gap_at gx (i + 1)).size = (gap_at gx i).size ∧
              node_addr (gap_at gx (i + 1)).node < node_addr (gap_at gx i).node) := by
          unfold gap_lt at hsw; omega
        rw [if_neg h1, if_neg h2]
      refine ⟨i + 1, le_refl _, ?_, ?_, ?_⟩
      · intro j
        rw [hstep]
        by_cases c1 : j < i + 1
        · rw [if_pos c1]
        · rw [if_neg c1]
          by_cases c2 : j = i + 1
          · rw [if_pos c2, c2]
          · rw [if_neg c2, if_neg (by omega)]
      · intro j h1 h2; omega
      · right; simpa using hsw

/-! ### Removing from and adding to the gap index -/

theorem GapSet.unique {h : List node_t} {F : Nat → Prop} {gx : List gap_t} {n : Nat}
    (hG : GapSet h F gx n) {j k : Nat} (hj : j < n) (hk : k < n)
    (e : gap_at gx j = gap_at gx k) : j = k := by
  by_contra hne
  rcases Nat.lt_or_gt_of_ne hne with hlt | hgt
  · have := hG.2.2.2 j k hlt hk
    rw [e] at this
    exact gap_lt_irrefl _ this
  · have := hG.2.2.2 k j hgt hj
    rw [e] at this
    exact gap_lt_irrefl _ this

theorem GapSet.congr {h h' : List node_t} {F F' : Nat → Prop} {gx : List gap_t} {n : Nat}
    (hG : GapSet h F gx n) (hF : ∀ i, F' i ↔ F i)
    (hs : ∀ i, F i → (node_at h' i).size = (node_at h i).size) : GapSet h' F' gx n := by
  refine ⟨hG.1, ?_, ?_, hG.2.2.2⟩
  · intro j hj
    obtain ⟨i, hi, e⟩ := hG.2.1 j hj
    exact ⟨i, (hF i).2 hi, by rw [e, hs i hi]⟩
  · intro i hi
    obtain ⟨j, hj, e⟩ := hG.2.2.1 i ((hF i).1 hi)
    exact ⟨j, hj, by rw [e, hs i ((hF i).1 hi)]⟩

theorem remove_eq (m : pool_mgr_t) (sz : Nat) (node : Option Nat) (p : Nat)
    (hp : gap_find m.gap_ix node 0 m.pool.num_gaps = some p)
    (h0 : 0 < m.pool.num_gaps) (hn : m.pool.num_gaps < 4294967296) :
    _mem_remove_from_gap_ix m sz node =
      ({ m with
          gap_ix := (gap_shift m.gap_ix p (m.pool.num_gaps - 1 - p)).set
            (m.pool.num_gaps - 1) gap_zero,
          pool := { m.pool with num_gaps := m.pool.num_gaps - 1 } },
        alloc_status.ALLOC_OK) := by
  have hu : u32 (m.pool.num_gaps + 4294967295) = m.pool.num_gaps - 1 := u32_pred _ h0 hn
  unfold _mem_remove_from_gap_ix
  rw [hp]
  simp only [hu]

theorem remove_set (h : List node_t) (F : Nat → Prop) (gx : List gap_t) (n x : Nat)
    (hG : GapSet h F gx n) (hx : F x) :
    ∃ p, gap_find gx (some x) 0 n = some p ∧ 0 < n ∧
      ((gap_shift gx p (n - 1 - p)).set (n - 1) gap_zero).length = gx.length ∧
      GapSet h (fun i => F i ∧ i ≠ x) ((gap_shift gx p (n - 1 - p)).set (n - 1) gap_zero)
        (n - 1) := by
  obtain ⟨j0, hj0, ej0⟩ := hG.2.2.1 x hx
  obtain ⟨p, hp, _, hp2, hp3⟩ := gap_find_some gx (some x) n 0
    ⟨j0, Nat.zero_le _, by omega, by rw [ej0]⟩
  have hpos : 0 < n := by omega
  have hpn : p < n := by omega
  have hpe : gap_at gx p = ⟨(node_at h x).size, some x⟩ := by
    obtain ⟨i, _, e⟩ := hG.2.1 p hpn
    rw [e] at hp3
    simp at hp3
    rw [e, hp3]
  refine ⟨p, hp, hpos, ?_, ?_⟩
  · simp [gap_shift_length]
  · have hat : ∀ j, j < n - 1 →
        gap_at ((gap_shift gx p (n - 1 - p)).set (n - 1) gap_zero) j
          = if p ≤ j then gap_at gx (j + 1) else gap_at gx j := by
      intro j hj
      rw [gap_at_set, if_neg (by omega), gap_shift_at]
      by_cases c : p ≤ j
      · rw [if_pos ⟨c, by omega⟩, if_pos c]
      · rw [if_neg (by omega), if_neg c]
    have hlen := hG.1
    refine ⟨by simp [gap_shift_length]; omega, ?_, ?_, ?_⟩
    · intro j hj
      rw [hat j hj]
      by_cases c : p ≤ j
      · rw [if_pos c]
        obtain ⟨i, hi, e⟩ := hG.2.1 (j + 1) (by omega)
        refine ⟨i, ⟨hi, ?_⟩, e⟩
        intro hix
        subst hix
        have := hG.unique (by omega : j + 1 < n) hpn (by rw [e, hpe])
        omega
      · rw [if_neg c]
        obtain ⟨i, hi, e⟩ := hG.2.1 j (by omega)
        refine ⟨i, ⟨hi, ?_⟩, e⟩
        intro hix
        subst hix
        have := hG.unique (by omega : j < n) hpn (by rw [e, hpe])
        omega
    · intro i ⟨hi, hix⟩
      obtain ⟨j, hj, e⟩ := hG.2.2.1 i hi
      have hjp : j ≠ p := by
        intro c; subst c
        rw [hpe] at e
        simp at e
        exact hix e.2.symm
      by_cases c : j < p
      · exact ⟨j, by omega, by rw [hat j (by omega), if_neg (by omega), e]⟩
      · refine ⟨j - 1, by omega, ?_⟩
        rw [hat (j - 1) (by omega), if_pos (by omega)]
        have : j - 1 + 1 = j := by omega
        rw [this, e]
    · intro j k hjk hk
      rw [hat j (by omega), hat k hk]
      by_cases c1 : p ≤ j
      · rw [if_pos c1, if_pos (by omega)]
        exact hG.2.2.2 _ _ (by omega) (by omega)
      · rw [if_neg c1]
        by_cases c2 : p ≤ k
        · rw [if_pos c2]; exact hG.2.2.2 _ _ (by omega) (by omega)
        · rw [if_neg c2]; exact hG.2.2.2 _ _ (by omega) (by omega)

theorem remove_spec (m : pool_mgr_t) (F : Nat → Prop) (x sz : Nat)
    (hG : GapSet m.node_heap F m.gap_ix m.pool.num_gaps) (hx : F x)
    (hn : m.pool.num_gaps < 4294967296) :
    ∃ gx, _mem_remove_from_gap_ix m sz (some x) =
        ({ m with gap_ix := gx, pool := { m.pool with num_gaps := m.pool.num_gaps - 1 } },
          alloc_status.ALLOC_OK) ∧
      gx.length = m.gap_ix.length ∧ 0 < m.pool.num_gaps ∧
      GapSet m.node_heap (fun i => F i ∧ i ≠ x) gx (m.pool.num_gaps - 1) := by
  obtain ⟨p, hp, h0, hl, hG2⟩ := remove_set _ _ _ _ x hG hx
  exact ⟨_, remove_eq m sz (some x) p hp h0 hn, hl, h0, hG2⟩

theorem add_eq (m : pool_mgr_t) (sz : Nat) (node : Option Nat)
    (hn : m.pool.num_gaps + 1 < 4294967296) :
    _mem_add_to_gap_ix m sz node =
      some ({ m with
          gap_ix := sort_loop (m.gap_ix.set m.pool.num_gaps ⟨sz, node⟩) m.pool.num_gaps,
          pool := { m.pool with num_gaps := m.pool.num_gaps + 1 } },
        alloc_status.ALLOC_OK) := by
  have hu1 : u32 (m.pool.num_gaps + 1) = m.pool.num_gaps + 1 := u32_of_lt _ (by omega)
  have hu2 : u32 (m.pool.num_gaps + 1 + 4294967295) = m.pool.num_gaps := by
    rw [u32_pred _ (by omega) (by omega)]; omega
  unfold _mem_add_to_gap_ix _mem_sort_gap_ix
  simp only [hu1, hu2, if_true]

theorem add_set (h : List node_t) (F : Nat → Prop) (gx : List gap_t) (n x : Nat)
    (hG : GapSet h F gx n) (hx : ¬ F x) (hn : n < gx.length) :
    (sort_loop (gx.set n ⟨(node_at h x).size, some x⟩) n).length = gx.length ∧
      GapSet h (fun i => F i ∨ i = x) (sort_loop (gx.set n ⟨(node_at h x).size, some x⟩) n)
        (n + 1) := by
  let e0 : gap_t := ⟨(node_at h x).size, some x⟩
  let gx0 := gx.set n e0
  have hgx0 : ∀ j, gap_at gx0 j = if j = n then e0 else gap_at gx j := by
    intro j
    show gap_at (gx.set n e0) j = _
    rw [gap_at_set]
    by_cases c : j = n
    · rw [if_pos ⟨c, hn⟩, if_pos c]
    · rw [if_neg (by omega), if_neg c]
  obtain ⟨q, hq, hat, hlt, hstop⟩ := sort_loop_spec n gx0
    (by show n < (gx.set n e0).length; simp; exact hn)
  show (sort_loop gx0 n).length = gx.length ∧ GapSet h _ (sort_loop gx0 n) (n + 1)
  refine ⟨?_, ?_⟩
  · rw [sort_loop_length]; simp [gx0]
  · -- entries of the result
    have hat2 : ∀ j, j ≤ n → gap_at (sort_loop gx0 n) j =
        if j < q then gap_at gx j else if j = q then e0 else gap_at gx (j - 1) := by
      intro j hj
      rw [hat j]
      by_cases c1 : j < q
      · rw [if_pos c1, if_pos c1, hgx0, if_neg (by omega)]
      · rw [if_neg c1, if_neg c1]
        by_cases c2 : j = q
        · rw [if_pos c2, if_pos c2, hgx0, if_pos rfl]
        · rw [if_neg c2, if_neg c2, if_pos hj, hgx0, if_neg (by omega)]
    have hne : ∀ j, j < n → gap_at gx j ≠ e0 := by
      intro j hj c
      obtain ⟨i, hi, e⟩ := hG.2.1 j hj
      rw [e] at c
      simp [e0] at c
      rw [c.2] at hi
      exact hx hi
    have hbig : ∀ j, q ≤ j → j < n → gap_lt e0 (gap_at gx j) := by
      intro j h1 h2
      have := hlt j h1 h2
      rw [hgx0, hgx0, if_pos rfl, if_neg (by omega)] at this
      exact this
    have hsmall : ∀ j, j < q → gap_lt (gap_at gx j) e0 := by
      intro j hj
      rcases hstop with h0 | hs
      · omega
      · rw [hgx0, hgx0, if_pos rfl, if_neg (by omega)] at hs
        have hq1 : gap_lt (gap_at gx (q - 1)) e0 := by
          obtain ⟨i, _, e⟩ := hG.2.1 (q - 1) (by omega)
          have hne1 := hne (q - 1) (by omega)
          rw [e] at hne1 hs ⊢
          rcases gap_lt_total _ _ _ _ hne1 with h | h
          · exact h
          · exact absurd h hs
        by_cases c : j = q - 1
        · rw [c]; exact hq1
        · exact gap_lt_trans _ _ _ (hG.2.2.2 j (q - 1) (by omega) (by omega)) hq1
    refine ⟨by rw [sort_loop_length]; simp [gx0]; omega, ?_, ?_, ?_⟩
    · intro j hj
      rw [hat2 j (by omega)]
      by_cases c1 : j < q
      · rw [if_pos c1]
        obtain ⟨i, hi, e⟩ := hG.2.1 j (by omega)
        exact ⟨i, Or.inl hi, e⟩
      · rw [if_neg c1]
        by_cases c2 : j = q
        · rw [if_pos c2]; exact ⟨x, Or.inr rfl, rfl⟩
        · rw [if_neg c2]
          obtain ⟨i, hi, e⟩ := hG.2.1 (j - 1) (by omega)
          exact ⟨i, Or.inl hi, e⟩
    · intro i hi
      rcases hi with hi | hi
      · obtain ⟨j, hj, e⟩ := hG.2.2.1 i hi
        by_cases c : j < q
        · exact ⟨j, by omega, by rw [hat2 j (by omega), if_pos c, e]⟩
        · refine ⟨j + 1, by omega, ?_⟩
          rw [hat2 (j + 1) (by omega), if_neg (by omega), if_neg (by omega)]
          simpa using e
      · subst hi
        exact ⟨q, by omega, by rw [hat2 q hq, if_neg (by omega), if_pos rfl]⟩
    · intro j k hjk hk
      rw [hat2 j (by omega), hat2 k (by omega)]
      by_cases c1 : j < q
      · rw [if_pos c1]
        by_cases c2 : k < q
        · rw [if_pos c2]; exact hG.2.2.2 _ _ hjk (by omega)
        · rw [if_neg c2]
          by_cases c3 : k = q
          · rw [if_pos c3]; exact hsmall j c1
          · rw [if_neg c3]
            by_cases c4 : j = k - 1
            · subst c4
              exact gap_lt_trans _ _ _ (hsmall _ c1) (hbig _ (by omega) (by omega))
            · exact hG.2.2.2 _ _ (by omega) (by omega)
      · rw [if_neg c1, if_neg (show ¬ k < q by omega), if_neg (show ¬ k = q by omega)]
        by_cases c2 : j = q
        · rw [if_pos c2]
          exact hbig _ (by omega) (by omega)
        · rw [if_neg c2]
          exact hG.2.2.2 _ _ (by omega) (by omega)

/-! ### Linked slot lists -/

theorem headOr_append (a b : List Nat) (q : Option Nat) :
    headOr (a ++ b) q = headOr a (headOr b q) := by
  cases a <;> rfl

theorem lastOr_append (a b : List Nat) (p : Option Nat) :
    lastOr (a ++ b) p = lastOr b (lastOr a p) := by
  induction a generalizing p with
  | nil => rfl
  | cons i r ih => simp [lastOr, ih]

theorem chain_append (h : List node_t) (a b : List Nat) (p q : Option Nat) :
    ChainSeg h p (a ++ b) q ↔ ChainSeg h p a (headOr b q) ∧ ChainSeg h (lastOr a p) b q := by
  induction a generalizing p with
  | nil => simp [ChainSeg, lastOr]
  | cons i r ih =>
    rw [List.cons_append]
    constructor
    · rintro ⟨h1, h2, h3⟩
      rw [ih] at h3
      rw [headOr_append] at h2
      exact ⟨⟨h1, h2, h3.1⟩, h3.2⟩
    · rintro ⟨⟨h1, h2, h3⟩, h4⟩
      exact ⟨h1, by rw [headOr_append]; exact h2, (ih _).2 ⟨h3, h4⟩⟩

theorem chain_frame (h h' : List node_t) (l : List Nat) (p q : Option Nat)
    (hf : ∀ i, i ∈ l → (node_at h' i).next = (node_at h i).next ∧
      (node_at h' i).prev = (node_at h i).prev)
    (hc : ChainSeg h p l q) : ChainSeg h' p l q := by
  induction l generalizing p with
  | nil => trivial
  | cons i r ih =>
    obtain ⟨h1, h2, h3⟩ := hc
    have := hf i (List.mem_cons_self _ _)
    exact ⟨by rw [this.2, h1], by rw [this.1, h2],
      ih _ (fun j hj => hf j (List.mem_cons_of_mem _ hj)) h3⟩

/-- Re-enter a linked list from another predecessor: only the `prev` link of
its head changes. -/
theorem chain_retarget (h h' : List node_t) (l : List Nat) (p p' q : Option Nat)
    (hn : l.Nodup)
    (hhead : ∀ x, l.head? = some x →
      (node_at h' x).prev = p' ∧ (node_at h' x).next = (node_at h x).next)
    (hf : ∀ i, i ∈ l → l.head? ≠ some i → (node_at h' i).next = (node_at h i).next ∧
      (node_at h' i).prev = (node_at h i).prev)
    (hc : ChainSeg h p l q) : ChainSeg h' p' l q := by
  cases l with
  | nil => trivial
  | cons x r =>
    obtain ⟨_, h2, h3⟩ := hc
    have hx := hhead x rfl
    refine ⟨hx.1, by rw [hx.2, h2], chain_frame h h' r _ _ ?_ h3⟩
    intro i hi
    apply hf i (List.mem_cons_of_mem _ hi)
    simp only [List.head?_cons, ne_eq, Option.some.injEq]
    intro e
    subst e
    exact (List.nodup_cons.1 hn).1 hi

theorem seg_walk_chain (h : List node_t) : ∀ (l : List Nat) (p : Option Nat) (fuel : Nat),
    ChainSeg h p l none → l.length ≤ fuel → seg_walk h fuel (headOr l none) = l := by
  intro l
  induction l with
  | nil => intro p fuel _ _; simp [headOr, seg_walk]
  | cons i r ih =>
    intro p fuel hc hl
    obtain ⟨_, h2, h3⟩ := hc
    cases fuel with
    | zero => simp at hl
    | succ f =>
      show seg_walk h (f + 1) (some i) = _
      rw [seg_walk, h2, ih (some i) f h3 (by simpa using hl)]

theorem first_fit_chain (h : List node_t) (size : Nat) :
    ∀ (l : List Nat) (p : Option Nat) (fuel : Nat),
    ChainSeg h p l none → l.length ≤ fuel →
    first_fit h size fuel (headOr l none) =
      some (l.find? (fun i => decide ((node_at h i).allocated = 0 ∧ (node_at h i).size ≥ size))) := by
  intro l
  induction l with
  | nil => intro p fuel _ _; simp [headOr, first_fit]
  | cons i r ih =>
    intro p fuel hc hl
    obtain ⟨_, h2, h3⟩ := hc
    cases fuel with
    | zero => simp at hl
    | succ f =>
      show first_fit h size (f + 1) (some i) = _
      rw [first_fit]
      by_cases c : (node_at h i).allocated = 0 ∧ (node_at h i).size ≥ size
      · rw [if_pos c, List.find?_cons_of_pos]
        simpa using c
      · rw [if_neg c, List.find?_cons_of_neg, h2]
        · exact ih (some i) f h3 (by simpa using hl)
        · simpa using c

/-- In a linked list with a pairwise property of neighbours, the property holds
along every `next` pointer. -/
theorem chain_next_rel (h : List node_t) (R : Nat → Nat → Prop) :
    ∀ (l : List Nat) (p : Option Nat), ChainSeg h p l none → List.Chain' R l →
    ∀ i j, i ∈ l → (node_at h i).next = some j → R i j ∧ j ∈ l := by
  intro l
  induction l with
  | nil => intro p _ _ i j hi; simp at hi
  | cons a r ih =>
    intro p hc hR i j hi hn
    obtain ⟨_, h2, h3⟩ := hc
    rcases List.mem_cons.1 hi with e | hir
    · subst e
      cases r with
      | nil => rw [h2] at hn; simp [headOr] at hn
      | cons b r2 =>
        rw [h2] at hn
        simp only [headOr, Option.some.injEq] at hn
        subst hn
        exact ⟨(List.chain'_cons.1 hR).1, by simp⟩
    · have hR2 : List.Chain' R r := by
        cases r with
        | nil => exact List.chain'_nil
        | cons b r2 => exact (List.chain'_cons.1 hR).2
      obtain ⟨h4, h5⟩ := ih (some a) h3 hR2 i j hir hn
      exact ⟨h4, List.mem_cons_of_mem _ h5⟩

/-! ### Tilings -/

theorem tiles_append (a b : List (Nat × Nat × Nat)) (s e : Nat) :
    Tiles (a ++ b) s e ↔ ∃ c, Tiles a s c ∧ Tiles b c e := by
  induction a generalizing s with
  | nil => simp [Tiles]
  | cons v r ih =>
    rw [List.cons_append]
    constructor
    · rintro ⟨h1, h2, h3⟩
      obtain ⟨c, h4, h5⟩ := (ih _).1 h3
      exact ⟨c, ⟨h1, h2, h4⟩, h5⟩
    · rintro ⟨c, ⟨h1, h2, h3⟩, h4⟩
      exact ⟨h1, h2, (ih _).2 ⟨c, h3, h4⟩⟩

theorem tiles_le (vs : List (Nat × Nat × Nat)) : ∀ (s e : Nat), Tiles vs s e → s ≤ e := by
  induction vs with
  | nil => intro s e h; exact le_of_eq h
  | cons v r ih =>
    intro s e h
    have := ih _ _ h.2.2
    omega

theorem tiles_mem (vs : List (Nat × Nat × Nat)) : ∀ (s e : Nat), Tiles vs s e →
    ∀ v, v ∈ vs → s ≤ v.1 ∧ v.1 + v.2.1 ≤ e ∧ 0 < v.2.1 := by
  induction vs with
  | nil => intro s e _ v hv; simp at hv
  | cons w r ih =>
    intro s e h v hv
    rcases List.mem_cons.1 hv with c | c
    · subst c
      have := tiles_le _ _ _ h.2.2
      have h1 := h.1
      have h2 := h.2.1
      omega
    · have := ih _ _ h.2.2 v c
      have h2 := h.2.1
      omega

theorem tiles_sum (vs : List (Nat × Nat × Nat)) : ∀ (s e : Nat), Tiles vs s e →
    s + (vs.map (fun v => v.2.1)).sum = e := by
  induction vs with
  | nil => intro s e h; simpa using h
  | cons v r ih =>
    intro s e h
    have := ih _ _ h.2.2
    simp only [List.map_cons, List.sum_cons]
    omega

/-! ### Balance sums -/

theorem alloc_sum_nil : alloc_sum [] = 0 := rfl

theorem alloc_sum_cons (v : Nat × Nat × Nat) (r : List (Nat × Nat × Nat)) :
    alloc_sum (v :: r) = (if v.2.2 = 1 then v.2.1 else 0) + alloc_sum r := by
  unfold alloc_sum
  by_cases c : v.2.2 = 1
  · simp [List.filter_cons, c]
  · simp [List.filter_cons, c]

theorem alloc_sum_append (a b : List (Nat × Nat × Nat)) :
    alloc_sum (a ++ b) = alloc_sum a + alloc_sum b := by
  unfold alloc_sum
  simp [List.filter_append]

theorem alloc_count_cons (v : Nat × Nat × Nat) (r : List (Nat × Nat × Nat)) :
    alloc_count (v :: r) = (if v.2.2 = 1 then 1 else 0) + alloc_count r := by
  unfold alloc_count
  by_cases c : v.2.2 = 1
  · simp [List.filter_cons, c]; omega
  · simp [List.filter_cons, c]

theorem alloc_count_append (a b : List (Nat × Nat × Nat)) :
    alloc_count (a ++ b) = alloc_count a + alloc_count b := by
  unfold alloc_count
  simp [List.filter_append]

theorem alloc_count_le (vs : List (Nat × Nat × Nat)) : alloc_count vs ≤ vs.length := by
  unfold alloc_count
  exact List.length_filter_le _ _

theorem alloc_sum_le (vs : List (Nat × Nat × Nat)) :
    alloc_sum vs ≤ (vs.map (fun v => v.2.1)).sum := by
  induction vs with
  | nil => simp [alloc_sum]
  | cons v r ih =>
    rw [alloc_sum_cons]
    simp only [List.map_cons, List.sum_cons]
    split_ifs <;> omega

/-- The allocated bytes and one free segment fit in the tiled range. -/
theorem alloc_sum_free_le (a b : List (Nat × Nat × Nat)) (v : Nat × Nat × Nat) (s e : Nat)
    (ht : Tiles (a ++ v :: b) s e) (hv : v.2.2 = 0) :
    alloc_sum (a ++ v :: b) + v.2.1 ≤ e - s := by
  have h1 := tiles_sum _ _ _ ht
  rw [alloc_sum_append, alloc_sum_cons, if_neg (by omega)]
  have h2 := alloc_sum_le a
  have h3 := alloc_sum_le b
  simp only [List.map_append, List.map_cons, List.sum_append, List.sum_cons] at h1
  omega

/-! ### Slots -/

theorem exists_unused_slot (l : List Nat) (hl : l.length < 40) :
    ∃ j, j < 40 ∧ j ∉ l := by
  by_contra hc
  push_neg at hc
  have hsub : List.range 40 ⊆ l := fun j hj => hc j (List.mem_range.1 hj)
  have := (List.subperm_of_subset (List.nodup_range 40) hsub).length_le
  simp at this
  omega

theorem find_unused_some (h : List node_t) : ∀ (k i : Nat),
    (∃ j, i ≤ j ∧ j < i + k ∧ (node_at h j).used = 0) →
    ∃ n, find_unused h i k = some n ∧ i ≤ n ∧ n < i + k ∧ (node_at h n).used = 0 ∧
      ∀ j, i ≤ j → j < n → (node_at h j).used ≠ 0 := by
  intro k
  induction k with
  | zero => intro i ⟨j, h1, h2, _⟩; omega
  | succ k ih =>
    intro i ⟨j, h1, h2, h3⟩
    unfold find_unused
    by_cases hi : (node_at h i).used = 0
    · exact ⟨i, by simp [hi], le_refl _, by omega, hi, fun j h1 h2 => by omega⟩
    · have hji : j ≠ i := by
        intro e; subst e; exact hi h3
      obtain ⟨n, hp, hp1, hp2, hp3, hp4⟩ := ih (i + 1) ⟨j, by omega, by omega, h3⟩
      refine ⟨n, by simp [hi, hp], by omega, by omega, hp3, ?_⟩
      intro j' h1' h2'
      by_cases c : j' = i
      · subst c; exact hi
      · exact hp4 j' (by omega) h2'

theorem find_mem_first (h : List node_t) (a : Nat) : ∀ (k i d : Nat),
    i ≤ d → d < i + k → (node_at h d).mem = a →
    (∀ j, i ≤ j → j < d → (node_at h j).mem ≠ a) →
    find_mem h a i k = some d := by
  intro k
  induction k with
  | zero => intro i d h1 h2; omega
  | succ k ih =>
    intro i d h1 h2 h3 h4
    unfold find_mem
    by_cases c : i = d
    · subst c; simp [h3]
    · rw [if_neg (h4 i (le_refl _) (by omega))]
      exact ih (i + 1) d (by omega) (by omega) h3 (fun j hj1 hj2 => h4 j (by omega) hj2)

theorem find_mem_none (h : List node_t) (a : Nat) : ∀ (k i : Nat),
    (∀ j, i ≤ j → j < i + k → (node_at h j).mem ≠ a) → find_mem h a i k = none := by
  intro k
  induction k with
  | zero => intro i _; rfl
  | succ k ih =>
    intro i hall
    unfold find_mem
    rw [if_neg (hall i (le_refl _) (by omega))]
    exact ih (i + 1) (fun j h1 h2 => hall j (by omega) (by omega))

theorem find_mem_some (h : List node_t) (a : Nat) : ∀ (k i d : Nat),
    find_mem h a i k = some d → i ≤ d ∧ d < i + k ∧ (node_at h d).mem = a := by
  intro k
  induction k with
  | zero => intro i d hd; simp [find_mem] at hd
  | succ k ih =>
    intro i d hd
    unfold find_mem at hd
    by_cases c : (node_at h i).mem = a
    · rw [if_pos c] at hd
      simp at hd
      subst hd
      exact ⟨le_refl _, by omega, c⟩
    · rw [if_neg c] at hd
      have := ih (i + 1) d hd
      omega

theorem node_at_wr (h : List node_t) (i j : Nat) (f : node_t → node_t) :
    node_at (wr h i f) j = if j = i ∧ i < h.length then f (node_at h i) else node_at h j := by
  unfold wr
  rw [node_at_set]

theorem wr_length (h : List node_t) (i : Nat) (f : node_t → node_t) :
    (wr h i f).length = h.length := by
  unfold wr
  simp

theorem link_new_gap_spec (h : List node_t) (g n s r : Nat) (hlen : h.length = 40)
    (hg : g < 40) (hn : n < 40) (hgn : g ≠ n)
    (hx : ∀ x, (node_at h g).next = some x → x < 40 ∧ x ≠ n ∧ x ≠ g) :
    (link_new_gap h g n s r).length = 40 ∧ ∀ j,
    node_at (link_new_gap h g n s r) j =
      if j = g then ⟨(node_at h g).mem, (node_at h g).size, (node_at h g).used,
        (node_at h g).allocated, some n, (node_at h g).prev⟩
      else if j = n then ⟨(node_at h g).mem + s, r, 1, 0, (node_at h g).next, some g⟩
      else if (node_at h g).next = some j then ⟨(node_at h j).mem, (node_at h j).size,
        (node_at h j).used, (node_at h j).allocated, (node_at h j).next, some n⟩
      else node_at h j := by
  unfold link_new_gap
  lift_lets
  intro h1 h2 h3 h4
  have hng : n ≠ g := fun e => hgn e.symm
  have l1 : h1.length = 40 := by simp [h1, hlen, wr_length]
  have e1 : ∀ j, node_at h1 j = if j = n then
      ⟨(node_at h g).mem + s, r, 1, 0, (node_at h n).next, (node_at h n).prev⟩
      else node_at h j := by
    intro j
    simp only [h1, node_at_wr, hlen, hn, and_true]
  clear_value h1
  have l2 : h2.length = 40 := by simp [h2, l1, wr_length]
  have e2 : ∀ j, node_at h2 j = if j = n then
      ⟨(node_at h g).mem + s, r, 1, 0, (node_at h g).next, (node_at h n).prev⟩
      else node_at h j := by
    intro j
    simp only [h2, node_at_wr, l1, hn, and_true, e1, if_neg hgn, if_true]
    split_ifs <;> rfl
  clear_value h2
  have l3 : h3.length = 40 := by
    simp only [h3]
    split <;> simp [l2, wr_length]
  have e3 : ∀ j, node_at h3 j = if j = n then
      ⟨(node_at h g).mem + s, r, 1, 0, (node_at h g).next, (node_at h n).prev⟩
      else if (node_at h g).next = some j then ⟨(node_at h j).mem, (node_at h j).size,
        (node_at h j).used, (node_at h j).allocated, (node_at h j).next, some n⟩
      else node_at h j := by
    intro j
    have hgn2 : (node_at h2 g).next = (node_at h g).next := by rw [e2, if_neg hgn]
    simp only [h3, hgn2]
    cases hnx : (node_at h g).next with
    | none => simp only [e2]; split_ifs <;> simp_all
    | some x =>
      obtain ⟨hx1, hx2, hx3⟩ := hx x hnx
      simp only [node_at_wr, l2, hx1, and_true, e2, if_neg hx2]
      by_cases c1 : j = n
      · subst c1
        have : ¬ j = x := fun e => hx2 e.symm
        simp [this, hnx]
      · by_cases c2 : j = x
        · subst c2; simp [c1]
        · have : ¬ x = j := fun e => c2 e.symm
          simp [c1, c2, this]
  clear_value h3
  have l4 : h4.length = 40 := by simp [h4, l3, wr_length]
  have e4 : ∀ j, node_at h4 j = if j = n then
      ⟨(node_at h g).mem + s, r, 1, 0, (node_at h g).next, some g⟩
      else if (node_at h g).next = some j then ⟨(node_at h j).mem, (node_at h j).size,
        (node_at h j).used, (node_at h j).allocated, (node_at h j).next, some n⟩
      else node_at h j := by
    intro j
    simp only [h4, node_at_wr, l3, hn, and_true, e3, if_true]
    split_ifs <;> rfl
  clear_value h4
  refine ⟨by simp [l4, wr_length], ?_⟩
  intro j
  have hgx : (node_at h g).next ≠ some g := by
    intro e
    exact (hx g e).2.2 rfl
  simp only [node_at_wr, l4, hg, and_true, e4, if_neg hgn, if_neg hgx]

theorem absorb_next_spec (h : List node_t) (d x : Nat) (hlen : h.length = 40)
    (hd : d < 40) (hx : x < 40) (hdx : d ≠ x)
    (hy : ∀ y, (node_at h x).next = some y → y < 40 ∧ y ≠ d ∧ y ≠ x) :
    (absorb_next h d x).length = 40 ∧ ∀ j,
    node_at (absorb_next h d x) j =
      if j = d then ⟨(node_at h d).mem, u64 ((node_at h d).size + (node_at h x).size),
        (node_at h d).used, (node_at h d).allocated, (node_at h x).next, (node_at h d).prev⟩
      else if j = x then ⟨(node_at h x).mem, (node_at h x).size, 0,
        (node_at h x).allocated, none, none⟩
      else if (node_at h x).next = some j then ⟨(node_at h j).mem, (node_at h j).size,
        (node_at h j).used, (node_at h j).allocated, (node_at h j).next, some d⟩
      else node_at h j := by
  unfold absorb_next
  lift_lets
  intro h1 h2 h3 h4
  have hxd : x ≠ d := fun e => hdx e.symm
  have l1 : h1.length = 40 := by simp [h1, hlen, wr_length]
  have e1 : ∀ j, node_at h1 j = if j = d then
      ⟨(node_at h d).mem, u64 ((node_at h d).size + (node_at h x).size),
        (node_at h d).used, (node_at h d).allocated, (node_at h d).next, (node_at h d).prev⟩
      else node_at h j := by
    intro j
    simp only [h1, node_at_wr, hlen, hd, and_true]
  clear_value h1
  have l2 : h2.length = 40 := by simp [h2, l1, wr_length]
  have e2 : ∀ j, node_at h2 j = if j = d then
      ⟨(node_at h d).mem, u64 ((node_at h d).size + (node_at h x).size),
        (node_at h d).used, (node_at h d).allocated, (node_at h d).next, (node_at h d).prev⟩
      else if j = x then ⟨(node_at h x).mem, (node_at h x).size, 0,
        (node_at h x).allocated, (node_at h x).next, (node_at h x).prev⟩
      else node_at h j := by
    intro j
    simp only [h2, node_at_wr, l1, hx, and_true, e1, if_neg hxd]
    split_ifs <;> simp_all
  clear_value h2
  have hxn2 : (node_at h2 x).next = (node_at h x).next := by rw [e2, if_neg hxd, if_pos rfl]
  have l3 : h3.length = 40 := by
    simp only [h3]
    split <;> simp [l2, wr_length]
  have e3 : ∀ j, node_at h3 j = if j = d then
      ⟨(node_at h d).mem, u64 ((node_at h d).size + (node_at h x).size),
        (node_at h d).used, (node_at h d).allocated, (node_at h x).next, (node_at h d).prev⟩
      else if j = x then ⟨(node_at h x).mem, (node_at h x).size, 0,
        (node_at h x).allocated, (node_at h x).next, (node_at h x).prev⟩
      else if (node_at h x).next = some j then ⟨(node_at h j).mem, (node_at h j).size,
        (node_at h j).used, (node_at h j).allocated, (node_at h j).next, some d⟩
      else node_at h j := by
    intro j
    simp only [h3, hxn2]
    cases hnx : (node_at h x).next with
    | none =>
      simp only [node_at_wr, l2, hd, and_true, e2]
      split_ifs <;> simp_all
    | some y =>
      obtain ⟨hy1, hy2, hy3⟩ := hy y hnx
      have hdy : d ≠ y := fun e => hy2 e.symm
      have hxy : x ≠ y := fun e => hy3 e.symm
      simp only [node_at_wr, wr_length, l2, hd, hy1, and_true, e2, if_neg hy2, if_neg hy3,
        if_neg hxd, if_neg hdy, if_true, hnx]
      by_cases c1 : j = d
      · simp [c1, hxy, hxd, hdy, hdx]
      · by_cases c2 : j = x
        · simp [c1, c2, hxd, hxy, hdy, hdx]
        · by_cases c3 : j = y
          · subst c3; simp [c1, c2]
          · have : ¬ y = j := fun e => c3 e.symm
            simp [c1, c2, c3, this]
  clear_value h3
  have l4 : h4.length = 40 := by simp [h4, l3, wr_length]
  have hxx : (node_at h x).next ≠ some x := by
    intro e
    exact (hy x e).2.2 rfl
  have e4 : ∀ j, node_at h4 j = if j = d then
      ⟨(node_at h d).mem, u64 ((node_at h d).size + (node_at h x).size),
        (node_at h d).used, (node_at h d).allocated, (node_at h x).next, (node_at h d).prev⟩
      else if j = x then ⟨(node_at h x).mem, (node_at h x).size, 0,
        (node_at h x).allocated, none, (node_at h x).prev⟩
      else if (node_at h x).next = some j then ⟨(node_at h j).mem, (node_at h j).size,
        (node_at h j).used, (node_at h j).allocated, (node_at h j).next, some d⟩
      else node_at h j := by
    intro j
    simp only [h4, node_at_wr, l3, hx, and_true, e3, if_neg hxd, if_true]
    split_ifs <;> simp_all
  clear_value h4
  refine ⟨by simp [l4, wr_length], ?_⟩
  intro j
  simp only [node_at_wr, l4, hx, and_true, e4, if_neg hxd, if_true]
  split_ifs <;> simp_all

theorem absorb_prev_spec (h : List node_t) (d p : Nat) (hlen : h.length = 40)
    (hd : d < 40) (hp : p < 40) (hdp : d ≠ p)
    (hy : ∀ y, (node_at h d).next = some y → y < 40 ∧ y ≠ d ∧ y ≠ p) :
    (absorb_prev h d p).length = 40 ∧ ∀ j,
    node_at (absorb_prev h d p) j =
      if j = p then ⟨(node_at h p).mem, u64 ((node_at h p).size + (node_at h d).size),
        (node_at h p).used, (node_at h p).allocated, (node_at h d).next, (node_at h p).prev⟩
      else if j = d then ⟨(node_at h d).mem, (node_at h d).size, 0,
        (node_at h d).allocated, none, none⟩
      else if (node_at h d).next = some j then ⟨(node_at h j).mem, (node_at h j).size,
        (node_at h j).used, (node_at h j).allocated, (node_at h j).next, some p⟩
      else node_at h j := by
  unfold absorb_prev
  lift_lets
  intro h1 h2 h2a h3 h4
  have hpd : p ≠ d := fun e => hdp e.symm
  have l1 : h1.length = 40 := by simp [h1, hlen, wr_length]
  have e1 : ∀ j, node_at h1 j = if j = p then
      ⟨(node_at h p).mem, u64 ((node_at h p).size + (node_at h d).size),
        (node_at h p).used, (node_at h p).allocated, (node_at h p).next, (node_at h p).prev⟩
      else node_at h j := by
    intro j
    simp only [h1, node_at_wr, hlen, hp, and_true]
  clear_value h1
  have l2 : h2.length = 40 := by simp [h2, l1, wr_length]
  have e2 : ∀ j, node_at h2 j = if j = p then
      ⟨(node_at h p).mem, u64 ((node_at h p).size + (node_at h d).size),
        (node_at h p).used, (node_at h p).allocated, (node_at h p).next, (node_at h p).prev⟩
      else if j = d then ⟨(node_at h d).mem, (node_at h d).size, 0,
        (node_at h d).allocated, (node_at h d).next, (node_at h d).prev⟩
      else node_at h j := by
    intro j
    simp only [h2, node_at_wr, l1, hd, and_true, e1, if_neg hdp]
    split_ifs <;> simp_all
  clear_value h2
  have hdn2 : (node_at h2 d).next = (node_at h d).next := by rw [e2, if_neg hdp, if_pos rfl]
  have l2a : h2a.length = 40 := by simp [h2a, l2, wr_length]
  have e2a : ∀ j, node_at h2a j = if j = p then
      ⟨(node_at h p).mem, u64 ((node_at h p).size + (node_at h d).size),
        (node_at h p).used, (node_at h p).allocated, (node_at h d).next, (node_at h p).prev⟩
      else if j = d then ⟨(node_at h d).mem, (node_at h d).size, 0,
        (node_at h d).allocated, (node_at h d).next, (node_at h d).prev⟩
      else node_at h j := by
    intro j
    simp only [h2a, node_at_wr, l2, hp, and_true, e2, hdn2, if_true]
    split_ifs <;> simp_all
  clear_value h2a
  have l3 : h3.length = 40 := by
    simp only [h3]
    split <;> simp [l2, l2a, wr_length]
  have e3 : ∀ j, node_at h3 j = if j = p then
      ⟨(node_at h p).mem, u64 ((node_at h p).size + (node_at h d).size),
        (node_at h p).used, (node_at h p).allocated, (node_at h d).next, (node_at h p).prev⟩
      else if j = d then ⟨(node_at h d).mem, (node_at h d).size, 0,
        (node_at h d).allocated, (node_at h d).next, (node_at h d).prev⟩
      else if (node_at h d).next = some j then ⟨(node_at h j).mem, (node_at h j).size,
        (node_at h j).used, (node_at h j).allocated, (node_at h j).next, some p⟩
      else node_at h j := by
    intro j
    simp only [h3, hdn2]
    cases hnx : (node_at h d).next with
    | none =>
      simp only [node_at_wr, l2, hp, and_true, e2]
      split_ifs <;> simp_all
    | some y =>
      obtain ⟨hy1, hy2, hy3⟩ := hy y hnx
      have hdy : d ≠ y := fun e => hy2 e.symm
      have hpy : p ≠ y := fun e => hy3 e.symm
      simp only [node_at_wr, wr_length, l2a, hy1, and_true, e2a, if_neg hy2, if_neg hy3, hnx]
      by_cases c1 : j = p
      · simp [c1, hpy, hdy, hdp, hpd]
      · by_cases c2 : j = d
        · simp [c1, c2, hdy, hdp, hpy, hpd]
        · by_cases c3 : j = y
          · subst c3; simp [c1, c2]
          · have : ¬ y = j := fun e => c3 e.symm
            simp [c1, c2, c3, this]
  clear_value h3
  have l4 : h4.length = 40 := by simp [h4, l3, wr_length]
  have e4 : ∀ j, node_at h4 j = if j = p then
      ⟨(node_at h p).mem, u64 ((node_at h p).size + (node_at h d).size),
        (node_at h p).used, (node_at h p).allocated, (node_at h d).next, (node_at h p).prev⟩
      else if j = d then ⟨(node_at h d).mem, (node_at h d).size, 0,
        (node_at h d).allocated, none, (node_at h d).prev⟩
      else if (node_at h d).next = some j then ⟨(node_at h j).mem, (node_at h j).size,
        (node_at h j).used, (node_at h j).allocated, (node_at h j).next, some p⟩
      else node_at h j := by
    intro j
    simp only [h4, node_at_wr, l3, hd, and_true, e3, if_neg hdp, if_true]
    split_ifs <;> simp_all
  clear_value h4
  refine ⟨by simp [l4, wr_length], ?_⟩
  intro j
  simp only [node_at_wr, l4, hd, and_true, e4, if_neg hdp, if_true]
  split_ifs <;> simp_all

/-! ### Neighbour facts -/

theorem noadj_split (a b : List (Nat × Nat × Nat)) (v : Nat × Nat × Nat) :
    NoAdj (a ++ v :: b) ↔ NoAdj a ∧ NoAdj b ∧
      (∀ w, a.getLast? = some w → ¬ (w.2.2 = 0 ∧ v.2.2 = 0)) ∧
      (∀ w, b.head? = some w → ¬ (v.2.2 = 0 ∧ w.2.2 = 0)) := by
  unfold NoAdj
  rw [List.chain'_append, List.chain'_cons']
  simp only [List.head?_cons, Option.mem_def, Option.some.injEq]
  constructor
  · rintro ⟨h1, ⟨h2, h3⟩, h4⟩
    exact ⟨h1, h3, fun w hw => h4 w hw v rfl, h2⟩
  · rintro ⟨h1, h2, h3, h4⟩
    refine ⟨h1, ⟨h4, h2⟩, ?_⟩
    intro w hw y hy
    subst hy
    exact h3 w hw

theorem head?_map_some {α β : Type} (f : α → β) (l : List α) (w : β) (hw : (l.map f).head? = some w) :
    ∃ y, l.head? = some y ∧ f y = w := by
  cases l with
  | nil => simp at hw
  | cons y r => exact ⟨y, rfl, by simpa using hw⟩

theorem getLast?_map_some {α β : Type} (f : α → β) (l : List α) (w : β)
    (hw : (l.map f).getLast? = some w) : ∃ y, l.getLast? = some y ∧ f y = w := by
  rw [List.getLast?_map] at hw
  cases hl : l.getLast? with
  | none => rw [hl] at hw; simp at hw
  | some y => rw [hl] at hw; exact ⟨y, rfl, by simpa using hw⟩

theorem lastOr_eq (l : List Nat) (p : Option Nat) :
    lastOr l p = match l.getLast? with
      | some y => some y
      | none => p := by
  induction l generalizing p with
  | nil => rfl
  | cons i r ih =>
    rw [lastOr, ih]
    cases r with
    | nil => rfl
    | cons j r2 =>
      rw [List.getLast?_cons_cons]
      have : (j :: r2).getLast? = some ((j :: r2).getLast (by simp)) :=
        List.getLast?_eq_getLast _ _
      rw [this]

theorem headOr_eq (l : List Nat) (q : Option Nat) :
    headOr l q = match l.head? with
      | some y => some y
      | none => q := by
  cases l <;> rfl

/-! ### Facts about a slot inside the list -/

theorem map_seg_congr (h h' : List node_t) (l : List Nat)
    (hf : ∀ i, i ∈ l → seg_of h' i = seg_of h i) : l.map (seg_of h') = l.map (seg_of h) :=
  List.map_congr_left hf

theorem Shape.split_nodup {m : pool_mgr_t} {pre post : List Nat} {g : Nat}
    (hS : Shape m (pre ++ g :: post)) :
    g ∉ pre ∧ g ∉ post ∧ pre.Nodup ∧ post.Nodup ∧ (∀ i, i ∈ pre → i ∉ post) := by
  have hn := hS.nodup
  rw [List.nodup_append] at hn
  obtain ⟨h1, h2, h3⟩ := hn
  rw [List.nodup_cons] at h2
  refine ⟨fun hg => h3 hg (List.mem_cons_self _ _), h2.1, h1, h2.2, ?_⟩
  intro i hi hp
  exact h3 hi (List.mem_cons_of_mem _ hp)

theorem Shape.split_chain {m : pool_mgr_t} {pre post : List Nat} {g : Nat}
    (hS : Shape m (pre ++ g :: post)) :
    ChainSeg m.node_heap none pre (some g) ∧
    (node_at m.node_heap g).prev = lastOr pre none ∧
    (node_at m.node_heap g).next = headOr post none ∧
    ChainSeg m.node_heap (some g) post none := by
  have hc := hS.chain
  rw [chain_append] at hc
  exact ⟨hc.1, hc.2.1, hc.2.2.1, hc.2.2.2⟩

theorem Shape.split_tiles {m : pool_mgr_t} {pre post : List Nat} {g : Nat}
    (hS : Shape m (pre ++ g :: post)) :
    Tiles (pre.map (seg_of m.node_heap)) m.pool.mem (node_at m.node_heap g).mem ∧
    0 < (node_at m.node_heap g).size ∧
    Tiles (post.map (seg_of m.node_heap))
      ((node_at m.node_heap g).mem + (node_at m.node_heap g).size)
      (m.pool.mem + m.pool.total_size) := by
  have ht := hS.tiles
  rw [List.map_append, List.map_cons, tiles_append] at ht
  obtain ⟨c, h1, h2, h3, h4⟩ := ht
  have h2' : (node_at m.node_heap g).mem = c := h2
  have h3' : 0 < (node_at m.node_heap g).size := h3
  have h4' : Tiles (post.map (seg_of m.node_heap)) (c + (node_at m.node_heap g).size)
      (m.pool.mem + m.pool.total_size) := h4
  rw [h2']
  exact ⟨h1, h3', h4'⟩

theorem Shape.bases {m : pool_mgr_t} {pre post : List Nat} {g : Nat}
    (hS : Shape m (pre ++ g :: post)) :
    (∀ i, i ∈ pre → (node_at m.node_heap i).mem + (node_at m.node_heap i).size
        ≤ (node_at m.node_heap g).mem) ∧
    (∀ i, i ∈ post → (node_at m.node_heap g).mem + (node_at m.node_heap g).size
        ≤ (node_at m.node_heap i).mem) ∧
    m.pool.mem ≤ (node_at m.node_heap g).mem ∧
    (node_at m.node_heap g).mem + (node_at m.node_heap g).size ≤ m.pool.mem + m.pool.total_size ∧
    (∀ i, i ∈ pre → 0 < (node_at m.node_heap i).size) ∧
    (∀ i, i ∈ post → 0 < (node_at m.node_heap i).size) := by
  obtain ⟨h1, _, h3⟩ := hS.split_tiles
  refine ⟨?_, ?_, tiles_le _ _ _ h1, tiles_le _ _ _ h3, ?_, ?_⟩
  · intro i hi
    exact (tiles_mem _ _ _ h1 (seg_of m.node_heap i) (List.mem_map_of_mem _ hi)).2.1
  · intro i hi
    exact (tiles_mem _ _ _ h3 (seg_of m.node_heap i) (List.mem_map_of_mem _ hi)).1
  · intro i hi
    exact (tiles_mem _ _ _ h1 (seg_of m.node_heap i) (List.mem_map_of_mem _ hi)).2.2
  · intro i hi
    exact (tiles_mem _ _ _ h3 (seg_of m.node_heap i) (List.mem_map_of_mem _ hi)).2.2

theorem Shape.len_le {m : pool_mgr_t} {l : List Nat} (hS : Shape m l) : l.length ≤ 40 := by
  have := (List.subperm_of_subset hS.nodup
    (fun i hi => List.mem_range.2 (hS.bound i hi))).length_le
  simpa using this

theorem tiles_replace (a b : List (Nat × Nat × Nat)) (v v' : Nat × Nat × Nat) (s e : Nat)
    (h : Tiles (a ++ v :: b) s e) (h1 : v'.1 = v.1) (h2 : v'.2.1 = v.2.1) :
    Tiles (a ++ v' :: b) s e := by
  rw [tiles_append] at h ⊢
  obtain ⟨c, hc, h3, h4, h5⟩ := h
  exact ⟨c, hc, by rw [h1]; exact h3, by rw [h2]; exact h4, by rw [h2]; exact h5⟩

/-- The bounds on the counters that keep the machine arithmetic exact. -/
theorem Rep.counter_bounds {m : pool_mgr_t} {pre post : List Nat} {g : Nat}
    (hR : Rep m (pre ++ g :: post)) (hfree : (node_at m.node_heap g).allocated = 0) :
    m.pool.alloc_size + (node_at m.node_heap g).size ≤ m.pool.total_size ∧
    m.pool.num_allocs + 1 ≤ 40 ∧ m.pool.num_gaps ≤ 40 := by
  have hS := hR.shape
  refine ⟨?_, ?_, ?_⟩
  · have h1 := alloc_sum_free_le (pre.map (seg_of m.node_heap)) (post.map (seg_of m.node_heap))
      (seg_of m.node_heap g) m.pool.mem (m.pool.mem + m.pool.total_size)
      (by have := hS.tiles; rwa [List.map_append, List.map_cons] at this) hfree
    have h2 := hS.bal_size
    rw [List.map_append, List.map_cons] at h2
    have h3 : (seg_of m.node_heap g).2.1 = (node_at m.node_heap g).size := rfl
    omega
  · have h2 := hS.bal_num
    rw [List.map_append, List.map_cons, alloc_count_append, alloc_count_cons,
      if_neg (by show ¬ (node_at m.node_heap g).allocated = 1; omega)] at h2
    have h3 := alloc_count_le (pre.map (seg_of m.node_heap))
    have h4 := alloc_count_le (post.map (seg_of m.node_heap))
    have h5 := hS.len_le
    simp only [List.length_map, List.length_append, List.length_cons] at h3 h4 h5
    omega
  · have := hR.gaps.1
    have := hS.gx_len
    omega

theorem carve_exact (m : pool_mgr_t) (pre post : List Nat) (g s : Nat)
    (hR : Rep m (pre ++ g :: post))
    (hfree : (node_at m.node_heap g).allocated = 0)
    (hsz : s = (node_at m.node_heap g).size) :
    ∃ m', carve m s g = some (m', (node_at m.node_heap g).mem) ∧
      Rep m' (pre ++ g :: post) ∧
      (∀ j, node_at m'.node_heap j = if j = g then
        ⟨(node_at m.node_heap g).mem, s, (node_at m.node_heap g).used, 1,
          (node_at m.node_heap g).next, (node_at m.node_heap g).prev⟩
        else node_at m.node_heap j) ∧
      m'.pool.num_allocs = m.pool.num_allocs + 1 ∧
      m'.pool.alloc_size = m.pool.alloc_size + s ∧
      m'.pool.num_gaps + 1 = m.pool.num_gaps ∧
      m'.used_nodes = m.used_nodes ∧ m'.total_nodes = m.total_nodes ∧
      m'.pool.policy = m.pool.policy ∧ m'.pool.mem = m.pool.mem ∧
      m'.pool.total_size = m.pool.total_size := by
  have hS := hR.shape
  have hgl : g ∈ pre ++ g :: post := by simp
  have hg40 : g < 40 := hS.bound g hgl
  have hlen := hS.heap_len
  obtain ⟨hb1, hb2, hb3⟩ := hR.counter_bounds hfree
  have hsb := hS.size_bound
  obtain ⟨gx, hrem, hgxl, hpos, hG⟩ := remove_spec
    { m with pool := { m.pool with
      num_allocs := u32 (m.pool.num_allocs + 1),
      alloc_size := u64 (m.pool.alloc_size + s) } }
    (fun i => i ∈ pre ++ g :: post ∧ (node_at m.node_heap i).allocated = 0) g
    (node_at m.node_heap g).size hR.gaps ⟨hgl, hfree⟩
    (by show m.pool.num_gaps < _; omega)
  have hgxl' : gx.length = m.gap_ix.length := hgxl
  have hpos' : 0 < m.pool.num_gaps := hpos
  have hG' : GapSet m.node_heap
      (fun i => (i ∈ pre ++ g :: post ∧ (node_at m.node_heap i).allocated = 0) ∧ i ≠ g) gx
      (m.pool.num_gaps - 1) := hG
  have hrg : u64 ((node_at m.node_heap g).size + 18446744073709551616 - s) = 0 := by
    rw [u64_sub _ _ (by omega) (by omega)]; omega
  have hu1 : u32 (m.pool.num_allocs + 1) = m.pool.num_allocs + 1 := u32_of_lt _ (by omega)
  have hu2 : u64 (m.pool.alloc_size + s) = m.pool.alloc_size + s := u64_of_lt _ (by omega)
  have hat : ∀ j, node_at (wr m.node_heap g (fun nd => { nd with allocated := 1, size := s })) j =
      if j = g then ⟨(node_at m.node_heap g).mem, s, (node_at m.node_heap g).used, 1,
          (node_at m.node_heap g).next, (node_at m.node_heap g).prev⟩
      else node_at m.node_heap j := by
    intro j
    rw [node_at_wr]
    simp only [hlen, hg40, and_true]
  have hsegg : seg_of (wr m.node_heap g (fun nd => { nd with allocated := 1, size := s })) g =
      ((node_at m.node_heap g).mem, s, 1) := by
    simp only [seg_of, hat, if_true]
  have hsego : ∀ j, j ≠ g →
      seg_of (wr m.node_heap g (fun nd => { nd with allocated := 1, size := s })) j =
      seg_of m.node_heap j := by
    intro j hj
    simp only [seg_of, hat, if_neg hj]
  obtain ⟨hgpre, hgpost, -, -, -⟩ := hS.split_nodup
  have hviews : (pre ++ g :: post).map
      (seg_of (wr m.node_heap g (fun nd => { nd with allocated := 1, size := s }))) =
      pre.map (seg_of m.node_heap) ++ ((node_at m.node_heap g).mem, s, 1) ::
        post.map (seg_of m.node_heap) := by
    rw [List.map_append, List.map_cons, hsegg,
      map_seg_congr _ _ pre (fun i hi => hsego i (fun e => hgpre (e ▸ hi))),
      map_seg_congr _ _ post (fun i hi => hsego i (fun e => hgpost (e ▸ hi)))]
  have hviews0 : (pre ++ g :: post).map (seg_of m.node_heap) =
      pre.map (seg_of m.node_heap) ++ ((node_at m.node_heap g).mem,
        (node_at m.node_heap g).size, 0) :: post.map (seg_of m.node_heap) := by
    rw [List.map_append, List.map_cons]
    simp only [seg_of, hfree]
  unfold carve
  simp only [hrem]
  simp only [hrg, hat, if_true, hu1, hu2]
  refine ⟨_, rfl, ?_⟩
  refine ⟨⟨⟨?_, hS.total, ?_, hS.head, hS.nodup, hS.bound, ?_, hS.used_nodes, ?_, ?_, ?_,
    ?_, hS.size_bound, hS.mem_pos, ?_, ?_⟩, ?_, ?_⟩, ?_, rfl, rfl, ?_, rfl, rfl, rfl, rfl, rfl⟩
  · dsimp only
    rw [wr_length]; exact hlen
  · dsimp only
    rw [hgxl']; exact hS.gx_len
  · intro i
    dsimp only
    rw [hat]
    by_cases c : i = g
    · rw [if_pos c, c]; exact hS.used g
    · rw [if_neg c]; exact hS.used i
  · dsimp only
    apply chain_frame m.node_heap _ _ _ _ _ hS.chain
    intro i _
    rw [hat]
    by_cases c : i = g
    · rw [if_pos c, c]; exact ⟨rfl, rfl⟩
    · rw [if_neg c]; exact ⟨rfl, rfl⟩
  · dsimp only
    rw [hviews]
    have := hS.tiles
    rw [hviews0] at this
    exact tiles_replace _ _ _ _ _ _ this rfl hsz
  · intro i hi
    dsimp only
    rw [hat]
    by_cases c : i = g
    · rw [if_pos c]; right; rfl
    · rw [if_neg c]; exact hS.alloc01 i hi
  · intro i hi j hj
    dsimp only
    have hm : ∀ k, (node_at (wr m.node_heap g (fun nd => { nd with allocated := 1, size := s })) k).mem
        = (node_at m.node_heap k).mem := by
      intro k
      rw [hat]
      by_cases c : k = g
      · rw [if_pos c, c]
      · rw [if_neg c]
    rw [hm, hm]
    exact hS.stale i hi j hj
  · dsimp only
    rw [hviews, alloc_sum_append, alloc_sum_cons]
    have := hS.bal_size
    rw [hviews0, alloc_sum_append, alloc_sum_cons] at this
    simp only at this ⊢
    simp only [if_true] at this ⊢
    have h0 : ¬ (0 = 1) := by omega
    rw [if_neg h0] at this
    omega
  · dsimp only
    rw [hviews, alloc_count_append, alloc_count_cons]
    have := hS.bal_num
    rw [hviews0, alloc_count_append, alloc_count_cons] at this
    simp only [if_true] at this ⊢
    have h0 : ¬ (0 = 1) := by omega
    rw [if_neg h0] at this
    omega
  · dsimp only
    rw [hviews]
    have := hR.noadj
    rw [hviews0, noadj_split] at this
    rw [noadj_split]
    refine ⟨this.1, this.2.1, ?_, ?_⟩
    · intro w _; simp
    · intro w _; simp
  · dsimp only
    apply hG'.congr
    · intro i
      dsimp only
      rw [hat]
      by_cases c : i = g
      · rw [if_pos c]; simp [c]
      · rw [if_neg c]; simp [c]
    · intro i hi
      rw [hat, if_neg hi.2]
  · intro j
    dsimp only
    rw [hat]
  · dsimp only
    omega

theorem carve_split (m : pool_mgr_t) (pre post : List Nat) (g s : Nat)
    (hR : Rep m (pre ++ g :: post))
    (hfree : (node_at m.node_heap g).allocated = 0)
    (hs : 0 < s) (hsz : s < (node_at m.node_heap g).size)
    (hslots : m.used_nodes < m.total_nodes) :
    ∃ m' n, carve m s g = some (m', (node_at m.node_heap g).mem) ∧
      n ∉ pre ++ g :: post ∧ n < 40 ∧
      Rep m' (pre ++ g :: n :: post) ∧
      (∀ j, node_at m'.node_heap j =
        if j = g then ⟨(node_at m.node_heap g).mem, s, (node_at m.node_heap g).used, 1,
          some n, (node_at m.node_heap g).prev⟩
        else if j = n then ⟨(node_at m.node_heap g).mem + s, (node_at m.node_heap g).size - s,
          1, 0, (node_at m.node_heap g).next, some g⟩
        else if (node_at m.node_heap g).next = some j then ⟨(node_at m.node_heap j).mem,
          (node_at m.node_heap j).size, (node_at m.node_heap j).used,
          (node_at m.node_heap j).allocated, (node_at m.node_heap j).next, some n⟩
        else node_at m.node_heap j) ∧
      m'.pool.num_allocs = m.pool.num_allocs + 1 ∧
      m'.pool.alloc_size = m.pool.alloc_size + s ∧
      m'.pool.num_gaps = m.pool.num_gaps ∧
      m'.used_nodes = m.used_nodes + 1 ∧ m'.total_nodes = m.total_nodes ∧
      m'.pool.policy = m.pool.policy ∧ m'.pool.mem = m.pool.mem ∧
      m'.pool.total_size = m.pool.total_size := by
  have hS := hR.shape
  have hgl : g ∈ pre ++ g :: post := by simp
  have hg40 : g < 40 := hS.bound g hgl
  have hlen := hS.heap_len
  obtain ⟨hb1, hb2, hb3⟩ := hR.counter_bounds hfree
  have hsb := hS.size_bound
  obtain ⟨gx, hrem, hgxl, hpos, hG⟩ := remove_spec
    { m with pool := { m.pool with
      num_allocs := u32 (m.pool.num_allocs + 1),
      alloc_size := u64 (m.pool.alloc_size + s) } }
    (fun i => i ∈ pre ++ g :: post ∧ (node_at m.node_heap i).allocated = 0) g
    (node_at m.node_heap g).size hR.gaps ⟨hgl, hfree⟩
    (by show m.pool.num_gaps < _; omega)
  have hgxl' : gx.length = m.gap_ix.length := hgxl
  have hpos' : 0 < m.pool.num_gaps := hpos
  have hG' : GapSet m.node_heap
      (fun i => (i ∈ pre ++ g :: post ∧ (node_at m.node_heap i).allocated = 0) ∧ i ≠ g) gx
      (m.pool.num_gaps - 1) := hG
  have hrg : u64 ((node_at m.node_heap g).size + 18446744073709551616 - s) =
      (node_at m.node_heap g).size - s := u64_sub _ _ (by omega) (by omega)
  have hrg0 : (node_at m.node_heap g).size - s > 0 := by omega
  have hu1 : u32 (m.pool.num_allocs + 1) = m.pool.num_allocs + 1 := u32_of_lt _ (by omega)
  have hu2 : u64 (m.pool.alloc_size + s) = m.pool.alloc_size + s := u64_of_lt _ (by omega)
  have hat : ∀ j, node_at (wr m.node_heap g (fun nd => { nd with allocated := 1, size := s })) j =
      if j = g then ⟨(node_at m.node_heap g).mem, s, (node_at m.node_heap g).used, 1,
          (node_at m.node_heap g).next, (node_at m.node_heap g).prev⟩
      else node_at m.node_heap j := by
    intro j
    rw [node_at_wr]
    simp only [hlen, hg40, and_true]
  -- an unused slot exists
  have hll : (pre ++ g :: post).length < 40 := by
    have := hS.used_nodes; have := hS.total; omega
  obtain ⟨j0, hj0, hj0l⟩ := exists_unused_slot _ hll
  obtain ⟨n, hfind, -, hn40', hnused, hnfirst⟩ := find_unused_some
    (wr m.node_heap g (fun nd => { nd with allocated := 1, size := s })) m.total_nodes 0
    ⟨j0, Nat.zero_le _, by rw [hS.total]; omega, by
      rw [hat, if_neg (show ¬ j0 = g from fun e => hj0l (e ▸ hgl)), hS.used, if_neg hj0l]⟩
  have hn40 : n < 40 := by rw [hS.total] at hn40'; omega
  have hnl : n ∉ pre ++ g :: post := by
    intro hn
    have h1 := hS.used n
    rw [if_pos hn] at h1
    rw [hat] at hnused
    by_cases c : n = g
    · rw [if_pos c] at hnused
      have h2 := hS.used g
      rw [if_pos hgl] at h2
      simp only at hnused
      omega
    · rw [if_neg c] at hnused; omega
  have hgn : g ≠ n := fun e => hnl (e ▸ hgl)
  have hng : n ≠ g := fun e => hgn e.symm
  obtain ⟨hgpre, hgpost, hndpre, hndpost, hdisj⟩ := hS.split_nodup
  obtain ⟨hc1, hc2, hc3, hc4⟩ := hS.split_chain
  have hnpre : n ∉ pre := fun hh => hnl (List.mem_append_left _ hh)
  have hnpost : n ∉ post := fun hh => hnl (List.mem_append_right _ (List.mem_cons_of_mem _ hh))
  have hnext : ∀ x, (node_at m.node_heap g).next = some x → x ∈ post ∧ post.head? = some x := by
    intro x hx
    rw [hc3] at hx
    cases post with
    | nil => simp [headOr] at hx
    | cons y r =>
      simp only [headOr, Option.some.injEq] at hx
      subst hx
      simp
  obtain ⟨hl4, hlink⟩ := link_new_gap_spec
    (wr m.node_heap g (fun nd => { nd with allocated := 1, size := s })) g n s
    ((node_at m.node_heap g).size - s) (by rw [wr_length]; exact hlen) hg40 hn40 hgn
    (by
      intro x hx
      rw [hat, if_pos rfl] at hx
      obtain ⟨hxp, _⟩ := hnext x hx
      refine ⟨hS.bound x (List.mem_append_right _ (List.mem_cons_of_mem _ hxp)), ?_, ?_⟩
      · intro e; exact hnpost (e ▸ hxp)
      · intro e; exact hgpost (e ▸ hxp))
  have hat4 : ∀ j, node_at (link_new_gap
      (wr m.node_heap g (fun nd => { nd with allocated := 1, size := s })) g n s
      ((node_at m.node_heap g).size - s)) j =
      if j = g then ⟨(node_at m.node_heap g).mem, s, (node_at m.node_heap g).used, 1,
          some n, (node_at m.node_heap g).prev⟩
      else if j = n then ⟨(node_at m.node_heap g).mem + s, (node_at m.node_heap g).size - s,
          1, 0, (node_at m.node_heap g).next, some g⟩
      else if (node_at m.node_heap g).next = some j then ⟨(node_at m.node_heap j).mem,
          (node_at m.node_heap j).size, (node_at m.node_heap j).used,
          (node_at m.node_heap j).allocated, (node_at m.node_heap j).next, some n⟩
      else node_at m.node_heap j := by
    intro j
    rw [hlink j]
    simp only [hat, if_true]
    by_cases c1 : j = g
    · simp only [if_pos c1]
    · simp only [if_neg c1]
  unfold carve
  simp only [hrem]
  simp only [hrg, hrg0, if_true, hu1, hu2, hfind]
  rw [add_eq _ _ _ (by dsimp only; omega)]
  dsimp only
  simp only [ne_eq, not_true_eq_false, if_false]
  clear hrem hG hgxl hpos
  generalize link_new_gap
      (wr m.node_heap g (fun nd => { nd with allocated := 1, size := s })) g n s
      ((node_at m.node_heap g).size - s) = H4 at hl4 hat4 ⊢
  clear hlink
  have hother : ∀ j, j ≠ g → j ≠ n → seg_of H4 j = seg_of m.node_heap j ∧
      (node_at H4 j).used = (node_at m.node_heap j).used ∧
      (node_at H4 j).next = (node_at m.node_heap j).next := by
    intro j h1 h2
    simp only [seg_of, hat4, if_neg h1, if_neg h2]
    by_cases c : (node_at m.node_heap g).next = some j
    · simp only [if_pos c, and_self]
    · simp only [if_neg c, and_self]
  have hsegg : seg_of H4 g = ((node_at m.node_heap g).mem, s, 1) := by
    simp only [seg_of, hat4, if_true]
  have hsegn : seg_of H4 n =
      ((node_at m.node_heap g).mem + s, (node_at m.node_heap g).size - s, 0) := by
    simp only [seg_of, hat4, if_neg hng, if_true]
  have hviews : (pre ++ g :: n :: post).map (seg_of H4) =
      pre.map (seg_of m.node_heap) ++ ((node_at m.node_heap g).mem, s, 1) ::
        ((node_at m.node_heap g).mem + s, (node_at m.node_heap g).size - s, 0) ::
        post.map (seg_of m.node_heap) := by
    rw [List.map_append, List.map_cons, List.map_cons, hsegg, hsegn,
      map_seg_congr _ _ pre (fun i hi => (hother i (fun e => hgpre (e ▸ hi))
        (fun e => hnpre (e ▸ hi))).1),
      map_seg_congr _ _ post (fun i hi => (hother i (fun e => hgpost (e ▸ hi))
        (fun e => hnpost (e ▸ hi))).1)]
  have hviews0 : (pre ++ g :: post).map (seg_of m.node_heap) =
      pre.map (seg_of m.node_heap) ++ ((node_at m.node_heap g).mem,
        (node_at m.node_heap g).size, 0) :: post.map (seg_of m.node_heap) := by
    rw [List.map_append, List.map_cons]
    simp only [seg_of, hfree]
  have hmem' : ∀ i, i ∈ pre ++ g :: n :: post ↔ i ∈ pre ++ g :: post ∨ i = n := by
    intro i
    simp only [List.mem_append, List.mem_cons]
    tauto
  have hgaps := (@GapSet.congr _ H4 _ (fun i => (i ∈ pre ++ g :: post ∧
      (node_at m.node_heap i).allocated = 0) ∧ i ≠ g) _ _ hG' (fun _ => Iff.rfl) (by
        intro i hi
        have := (hother i hi.2 (fun e => hnl (e ▸ hi.1.1))).1
        simp only [seg_of, Prod.mk.injEq] at this
        exact this.2.1))
  obtain ⟨hl5, hgaps2⟩ := add_set H4 _ gx (m.pool.num_gaps - 1) n hgaps
    (fun hh => hnl hh.1.1) (by rw [hgxl', hS.gx_len]; omega)
  have hszn : (node_at H4 n).size = (node_at m.node_heap g).size - s := by
    rw [hat4, if_neg hng, if_pos rfl]
  rw [hszn] at hl5 hgaps2
  have hretmem : (node_at H4 g).mem = (node_at m.node_heap g).mem := by
    rw [hat4, if_pos rfl]
  rw [hretmem]
  refine ⟨_, n, rfl, hnl, hn40, ?_, ?_, rfl, rfl, ?_, ?_, rfl, rfl, rfl, rfl⟩
  · refine ⟨⟨hl4, hS.total, ?_, ?_, ?_, ?_, ?_, ?_, ?_, ?_, ?_, ?_, hS.size_bound, hS.mem_pos,
      ?_, ?_⟩, ?_, ?_⟩
    · dsimp only
      rw [hl5, hgxl']; exact hS.gx_len
    · have := hS.head
      cases pre with
      | nil => simpa using this
      | cons a r => simpa using this
    · have hnd := hS.nodup
      rw [List.nodup_append] at hnd ⊢
      refine ⟨hnd.1, ?_, ?_⟩
      · rw [List.nodup_cons, List.nodup_cons]
        refine ⟨?_, hnpost, hndpost⟩
        simp only [List.mem_cons, not_or]
        exact ⟨hgn, hgpost⟩
      · intro a ha hb
        rcases List.mem_cons.1 hb with e | hb2
        · exact hgpre (e ▸ ha)
        · rcases List.mem_cons.1 hb2 with e | hb3
          · exact hnpre (e ▸ ha)
          · exact hdisj a ha hb3
    · intro i hi
      rcases (hmem' i).1 hi with h1 | h1
      · exact hS.bound i h1
      · rw [h1]; exact hn40
    · intro i
      dsimp only
      by_cases c1 : i = g
      · subst c1
        rw [hat4, if_pos rfl, if_pos ((hmem' i).2 (Or.inl hgl))]
        have := hS.used i
        rw [if_pos hgl] at this
        exact this
      · by_cases c2 : i = n
        · subst c2
          rw [hat4, if_neg c1, if_pos rfl, if_pos ((hmem' i).2 (Or.inr rfl))]
        · rw [(hother i c1 c2).2.1, hS.used i]
          by_cases c3 : i ∈ pre ++ g :: post
          · rw [if_pos c3, if_pos ((hmem' i).2 (Or.inl c3))]
          · rw [if_neg c3, if_neg (fun hh => by
              rcases (hmem' i).1 hh with h1 | h1
              · exact c3 h1
              · exact c2 h1)]
    · dsimp only
      rw [u32_of_lt _ (by have := hS.used_nodes; omega), hS.used_nodes]
      simp only [List.length_append, List.length_cons]
      omega
    · dsimp only
      rw [chain_append]
      refine ⟨?_, ?_⟩
      · apply chain_frame m.node_heap H4 pre none _ _ hc1
        intro i hi
        have h1 : i ≠ g := fun e => hgpre (e ▸ hi)
        have h2 : i ≠ n := fun e => hnpre (e ▸ hi)
        rw [hat4, if_neg h1, if_neg h2, if_neg (fun hh => hdisj i hi (hnext i hh).1)]
        exact ⟨rfl, rfl⟩
      · refine ⟨?_, ?_, ?_, ?_, ?_⟩
        · rw [hat4, if_pos rfl]; exact hc2
        · rw [hat4, if_pos rfl]; rfl
        · rw [hat4, if_neg hng, if_pos rfl]
        · rw [hat4, if_neg hng, if_pos rfl]; exact hc3
        · apply chain_retarget m.node_heap H4 post (some g) (some n) none hndpost _ _ hc4
          · intro x hx
            have hxp : x ∈ post := List.mem_of_mem_head? hx
            have h1 : x ≠ g := fun e => hgpost (e ▸ hxp)
            have h2 : x ≠ n := fun e => hnpost (e ▸ hxp)
            have h3 : (node_at m.node_heap g).next = some x := by
              rw [hc3, headOr_eq, hx]
            rw [hat4, if_neg h1, if_neg h2, if_pos h3]
            exact ⟨rfl, rfl⟩
          · intro i hi hne
            have h1 : i ≠ g := fun e => hgpost (e ▸ hi)
            have h2 : i ≠ n := fun e => hnpost (e ▸ hi)
            rw [hat4, if_neg h1, if_neg h2, if_neg (fun hh => hne (hnext i hh).2)]
            exact ⟨rfl, rfl⟩
    · dsimp only
      rw [hviews]
      obtain ⟨ht1, ht2, ht3⟩ := hS.split_tiles
      rw [tiles_append]
      refine ⟨_, ht1, rfl, hs, rfl, by dsimp only; omega, ?_⟩
      have e : (node_at m.node_heap g).mem + s + ((node_at m.node_heap g).size - s) =
          (node_at m.node_heap g).mem + (node_at m.node_heap g).size := by omega
      dsimp only
      rw [e]
      exact ht3
    · intro i hi
      dsimp only
      by_cases c1 : i = g
      · rw [c1, hat4, if_pos rfl]; right; rfl
      · by_cases c2 : i = n
        · rw [c2, hat4, if_neg hng, if_pos rfl]; left; rfl
        · have h1 := (hother i c1 c2).1
          simp only [seg_of, Prod.mk.injEq] at h1
          rw [h1.2.2]
          rcases (hmem' i).1 hi with h3 | h3
          · exact hS.alloc01 i h3
          · exact absurd h3 c2
    · -- no stale slot below a live one carries its address
      obtain ⟨hbpre, hbpost, -, -, -, -⟩ := hS.bases
      have hmemH : ∀ k, k ≠ n → (node_at H4 k).mem = (node_at m.node_heap k).mem := by
        intro k hk
        by_cases c1 : k = g
        · rw [c1, hat4, if_pos rfl]
        · have h1 := (hother k c1 hk).1
          simp only [seg_of, Prod.mk.injEq] at h1
          exact h1.1
      have hmemn : (node_at H4 n).mem = (node_at m.node_heap g).mem + s := by
        rw [hat4, if_neg hng, if_pos rfl]
      have hfresh : ∀ k, k ∈ pre ++ g :: post →
          (node_at m.node_heap k).mem ≠ (node_at m.node_heap g).mem + s := by
        intro k hk
        rcases List.mem_append.1 hk with h1 | h1
        · have := hbpre k h1; omega
        · rcases List.mem_cons.1 h1 with h2 | h2
          · rw [h2]; omega
          · have := hbpost k h2; omega
      intro i hi j hj
      dsimp only
      by_cases ci : i = n
      · subst ci
        have hju : (node_at m.node_heap j).used ≠ 0 := by
          have := hnfirst j (Nat.zero_le _) hj
          rw [hat] at this
          by_cases c : j = g
          · rw [c]
            have h2 := hS.used g
            rw [if_pos hgl] at h2
            omega
          · rw [if_neg c] at this; exact this
        have hjl : j ∈ pre ++ g :: post := by
          by_contra hc
          have := hS.used j
          rw [if_neg hc] at this
          exact hju this
        rw [hmemn, hmemH j (by omega)]
        exact hfresh j hjl
      · have hil : i ∈ pre ++ g :: post := by
          rcases (hmem' i).1 hi with h1 | h1
          · exact h1
          · exact absurd h1 ci
        rw [hmemH i ci]
        by_cases cj : j = n
        · subst cj
          rw [hmemn]
          exact fun e => hfresh i hil e.symm
        · rw [hmemH j cj]
          exact hS.stale i hil j hj
    · dsimp only
      rw [hviews, alloc_sum_append, alloc_sum_cons, alloc_sum_cons]
      have := hS.bal_size
      rw [hviews0, alloc_sum_append, alloc_sum_cons] at this
      simp only [if_true] at this ⊢
      have h0 : ¬ (0 = 1) := by omega
      rw [if_neg h0] at this ⊢
      omega
    · dsimp only
      rw [hviews, alloc_count_append, alloc_count_cons, alloc_count_cons]
      have := hS.bal_num
      rw [hviews0, alloc_count_append, alloc_count_cons] at this
      simp only [if_true] at this ⊢
      have h0 : ¬ (0 = 1) := by omega
      rw [if_neg h0] at this ⊢
      omega
    · dsimp only
      rw [hviews]
      have := hR.noadj
      rw [hviews0, noadj_split] at this
      obtain ⟨n1, n2, n3, n4⟩ := this
      rw [noadj_split]
      refine ⟨n1, ?_, ?_, ?_⟩
      · have := noadj_split [] (post.map (seg_of m.node_heap))
          ((node_at m.node_heap g).mem + s, (node_at m.node_heap g).size - s, 0)
        rw [List.nil_append] at this
        rw [this]
        refine ⟨List.chain'_nil, n2, ?_, ?_⟩
        · intro w hw; simp at hw
        · intro w hw
          have := n4 w hw
          simpa using this
      · intro w _; simp
      · intro w _; simp
    · dsimp only
      have e1 : m.pool.num_gaps - 1 + 1 = m.pool.num_gaps := by omega
      rw [e1] at hgaps2 ⊢
      apply hgaps2.congr
      · intro i
        by_cases c1 : i = g
        · subst c1
          rw [hat4, if_pos rfl]
          simp [hgn]
        · by_cases c2 : i = n
          · subst c2
            rw [hat4, if_neg c1, if_pos rfl]
            simp
          · have h1 := (hother i c1 c2).1
            simp only [seg_of, Prod.mk.injEq] at h1
            rw [h1.2.2, hmem']
            simp [c1, c2]
      · intro i _; rfl
  · intro j
    dsimp only
    rw [hat4]
  · dsimp only; omega
  · dsimp only
    rw [u32_of_lt _ (by have := hS.used_nodes; omega)]

theorem noadj_cons (v : Nat × Nat × Nat) (b : List (Nat × Nat × Nat)) :
    NoAdj (v :: b) ↔ NoAdj b ∧ (∀ w, b.head? = some w → ¬ (v.2.2 = 0 ∧ w.2.2 = 0)) := by
  have := noadj_split [] b v
  rw [List.nil_append] at this
  rw [this]
  constructor
  · rintro ⟨_, h2, _, h4⟩; exact ⟨h2, h4⟩
  · rintro ⟨h2, h4⟩
    exact ⟨List.chain'_nil, h2, fun w hw => by simp at hw, h4⟩

theorem merge_next_none (m : pool_mgr_t) (pre post : List Nat) (d : Nat)
    (hM : Mid m pre d post)
    (hnf : ∀ y, post.head? = some y → (node_at m.node_heap y).allocated ≠ 0) :
    merge_next m d = some m := by
  obtain ⟨_, _, hc3, _⟩ := hM.shape.split_chain
  unfold merge_next
  cases post with
  | nil =>
    have : (node_at m.node_heap d).next = none := by rw [hc3]; rfl
    rw [this]
  | cons x r =>
    have : (node_at m.node_heap d).next = some x := by rw [hc3]; rfl
    rw [this]
    have h1 := hnf x rfl
    simp only [h1, and_false, if_false]

theorem merge_next_some (m : pool_mgr_t) (pre post : List Nat) (d x : Nat)
    (hM : Mid m pre d (x :: post))
    (hxf : (node_at m.node_heap x).allocated = 0) :
    ∃ m2, merge_next m d = some m2 ∧ Mid m2 pre d post ∧
      (∀ y, post.head? = some y → (node_at m2.node_heap y).allocated ≠ 0) ∧
      (∀ j, node_at m2.node_heap j =
        if j = d then ⟨(node_at m.node_heap d).mem,
          (node_at m.node_heap d).size + (node_at m.node_heap x).size,
          (node_at m.node_heap d).used, (node_at m.node_heap d).allocated,
          (node_at m.node_heap x).next, (node_at m.node_heap d).prev⟩
        else if j = x then ⟨(node_at m.node_heap x).mem, (node_at m.node_heap x).size, 0,
          (node_at m.node_heap x).allocated, none, none⟩
        else if (node_at m.node_heap x).next = some j then ⟨(node_at m.node_heap j).mem,
          (node_at m.node_heap j).size, (node_at m.node_heap j).used,
          (node_at m.node_heap j).allocated, (node_at m.node_heap j).next, some d⟩
        else node_at m.node_heap j) ∧
      m2.pool.alloc_size = m.pool.alloc_size ∧ m2.pool.num_allocs = m.pool.num_allocs ∧
      m2.pool.mem = m.pool.mem ∧ m2.pool.total_size = m.pool.total_size ∧
      m2.pool.policy = m.pool.policy ∧ m2.total_nodes = m.total_nodes ∧
      m2.pool.num_gaps + 1 = m.pool.num_gaps ∧ m2.used_nodes + 1 = m.used_nodes := by
  have hS := hM.shape
  have hdl : d ∈ pre ++ d :: x :: post := by simp
  have hxl : x ∈ pre ++ d :: x :: post := by simp
  have hd40 : d < 40 := hS.bound d hdl
  have hx40 : x < 40 := hS.bound x hxl
  have hlen := hS.heap_len
  obtain ⟨hdpre, hdpost, hndpre, hndpost, hdisj⟩ := hS.split_nodup
  obtain ⟨hc1, hc2, hc3, hc4⟩ := hS.split_chain
  obtain ⟨hc5, hc6, hc7⟩ := hc4
  have hdx : d ≠ x := fun e => hdpost (by rw [e]; simp)
  have hxd : x ≠ d := fun e => hdx e.symm
  have hxpre : x ∉ pre := fun hh => hdisj x hh (by simp)
  have hxpost : x ∉ post := (List.nodup_cons.1 hndpost).1
  have hndpost2 : post.Nodup := (List.nodup_cons.1 hndpost).2
  have hdpost2 : d ∉ post := fun hh => hdpost (List.mem_cons_of_mem _ hh)
  have hnextd : (node_at m.node_heap d).next = some x := by rw [hc3]; rfl
  have hxused : (node_at m.node_heap x).used = 1 := by rw [hS.used, if_pos hxl]
  have hnext : ∀ y, (node_at m.node_heap x).next = some y → y ∈ post ∧ post.head? = some y := by
    intro y hy
    rw [hc6] at hy
    cases post with
    | nil => simp [headOr] at hy
    | cons z r =>
      simp only [headOr, Option.some.injEq] at hy
      subst hy
      simp
  -- sizes
  obtain ⟨ht1, ht2, ht3⟩ := hS.split_tiles
  have ht3' : (node_at m.node_heap x).mem =
      (node_at m.node_heap d).mem + (node_at m.node_heap d).size ∧
      0 < (node_at m.node_heap x).size ∧
      Tiles (post.map (seg_of m.node_heap))
        ((node_at m.node_heap d).mem + (node_at m.node_heap d).size + (node_at m.node_heap x).size)
        (m.pool.mem + m.pool.total_size) := ht3
  obtain ⟨ht4, ht5, ht6⟩ := ht3'
  have hle1 := tiles_le _ _ _ ht1
  have hle2 := tiles_le _ _ _ ht6
  have hsb := hS.size_bound
  have hu64 : u64 ((node_at m.node_heap d).size + (node_at m.node_heap x).size) =
      (node_at m.node_heap d).size + (node_at m.node_heap x).size := u64_of_lt _ (by omega)
  have hng : m.pool.num_gaps ≤ 40 := by
    have := hM.gaps.1; have := hS.gx_len; omega
  obtain ⟨gx, hrem, hgxl, hpos, hG⟩ := remove_spec m _ x (node_at m.node_heap x).size hM.gaps
    ⟨⟨hxl, hxf⟩, hxd⟩ (by omega)
  obtain ⟨hl2, hat0⟩ := absorb_next_spec m.node_heap d x hlen hd40 hx40 hdx (by
    intro y hy
    obtain ⟨hyp, _⟩ := hnext y hy
    refine ⟨hS.bound y (by simp [hyp]), ?_, ?_⟩
    · intro e; exact hdpost2 (e ▸ hyp)
    · intro e; exact hxpost (e ▸ hyp))
  have hlent : 2 ≤ (pre ++ d :: x :: post).length := by
    simp only [List.length_append, List.length_cons]; omega
  have hun := hS.used_nodes
  have hu32 : u32 (m.used_nodes + 4294967295) = m.used_nodes - 1 :=
    u32_pred _ (by omega) (by have := hS.len_le; omega)
  unfold merge_next
  rw [hnextd]
  simp only [hxused, hxf, and_self, if_true, hrem, ne_eq, not_true_eq_false, if_false, hu32]
  clear hrem
  simp only [hu64] at hat0
  generalize absorb_next m.node_heap d x = H2 at hl2 hat0 ⊢
  have hother : ∀ j, j ≠ d → seg_of H2 j = seg_of m.node_heap j := by
    intro j h1
    simp only [seg_of, hat0, if_neg h1]
    by_cases c1 : j = x
    · rw [if_pos c1, c1]
    · by_cases c : (node_at m.node_heap x).next = some j
      · simp only [if_neg c1, if_pos c]
      · simp only [if_neg c1, if_neg c]
  have hsegd : seg_of H2 d = ((node_at m.node_heap d).mem,
      (node_at m.node_heap d).size + (node_at m.node_heap x).size, 0) := by
    simp only [seg_of, hat0, if_true, hM.dfree]
  have hviews : (pre ++ d :: post).map (seg_of H2) =
      pre.map (seg_of m.node_heap) ++ ((node_at m.node_heap d).mem,
        (node_at m.node_heap d).size + (node_at m.node_heap x).size, 0) ::
        post.map (seg_of m.node_heap) := by
    rw [List.map_append, List.map_cons, hsegd,
      map_seg_congr _ _ pre (fun i hi => hother i (fun e => hdpre (e ▸ hi))),
      map_seg_congr _ _ post (fun i hi => hother i (fun e => hdpost2 (e ▸ hi)))]
  have hviews0 : (pre ++ d :: x :: post).map (seg_of m.node_heap) =
      pre.map (seg_of m.node_heap) ++ ((node_at m.node_heap d).mem,
        (node_at m.node_heap d).size, 0) :: ((node_at m.node_heap x).mem,
        (node_at m.node_heap x).size, 0) :: post.map (seg_of m.node_heap) := by
    rw [List.map_append, List.map_cons, List.map_cons]
    simp only [seg_of, hM.dfree, hxf]
  have hmem' : ∀ i, i ∈ pre ++ d :: post ↔ i ∈ pre ++ d :: x :: post ∧ i ≠ x := by
    intro i
    simp only [List.mem_append, List.mem_cons]
    constructor
    · rintro (h1 | h1 | h1)
      · exact ⟨Or.inl h1, fun e => hxpre (e ▸ h1)⟩
      · exact ⟨Or.inr (Or.inl h1), fun e => hdx (h1 ▸ e)⟩
      · exact ⟨Or.inr (Or.inr (Or.inr h1)), fun e => hxpost (e ▸ h1)⟩
    · rintro ⟨h1 | h1 | h1 | h1, h2⟩
      · exact Or.inl h1
      · exact Or.inr (Or.inl h1)
      · exact absurd h1 h2
      · exact Or.inr (Or.inr h1)
  have hnp := hM.noadj_post
  rw [List.map_cons, noadj_cons] at hnp
  have hheadfree : ∀ y, post.head? = some y → (node_at m.node_heap y).allocated ≠ 0 := by
    intro y hy
    have := hnp.2 (seg_of m.node_heap y) (by rw [List.head?_map, hy]; rfl)
    simp only [seg_of, hxf, true_and] at this
    exact this
  refine ⟨_, rfl, ⟨⟨hl2, hS.total, ?_, ?_, ?_, ?_, ?_, ?_, ?_, ?_, ?_, ?_, hS.size_bound,
    hS.mem_pos, ?_, ?_⟩, ?_, ?_, ?_, ?_⟩, ?_, ?_, rfl, rfl, rfl, rfl, rfl, rfl, ?_, ?_⟩
  · dsimp only
    rw [hgxl]; exact hS.gx_len
  · have := hS.head
    cases pre with
    | nil => simpa using this
    | cons a r => simpa using this
  · have hnd := hS.nodup
    rw [List.nodup_append] at hnd ⊢
    refine ⟨hnd.1, ?_, ?_⟩
    · rw [List.nodup_cons]
      exact ⟨hdpost2, hndpost2⟩
    · intro a ha hb
      rcases List.mem_cons.1 hb with e | hb2
      · exact hdpre (e ▸ ha)
      · exact hdisj a ha (List.mem_cons_of_mem _ hb2)
  · intro i hi
    exact hS.bound i ((hmem' i).1 hi).1
  · intro i
    dsimp only
    rw [hat0]
    by_cases c1 : i = d
    · rw [if_pos c1, c1, if_pos (by simp)]
      have := hS.used d
      rw [if_pos hdl] at this
      exact this
    · rw [if_neg c1]
      by_cases c2 : i = x
      · rw [if_pos c2, if_neg (fun hh => ((hmem' i).1 hh).2 c2)]
      · rw [if_neg c2]
        have hu : (node_at m.node_heap i).used = if i ∈ pre ++ d :: post then 1 else 0 := by
          rw [hS.used i]
          by_cases c3 : i ∈ pre ++ d :: x :: post
          · rw [if_pos c3, if_pos ((hmem' i).2 ⟨c3, c2⟩)]
          · rw [if_neg c3, if_neg (fun hh => c3 ((hmem' i).1 hh).1)]
        by_cases c : (node_at m.node_heap x).next = some i
        · rw [if_pos c]; exact hu
        · rw [if_neg c]; exact hu
  · dsimp only
    rw [hun]
    simp only [List.length_append, List.length_cons]
    omega
  · dsimp only
    rw [chain_append]
    refine ⟨?_, ?_, ?_, ?_⟩
    · apply chain_frame m.node_heap H2 pre none _ _ hc1
      intro i hi
      have h1 : i ≠ d := fun e => hdpre (e ▸ hi)
      have h2 : i ≠ x := fun e => hxpre (e ▸ hi)
      rw [hat0, if_neg h1, if_neg h2, if_neg (fun hh =>
        hdisj i hi (List.mem_cons_of_mem _ (hnext i hh).1))]
      exact ⟨rfl, rfl⟩
    · rw [hat0, if_pos rfl]; exact hc2
    · rw [hat0, if_pos rfl]; exact hc6
    · apply chain_retarget m.node_heap H2 post (some x) (some d) none hndpost2 _ _ hc7
      · intro y hy
        have hyp : y ∈ post := List.mem_of_mem_head? hy
        have h1 : y ≠ d := fun e => hdpost2 (e ▸ hyp)
        have h2 : y ≠ x := fun e => hxpost (e ▸ hyp)
        have h3 : (node_at m.node_heap x).next = some y := by
          rw [hc6, headOr_eq, hy]
        rw [hat0, if_neg h1, if_neg h2, if_pos h3]
        exact ⟨rfl, rfl⟩
      · intro i hi hne
        have h1 : i ≠ d := fun e => hdpost2 (e ▸ hi)
        have h2 : i ≠ x := fun e => hxpost (e ▸ hi)
        rw [hat0, if_neg h1, if_neg h2, if_neg (fun hh => hne (hnext i hh).2)]
        exact ⟨rfl, rfl⟩
  · dsimp only
    rw [hviews, tiles_append]
    refine ⟨_, ht1, rfl, by dsimp only; omega, ?_⟩
    dsimp only
    have e : (node_at m.node_heap d).mem + ((node_at m.node_heap d).size +
        (node_at m.node_heap x).size) = (node_at m.node_heap d).mem +
        (node_at m.node_heap d).size + (node_at m.node_heap x).size := by omega
    rw [e]
    exact ht6
  · intro i hi
    dsimp only
    by_cases c1 : i = d
    · rw [c1, hat0, if_pos rfl]; exact hS.alloc01 d hdl
    · have h1 := hother i c1
      simp only [seg_of, Prod.mk.injEq] at h1
      rw [h1.2.2]
      exact hS.alloc01 i ((hmem' i).1 hi).1
  · have hmemH : ∀ k, (node_at H2 k).mem = (node_at m.node_heap k).mem := by
      intro k
      by_cases c1 : k = d
      · rw [c1, hat0, if_pos rfl]
      · have h1 := hother k c1
        simp only [seg_of, Prod.mk.injEq] at h1
        exact h1.1
    intro i hi j hj
    dsimp only
    rw [hmemH, hmemH]
    exact hS.stale i ((hmem' i).1 hi).1 j hj
  · dsimp only
    rw [hviews, alloc_sum_append, alloc_sum_cons]
    have := hS.bal_size
    rw [hviews0, alloc_sum_append, alloc_sum_cons, alloc_sum_cons] at this
    have h0 : ¬ (0 = 1) := by omega
    simp only [if_neg h0] at this ⊢
    omega
  · dsimp only
    rw [hviews, alloc_count_append, alloc_count_cons]
    have := hS.bal_num
    rw [hviews0, alloc_count_append, alloc_count_cons, alloc_count_cons] at this
    have h0 : ¬ (0 = 1) := by omega
    simp only [if_neg h0] at this ⊢
    omega
  · dsimp only
    rw [hat0, if_pos rfl]
    exact hM.dfree
  · dsimp only
    apply hG.congr
    · intro i
      by_cases c1 : i = d
      · rw [c1]
        constructor
        · rintro ⟨_, hh⟩; exact absurd rfl hh
        · rintro ⟨⟨_, hh⟩, _⟩; exact absurd rfl hh
      · have h1 := hother i c1
        simp only [seg_of, Prod.mk.injEq] at h1
        rw [h1.2.2, hmem']
        constructor
        · rintro ⟨⟨⟨h2, h3⟩, h4⟩, h5⟩; exact ⟨⟨⟨h2, h4⟩, h5⟩, h3⟩
        · rintro ⟨⟨⟨h2, h4⟩, h5⟩, h3⟩; exact ⟨⟨⟨h2, h3⟩, h4⟩, h5⟩
    · intro i hi
      have h1 := hother i hi.1.2
      simp only [seg_of, Prod.mk.injEq] at h1
      exact h1.2.1
  · dsimp only
    rw [map_seg_congr _ _ pre (fun i hi => hother i (fun e => hdpre (e ▸ hi)))]
    exact hM.noadj_pre
  · dsimp only
    rw [map_seg_congr _ _ post (fun i hi => hother i (fun e => hdpost2 (e ▸ hi)))]
    exact hnp.1
  · intro y hy
    dsimp only
    have hyp : y ∈ post := List.mem_of_mem_head? hy
    have h1 := hother y (fun e => hdpost2 (e ▸ hyp))
    simp only [seg_of, Prod.mk.injEq] at h1
    rw [h1.2.2]
    exact hheadfree y hy
  · intro j
    dsimp only
    rw [hat0]
    split_ifs <;> first | rfl | simp only [hxf]
  · dsimp only; omega
  · dsimp only; omega

theorem merge_prev_none (m : pool_mgr_t) (pre post : List Nat) (d : Nat)
    (hM : Mid m pre d post)
    (hnf : ∀ y, pre.getLast? = some y → (node_at m.node_heap y).allocated ≠ 0) :
    merge_prev m d = some (m, d) := by
  obtain ⟨_, hc2, _, _⟩ := hM.shape.split_chain
  unfold merge_prev
  rw [hc2, lastOr_eq]
  cases hl : pre.getLast? with
  | none => rfl
  | some p =>
    have h1 := hnf p hl
    simp only [h1, and_false, if_false]

theorem merge_prev_some (m : pool_mgr_t) (pre post : List Nat) (d p : Nat)
    (hM : Mid m (pre ++ [p]) d post)
    (hpf : (node_at m.node_heap p).allocated = 0) :
    ∃ m3, merge_prev m d = some (m3, p) ∧ Mid m3 pre p post ∧
      (∀ y, pre.getLast? = some y → (node_at m3.node_heap y).allocated ≠ 0) ∧
      (∀ j, node_at m3.node_heap j =
        if j = p then ⟨(node_at m.node_heap p).mem,
          (node_at m.node_heap p).size + (node_at m.node_heap d).size,
          (node_at m.node_heap p).used, (node_at m.node_heap p).allocated,
          (node_at m.node_heap d).next, (node_at m.node_heap p).prev⟩
        else if j = d then ⟨(node_at m.node_heap d).mem, (node_at m.node_heap d).size, 0,
          (node_at m.node_heap d).allocated, none, none⟩
        else if (node_at m.node_heap d).next = some j then ⟨(node_at m.node_heap j).mem,
          (node_at m.node_heap j).size, (node_at m.node_heap j).used,
          (node_at m.node_heap j).allocated, (node_at m.node_heap j).next, some p⟩
        else node_at m.node_heap j) ∧
      m3.pool.alloc_size = m.pool.alloc_size ∧ m3.pool.num_allocs = m.pool.num_allocs ∧
      m3.pool.mem = m.pool.mem ∧ m3.pool.total_size = m.pool.total_size ∧
      m3.pool.policy = m.pool.policy ∧ m3.total_nodes = m.total_nodes ∧
      m3.pool.num_gaps + 1 = m.pool.num_gaps ∧ m3.used_nodes + 1 = m.used_nodes := by
  have hS0 := hM.shape
  have hS : Shape m (pre ++ p :: d :: post) := by
    have e : pre ++ [p] ++ d :: post = pre ++ p :: d :: post := by simp
    rw [e] at hS0; exact hS0
  have hdf := hM.dfree
  have hpl : p ∈ pre ++ p :: d :: post := by simp
  have hdl : d ∈ pre ++ p :: d :: post := by simp
  have hp40 : p < 40 := hS.bound p hpl
  have hd40 : d < 40 := hS.bound d hdl
  have hlen := hS.heap_len
  obtain ⟨hppre, hppost, hndpre, hndpost, hdisj⟩ := hS.split_nodup
  obtain ⟨hc1, hc2, hc3, hc4⟩ := hS.split_chain
  obtain ⟨hc5, hc6, hc7⟩ := hc4
  have hpd : p ≠ d := fun e => hppost (by rw [e]; simp)
  have hdp : d ≠ p := fun e => hpd e.symm
  have hdpre : d ∉ pre := fun hh => hdisj d hh (by simp)
  have hdpost : d ∉ post := (List.nodup_cons.1 hndpost).1
  have hndpost2 : post.Nodup := (List.nodup_cons.1 hndpost).2
  have hppost2 : p ∉ post := fun hh => hppost (List.mem_cons_of_mem _ hh)
  have hprevd : (node_at m.node_heap d).prev = some p := hc5
  have hpused : (node_at m.node_heap p).used = 1 := by rw [hS.used, if_pos hpl]
  have hnext : ∀ y, (node_at m.node_heap d).next = some y → y ∈ post ∧ post.head? = some y := by
    intro y hy
    rw [hc6] at hy
    cases post with
    | nil => simp [headOr] at hy
    | cons z r =>
      simp only [headOr, Option.some.injEq] at hy
      subst hy
      simp
  -- sizes
  obtain ⟨ht1, ht2, ht3⟩ := hS.split_tiles
  have ht3' : (node_at m.node_heap d).mem =
      (node_at m.node_heap p).mem + (node_at m.node_heap p).size ∧
      0 < (node_at m.node_heap d).size ∧
      Tiles (post.map (seg_of m.node_heap))
        ((node_at m.node_heap p).mem + (node_at m.node_heap p).size + (node_at m.node_heap d).size)
        (m.pool.mem + m.pool.total_size) := ht3
  obtain ⟨ht4, ht5, ht6⟩ := ht3'
  have hle1 := tiles_le _ _ _ ht1
  have hle2 := tiles_le _ _ _ ht6
  have hsb := hS.size_bound
  have hu64 : u64 ((node_at m.node_heap p).size + (node_at m.node_heap d).size) =
      (node_at m.node_heap p).size + (node_at m.node_heap d).size := u64_of_lt _ (by omega)
  have hng : m.pool.num_gaps ≤ 40 := by
    have := hM.gaps.1; have := hS.gx_len; omega
  obtain ⟨gx, hrem, hgxl, hpos, hG⟩ := remove_spec m _ p (node_at m.node_heap p).size hM.gaps
    ⟨⟨by simp, hpf⟩, hpd⟩ (by omega)
  obtain ⟨hl2, hat0⟩ := absorb_prev_spec m.node_heap d p hlen hd40 hp40 hdp (by
    intro y hy
    obtain ⟨hyp, _⟩ := hnext y hy
    refine ⟨hS.bound y (by simp [hyp]), ?_, ?_⟩
    · intro e; exact hdpost (e ▸ hyp)
    · intro e; exact hppost2 (e ▸ hyp))
  have hlent : 2 ≤ (pre ++ p :: d :: post).length := by
    simp only [List.length_append, List.length_cons]; omega
  have hun := hS.used_nodes
  have hu32 : u32 (m.used_nodes + 4294967295) = m.used_nodes - 1 :=
    u32_pred _ (by omega) (by have := hS.len_le; omega)
  unfold merge_prev
  rw [hprevd]
  simp only [hpused, hpf, and_self, if_true, hrem, ne_eq, not_true_eq_false, if_false, hu32]
  clear hrem
  simp only [hu64] at hat0
  generalize absorb_prev m.node_heap d p = H2 at hl2 hat0 ⊢
  have hother : ∀ j, j ≠ p → seg_of H2 j = seg_of m.node_heap j := by
    intro j h1
    simp only [seg_of, hat0, if_neg h1]
    by_cases c1 : j = d
    · rw [if_pos c1, c1]
    · by_cases c : (node_at m.node_heap d).next = some j
      · simp only [if_neg c1, if_pos c]
      · simp only [if_neg c1, if_neg c]
  have hsegp : seg_of H2 p = ((node_at m.node_heap p).mem,
      (node_at m.node_heap p).size + (node_at m.node_heap d).size, 0) := by
    simp only [seg_of, hat0, if_true, hpf]
  have hviews : (pre ++ p :: post).map (seg_of H2) =
      pre.map (seg_of m.node_heap) ++ ((node_at m.node_heap p).mem,
        (node_at m.node_heap p).size + (node_at m.node_heap d).size, 0) ::
        post.map (seg_of m.node_heap) := by
    rw [List.map_append, List.map_cons, hsegp,
      map_seg_congr _ _ pre (fun i hi => hother i (fun e => hppre (e ▸ hi))),
      map_seg_congr _ _ post (fun i hi => hother i (fun e => hppost2 (e ▸ hi)))]
  have hviews0 : (pre ++ p :: d :: post).map (seg_of m.node_heap) =
      pre.map (seg_of m.node_heap) ++ ((node_at m.node_heap p).mem,
        (node_at m.node_heap p).size, 0) :: ((node_at m.node_heap d).mem,
        (node_at m.node_heap d).size, 0) :: post.map (seg_of m.node_heap) := by
    rw [List.map_append, List.map_cons, List.map_cons]
    simp only [seg_of, hdf, hpf]
  have hmem' : ∀ i, i ∈ pre ++ p :: post ↔ i ∈ pre ++ p :: d :: post ∧ i ≠ d := by
    intro i
    simp only [List.mem_append, List.mem_cons]
    constructor
    · rintro (h1 | h1 | h1)
      · exact ⟨Or.inl h1, fun e => hdpre (e ▸ h1)⟩
      · exact ⟨Or.inr (Or.inl h1), fun e => hpd (h1 ▸ e)⟩
      · exact ⟨Or.inr (Or.inr (Or.inr h1)), fun e => hdpost (e ▸ h1)⟩
    · rintro ⟨h1 | h1 | h1 | h1, h2⟩
      · exact Or.inl h1
      · exact Or.inr (Or.inl h1)
      · exact absurd h1 h2
      · exact Or.inr (Or.inr h1)
  have hmem0 : ∀ i, i ∈ pre ++ [p] ++ d :: post ↔ i ∈ pre ++ p :: d :: post := by
    intro i; simp
  have hnp := hM.noadj_pre
  rw [List.map_append, List.map_cons, List.map_nil, noadj_split] at hnp
  have hlastfree : ∀ y, pre.getLast? = some y → (node_at m.node_heap y).allocated ≠ 0 := by
    intro y hy
    have := hnp.2.2.1 (seg_of m.node_heap y) (by rw [List.getLast?_map, hy]; rfl)
    simp only [seg_of, hpf, and_true] at this
    exact this
  refine ⟨_, rfl, ⟨⟨hl2, hS.total, ?_, ?_, ?_, ?_, ?_, ?_, ?_, ?_, ?_, ?_, hS.size_bound,
    hS.mem_pos, ?_, ?_⟩, ?_, ?_, ?_, ?_⟩, ?_, ?_, rfl, rfl, rfl, rfl, rfl, rfl, ?_, ?_⟩
  · dsimp only
    rw [hgxl]; exact hS.gx_len
  · have := hS.head
    cases pre with
    | nil => simpa using this
    | cons a r => simpa using this
  · have hnd := hS.nodup
    rw [List.nodup_append] at hnd ⊢
    refine ⟨hnd.1, ?_, ?_⟩
    · rw [List.nodup_cons]
      exact ⟨hppost2, hndpost2⟩
    · intro a ha hb
      rcases List.mem_cons.1 hb with e | hb2
      · exact hppre (e ▸ ha)
      · exact hdisj a ha (List.mem_cons_of_mem _ hb2)
  · intro i hi
    exact hS.bound i ((hmem' i).1 hi).1
  · intro i
    dsimp only
    rw [hat0]
    by_cases c1 : i = p
    · rw [if_pos c1, c1, if_pos (by simp)]
      have := hS.used p
      rw [if_pos hpl] at this
      exact this
    · rw [if_neg c1]
      by_cases c2 : i = d
      · rw [if_pos c2, if_neg (fun hh => ((hmem' i).1 hh).2 c2)]
      · rw [if_neg c2]
        have hu : (node_at m.node_heap i).used = if i ∈ pre ++ p :: post then 1 else 0 := by
          rw [hS.used i]
          by_cases c3 : i ∈ pre ++ p :: d :: post
          · rw [if_pos c3, if_pos ((hmem' i).2 ⟨c3, c2⟩)]
          · rw [if_neg c3, if_neg (fun hh => c3 ((hmem' i).1 hh).1)]
        by_cases c : (node_at m.node_heap d).next = some i
        · rw [if_pos c]; exact hu
        · rw [if_neg c]; exact hu
  · dsimp only
    rw [hun]
    simp only [List.length_append, List.length_cons]
    omega
  · dsimp only
    rw [chain_append]
    refine ⟨?_, ?_, ?_, ?_⟩
    · apply chain_frame m.node_heap H2 pre none _ _ hc1
      intro i hi
      have h1 : i ≠ p := fun e => hppre (e ▸ hi)
      have h2 : i ≠ d := fun e => hdpre (e ▸ hi)
      rw [hat0, if_neg h1, if_neg h2, if_neg (fun hh =>
        hdisj i hi (List.mem_cons_of_mem _ (hnext i hh).1))]
      exact ⟨rfl, rfl⟩
    · rw [hat0, if_pos rfl]; exact hc2
    · rw [hat0, if_pos rfl]; exact hc6
    · apply chain_retarget m.node_heap H2 post (some d) (some p) none hndpost2 _ _ hc7
      · intro y hy
        have hyp : y ∈ post := List.mem_of_mem_head? hy
        have h1 : y ≠ p := fun e => hppost2 (e ▸ hyp)
        have h2 : y ≠ d := fun e => hdpost (e ▸ hyp)
        have h3 : (node_at m.node_heap d).next = some y := by
          rw [hc6, headOr_eq, hy]
        rw [hat0, if_neg h1, if_neg h2, if_pos h3]
        exact ⟨rfl, rfl⟩
      · intro i hi hne
        have h1 : i ≠ p := fun e => hppost2 (e ▸ hi)
        have h2 : i ≠ d := fun e => hdpost (e ▸ hi)
        rw [hat0, if_neg h1, if_neg h2, if_neg (fun hh => hne (hnext i hh).2)]
        exact ⟨rfl, rfl⟩
  · dsimp only
    rw [hviews, tiles_append]
    refine ⟨_, ht1, rfl, by dsimp only; omega, ?_⟩
    dsimp only
    have e : (node_at m.node_heap p).mem + ((node_at m.node_heap p).size +
        (node_at m.node_heap d).size) = (node_at m.node_heap p).mem +
        (node_at m.node_heap p).size + (node_at m.node_heap d).size := by omega
    rw [e]
    exact ht6
  · intro i hi
    dsimp only
    by_cases c1 : i = p
    · rw [c1, hat0, if_pos rfl]; exact hS.alloc01 p hpl
    · have h1 := hother i c1
      simp only [seg_of, Prod.mk.injEq] at h1
      rw [h1.2.2]
      exact hS.alloc01 i ((hmem' i).1 hi).1
  · have hmemH : ∀ k, (node_at H2 k).mem = (node_at m.node_heap k).mem := by
      intro k
      by_cases c1 : k = p
      · rw [c1, hat0, if_pos rfl]
      · have h1 := hother k c1
        simp only [seg_of, Prod.mk.injEq] at h1
        exact h1.1
    intro i hi j hj
    dsimp only
    rw [hmemH, hmemH]
    exact hS.stale i ((hmem' i).1 hi).1 j hj
  · dsimp only
    rw [hviews, alloc_sum_append, alloc_sum_cons]
    have := hS.bal_size
    rw [hviews0, alloc_sum_append, alloc_sum_cons, alloc_sum_cons] at this
    have h0 : ¬ (0 = 1) := by omega
    simp only [if_neg h0] at this ⊢
    omega
  · dsimp only
    rw [hviews, alloc_count_append, alloc_count_cons]
    have := hS.bal_num
    rw [hviews0, alloc_count_append, alloc_count_cons, alloc_count_cons] at this
    have h0 : ¬ (0 = 1) := by omega
    simp only [if_neg h0] at this ⊢
    omega
  · dsimp only
    rw [hat0, if_pos rfl]
    exact hpf
  · dsimp only
    apply hG.congr
    · intro i
      by_cases c1 : i = p
      · rw [c1]
        constructor
        · rintro ⟨_, hh⟩; exact absurd rfl hh
        · rintro ⟨_, hh⟩; exact absurd rfl hh
      · have h1 := hother i c1
        simp only [seg_of, Prod.mk.injEq] at h1
        rw [h1.2.2, hmem', hmem0]
        constructor
        · rintro ⟨⟨⟨h2, h3⟩, h4⟩, h5⟩; exact ⟨⟨⟨h2, h4⟩, h3⟩, h5⟩
        · rintro ⟨⟨⟨h2, h4⟩, h3⟩, h5⟩; exact ⟨⟨⟨h2, h3⟩, h4⟩, h5⟩
    · intro i hi
      have h1 := hother i hi.2
      simp only [seg_of, Prod.mk.injEq] at h1
      exact h1.2.1
  · dsimp only
    rw [map_seg_congr _ _ pre (fun i hi => hother i (fun e => hppre (e ▸ hi)))]
    exact hnp.1
  · dsimp only
    rw [map_seg_congr _ _ post (fun i hi => hother i (fun e => hppost2 (e ▸ hi)))]
    exact hM.noadj_post
  · intro y hy
    dsimp only
    have hyp : y ∈ pre := List.mem_of_getLast?_eq_some hy
    have h1 := hother y (fun e => hppre (e ▸ hyp))
    simp only [seg_of, Prod.mk.injEq] at h1
    rw [h1.2.2]
    exact hlastfree y hy
  · intro j
    dsimp only
    rw [hat0]
    split_ifs <;> first | rfl | simp only [hpf, hpused]
  · dsimp only; omega
  · dsimp only; omega

theorem del_start (m : pool_mgr_t) (pre post : List Nat) (d : Nat)
    (hR : Rep m (pre ++ d :: post))
    (hda : (node_at m.node_heap d).allocated = 1) :
    Mid (mark_free m d) pre d post ∧
    (∀ j, node_at (mark_free m d).node_heap j =
      if j = d then ⟨(node_at m.node_heap d).mem, (node_at m.node_heap d).size,
        (node_at m.node_heap d).used, 0, (node_at m.node_heap d).next,
        (node_at m.node_heap d).prev⟩
      else node_at m.node_heap j) ∧
    (mark_free m d).pool.num_allocs + 1 = m.pool.num_allocs ∧
    (mark_free m d).pool.alloc_size + (node_at m.node_heap d).size = m.pool.alloc_size ∧
    (mark_free m d).pool.mem = m.pool.mem ∧
    (mark_free m d).pool.total_size = m.pool.total_size ∧
    (mark_free m d).pool.policy = m.pool.policy ∧
    (mark_free m d).pool.num_gaps = m.pool.num_gaps ∧
    (mark_free m d).total_nodes = m.total_nodes ∧
    (mark_free m d).used_nodes = m.used_nodes := by
  have hS := hR.shape
  have hdl : d ∈ pre ++ d :: post := by simp
  have hd40 : d < 40 := hS.bound d hdl
  have hlen := hS.heap_len
  obtain ⟨hdpre, hdpost, -, -, -⟩ := hS.split_nodup
  have hat : ∀ j, node_at (wr m.node_heap d (fun nd => { nd with allocated := 0 })) j =
      if j = d then ⟨(node_at m.node_heap d).mem, (node_at m.node_heap d).size,
        (node_at m.node_heap d).used, 0, (node_at m.node_heap d).next,
        (node_at m.node_heap d).prev⟩
      else node_at m.node_heap j := by
    intro j
    rw [node_at_wr]
    simp only [hlen, hd40, and_true]
  have hviews0 : (pre ++ d :: post).map (seg_of m.node_heap) =
      pre.map (seg_of m.node_heap) ++ ((node_at m.node_heap d).mem,
        (node_at m.node_heap d).size, 1) :: post.map (seg_of m.node_heap) := by
    rw [List.map_append, List.map_cons]
    simp only [seg_of, hda]
  have hsego : ∀ j, j ≠ d →
      seg_of (wr m.node_heap d (fun nd => { nd with allocated := 0 })) j =
      seg_of m.node_heap j := by
    intro j hj
    simp only [seg_of, hat, if_neg hj]
  have hsegd : seg_of (wr m.node_heap d (fun nd => { nd with allocated := 0 })) d =
      ((node_at m.node_heap d).mem, (node_at m.node_heap d).size, 0) := by
    simp only [seg_of, hat, if_true]
  have hviews : (pre ++ d :: post).map
      (seg_of (wr m.node_heap d (fun nd => { nd with allocated := 0 }))) =
      pre.map (seg_of m.node_heap) ++ ((node_at m.node_heap d).mem,
        (node_at m.node_heap d).size, 0) :: post.map (seg_of m.node_heap) := by
    rw [List.map_append, List.map_cons, hsegd,
      map_seg_congr _ _ pre (fun i hi => hsego i (fun e => hdpre (e ▸ hi))),
      map_seg_congr _ _ post (fun i hi => hsego i (fun e => hdpost (e ▸ hi)))]
  have hbs := hS.bal_size
  have hbn := hS.bal_num
  rw [hviews0, alloc_sum_append, alloc_sum_cons] at hbs
  rw [hviews0, alloc_count_append, alloc_count_cons] at hbn
  simp only [if_true] at hbs hbn
  have htot := tiles_sum _ _ _ hS.tiles
  have hsle := alloc_sum_le ((pre ++ d :: post).map (seg_of m.node_heap))
  have hbs0 := hS.bal_size
  have hcl := alloc_count_le ((pre ++ d :: post).map (seg_of m.node_heap))
  have hbn0 := hS.bal_num
  have hll := hS.len_le
  rw [List.length_map] at hcl
  have hsb := hS.size_bound
  have hsz1 : (node_at (wr m.node_heap d (fun nd => { nd with allocated := 0 })) d).size =
      (node_at m.node_heap d).size := by
    rw [hat, if_pos rfl]
  have hu1 : u32 (m.pool.num_allocs + 4294967295) = m.pool.num_allocs - 1 :=
    u32_pred _ (by omega) (by omega)
  have hu2 : u64 (m.pool.alloc_size + 18446744073709551616 - (node_at m.node_heap d).size) =
      m.pool.alloc_size - (node_at m.node_heap d).size := u64_sub _ _ (by omega) (by omega)
  have hnoadj := hR.noadj
  rw [hviews0, noadj_split] at hnoadj
  unfold mark_free
  simp only [hsz1, hu1, hu2]
  refine ⟨⟨⟨?_, hS.total, hS.gx_len, hS.head, hS.nodup, hS.bound, ?_, hS.used_nodes, ?_, ?_, ?_, ?_,
    hS.size_bound, hS.mem_pos, ?_, ?_⟩, ?_, ?_, ?_, ?_⟩, ?_, ?_, ?_, ?_, ?_, ?_, ?_, ?_, ?_⟩
  · dsimp only
    rw [wr_length]; exact hlen
  · intro i
    dsimp only
    rw [hat]
    by_cases c : i = d
    · rw [if_pos c, c]; exact hS.used d
    · rw [if_neg c]; exact hS.used i
  · dsimp only
    apply chain_frame m.node_heap _ _ _ _ _ hS.chain
    intro i _
    rw [hat]
    by_cases c : i = d
    · rw [if_pos c, c]; exact ⟨rfl, rfl⟩
    · rw [if_neg c]; exact ⟨rfl, rfl⟩
  · dsimp only
    rw [hviews]
    have := hS.tiles
    rw [hviews0] at this
    exact tiles_replace _ _ _ _ _ _ this rfl rfl
  · intro i hi
    dsimp only
    rw [hat]
    by_cases c : i = d
    · rw [if_pos c]; left; rfl
    · rw [if_neg c]; exact hS.alloc01 i hi
  · intro i hi j hj
    dsimp only
    have hm : ∀ k, (node_at (wr m.node_heap d (fun nd => { nd with allocated := 0 })) k).mem
        = (node_at m.node_heap k).mem := by
      intro k
      rw [hat]
      by_cases c : k = d
      · rw [if_pos c, c]
      · rw [if_neg c]
    rw [hm, hm]
    exact hS.stale i hi j hj
  · dsimp only
    rw [hviews, alloc_sum_append, alloc_sum_cons]
    have h0 : ¬ (0 = 1) := by omega
    simp only [if_neg h0]
    omega
  · dsimp only
    rw [hviews, alloc_count_append, alloc_count_cons]
    have h0 : ¬ (0 = 1) := by omega
    simp only [if_neg h0]
    omega
  · dsimp only
    rw [hat, if_pos rfl]
  · dsimp only
    apply hR.gaps.congr
    · intro i
      rw [hat]
      by_cases c : i = d
      · rw [if_pos c, c]
        constructor
        · rintro ⟨_, hh⟩; exact absurd rfl hh
        · rintro ⟨_, hh⟩; rw [hda] at hh; omega
      · rw [if_neg c]
        constructor
        · rintro ⟨hh, _⟩; exact hh
        · intro hh; exact ⟨hh, c⟩
    · intro i hi
      rw [hat]
      by_cases c : i = d
      · rw [if_pos c, c]
      · rw [if_neg c]
  · dsimp only
    rw [map_seg_congr _ _ pre (fun i hi => hsego i (fun e => hdpre (e ▸ hi)))]
    exact hnoadj.1
  · dsimp only
    rw [map_seg_congr _ _ post (fun i hi => hsego i (fun e => hdpost (e ▸ hi)))]
    exact hnoadj.2.1
  · intro j
    rw [hat]
  · omega
  · omega
  all_goals first | rfl | trivial

/-- The last step of `mem_del_alloc`: the merged node enters the gap index. -/
theorem del_finish (m : pool_mgr_t) (pre post : List Nat) (r : Nat)
    (hM : Mid m pre r post)
    (hlast : ∀ y, pre.getLast? = some y → (node_at m.node_heap y).allocated ≠ 0)
    (hhead : ∀ y, post.head? = some y → (node_at m.node_heap y).allocated ≠ 0) :
    ∃ m', _mem_add_to_gap_ix m (node_at m.node_heap r).size (some r) =
        some (m', alloc_status.ALLOC_OK) ∧
      Rep m' (pre ++ r :: post) ∧ m'.node_heap = m.node_heap ∧
      m'.pool.num_gaps = m.pool.num_gaps + 1 ∧
      m'.pool.alloc_size = m.pool.alloc_size ∧ m'.pool.num_allocs = m.pool.num_allocs ∧
      m'.pool.mem = m.pool.mem ∧ m'.pool.total_size = m.pool.total_size ∧
      m'.pool.policy = m.pool.policy ∧ m'.total_nodes = m.total_nodes ∧
      m'.used_nodes = m.used_nodes := by
  have hS := hM.shape
  have hrl : r ∈ pre ++ r :: post := by simp
  -- the index has room: its entries are distinct slots of the list other than `r`
  have hcount : m.pool.num_gaps < 40 := by
    have hG := hM.gaps
    have hinj : ∀ j, j < m.pool.num_gaps →
        (gap_at m.gap_ix j).node.getD 0 ∈ (pre ++ r :: post).erase r := by
      intro j hj
      obtain ⟨i, hi, e⟩ := hG.2.1 j hj
      rw [e]
      simp only [Option.getD_some]
      exact (List.Nodup.mem_erase_iff hS.nodup).2 ⟨hi.2, hi.1.1⟩
    have hnd : ((List.range m.pool.num_gaps).map
        (fun j => (gap_at m.gap_ix j).node.getD 0)).Nodup := by
      rw [List.nodup_map_iff_inj_on (List.nodup_range _)]
      intro a ha b hb hab
      have ha' := List.mem_range.1 ha
      have hb' := List.mem_range.1 hb
      obtain ⟨i1, _, e1⟩ := hG.2.1 a ha'
      obtain ⟨i2, _, e2⟩ := hG.2.1 b hb'
      rw [e1, e2] at hab
      simp only [Option.getD_some] at hab
      exact hG.unique ha' hb' (by rw [e1, e2, hab])
    have hsub : (List.range m.pool.num_gaps).map
        (fun j => (gap_at m.gap_ix j).node.getD 0) ⊆ (pre ++ r :: post).erase r := by
      intro a ha
      obtain ⟨j, hj, e⟩ := List.mem_map.1 ha
      rw [← e]
      exact hinj j (List.mem_range.1 hj)
    have h1 := (List.subperm_of_subset hnd hsub).length_le
    rw [List.length_map, List.length_range, List.length_erase_of_mem hrl] at h1
    have := hS.len_le
    have : 0 < (pre ++ r :: post).length := by
      simp only [List.length_append, List.length_cons]; omega
    omega
  obtain ⟨hl5, hG2⟩ := add_set m.node_heap _ m.gap_ix m.pool.num_gaps r hM.gaps
    (fun hh => hh.2 rfl) (by rw [hS.gx_len]; exact hcount)
  rw [add_eq _ _ _ (by omega)]
  refine ⟨_, rfl, ⟨⟨hS.heap_len, hS.total, ?_, hS.head, hS.nodup, hS.bound, hS.used,
    hS.used_nodes, hS.chain, hS.tiles, hS.alloc01, hS.stale, hS.size_bound, hS.mem_pos,
    hS.bal_size, hS.bal_num⟩, ?_, ?_⟩, rfl, rfl, rfl, rfl, rfl, rfl, rfl, rfl, rfl⟩
  · dsimp only
    rw [hl5]; exact hS.gx_len
  · dsimp only
    rw [List.map_append, List.map_cons, noadj_split]
    refine ⟨hM.noadj_pre, hM.noadj_post, ?_, ?_⟩
    · intro w hw hh
      obtain ⟨y, hy, e⟩ := getLast?_map_some _ _ _ hw
      have := hlast y hy
      rw [← e] at hh
      exact this hh.1
    · intro w hw hh
      obtain ⟨y, hy, e⟩ := head?_map_some _ _ _ hw
      have := hhead y hy
      rw [← e] at hh
      exact this hh.2
  · dsimp only
    apply hG2.congr
    · intro i
      by_cases c : i = r
      · rw [c]
        constructor
        · intro _; exact Or.inr rfl
        · intro _; exact ⟨hrl, hM.dfree⟩
      · constructor
        · intro hh; exact Or.inl ⟨hh, c⟩
        · rintro (hh | hh)
          · exact hh.1
          · exact absurd hh c
    · intro i _; rfl

theorem merge_next_spec (m : pool_mgr_t) (pre post : List Nat) (d : Nat)
    (hM : Mid m pre d post) :
    ∃ m2 xs post2, merge_next m d = some m2 ∧ post = xs ++ post2 ∧ Mid m2 pre d post2 ∧
      xs.length ≤ 1 ∧
      (∀ x, x ∈ xs → (node_at m.node_heap x).allocated = 0 ∧ (node_at m2.node_heap x).used = 0) ∧
      (xs = [] → ∀ y, post.head? = some y → (node_at m.node_heap y).allocated ≠ 0) ∧
      (∀ y, post2.head? = some y → (node_at m2.node_heap y).allocated ≠ 0) ∧
      seg_of m2.node_heap d = ((node_at m.node_heap d).mem,
        ((d :: xs).map (fun i => (node_at m.node_heap i).size)).sum, 0) ∧
      (∀ j, j ≠ d → seg_of m2.node_heap j = seg_of m.node_heap j) ∧
      (∀ j, j ∉ xs → (node_at m2.node_heap j).used = (node_at m.node_heap j).used) ∧
      m2.pool.alloc_size = m.pool.alloc_size ∧ m2.pool.num_allocs = m.pool.num_allocs ∧
      m2.pool.mem = m.pool.mem ∧ m2.pool.total_size = m.pool.total_size ∧
      m2.pool.policy = m.pool.policy ∧ m2.total_nodes = m.total_nodes ∧
      m2.pool.num_gaps + xs.length = m.pool.num_gaps ∧
      m2.used_nodes + xs.length = m.used_nodes := by
  have hsegd : seg_of m.node_heap d = ((node_at m.node_heap d).mem,
      (node_at m.node_heap d).size, 0) := by
    simp only [seg_of, hM.dfree]
  by_cases hnf : ∀ y, post.head? = some y → (node_at m.node_heap y).allocated ≠ 0
  · refine ⟨m, [], post, merge_next_none m pre post d hM hnf, rfl, hM, by simp, ?_, fun _ => hnf,
      hnf, ?_, fun _ _ => rfl, fun _ _ => rfl, rfl, rfl, rfl, rfl, rfl, rfl, rfl, rfl⟩
    · intro x hx; simp at hx
    · rw [hsegd]; simp
  · push_neg at hnf
    obtain ⟨x, hx, hxf⟩ := hnf
    cases post with
    | nil => simp at hx
    | cons x' post2 =>
      simp only [List.head?_cons, Option.some.injEq] at hx
      subst hx
      obtain ⟨m2, h1, h2, h3, hat, h5, h6, h7, h8, h9, h10, h11, h12⟩ :=
        merge_next_some m pre post2 d x' hM hxf
      obtain ⟨_, hdpost, _, _, _⟩ := hM.shape.split_nodup
      have hdx : d ≠ x' := fun e => hdpost (by rw [e]; simp)
      have hxd : x' ≠ d := fun e => hdx e.symm
      refine ⟨m2, [x'], post2, h1, rfl, h2, by simp, ?_, ?_, h3, ?_, ?_, ?_, h5, h6, h7, h8, h9,
        h10, h11, h12⟩
      · intro x hx
        simp only [List.mem_singleton] at hx
        subst hx
        refine ⟨hxf, ?_⟩
        rw [hat, if_neg hxd, if_pos rfl]
      · intro hh; simp at hh
      · simp only [seg_of, hat, if_true, hM.dfree, List.map_cons, List.map_nil, List.sum_cons,
          List.sum_nil, Nat.add_zero]
      · intro j hj
        simp only [seg_of, hat, if_neg hj]
        by_cases c1 : j = x'
        · rw [if_pos c1, c1]
        · rw [if_neg c1]
          by_cases c : (node_at m.node_heap x').next = some j
          · rw [if_pos c]
          · rw [if_neg c]
      · intro j hj
        simp only [List.mem_singleton] at hj
        rw [hat, if_neg hj]
        by_cases c1 : j = d
        · rw [if_pos c1, c1]
        · rw [if_neg c1]
          by_cases c : (node_at m.node_heap x').next = some j
          · rw [if_pos c]
          · rw [if_neg c]

theorem merge_prev_spec (m : pool_mgr_t) (pre post : List Nat) (d : Nat)
    (hM : Mid m pre d post) :
    ∃ m3 r pre3 ps ds, merge_prev m d = some (m3, r) ∧ pre = pre3 ++ ps ∧
      ps ++ [d] = r :: ds ∧ Mid m3 pre3 r post ∧ ps.length ≤ 1 ∧
      (∀ a, a ∈ ds → (node_at m3.node_heap a).used = 0) ∧
      (∀ p, p ∈ ps → (node_at m.node_heap p).allocated = 0) ∧
      (ps = [] → ∀ y, pre.getLast? = some y → (node_at m.node_heap y).allocated ≠ 0) ∧
      (∀ y, pre3.getLast? = some y → (node_at m3.node_heap y).allocated ≠ 0) ∧
      seg_of m3.node_heap r = ((node_at m.node_heap r).mem,
        ((ps ++ [d]).map (fun i => (node_at m.node_heap i).size)).sum, 0) ∧
      (∀ j, j ≠ r → seg_of m3.node_heap j = seg_of m.node_heap j) ∧
      (∀ j, j ∉ ds → (node_at m3.node_heap j).used = (node_at m.node_heap j).used) ∧
      (∀ j, (node_at m3.node_heap j).allocated = (node_at m.node_heap j).allocated) ∧
      m3.pool.alloc_size = m.pool.alloc_size ∧ m3.pool.num_allocs = m.pool.num_allocs ∧
      m3.pool.mem = m.pool.mem ∧ m3.pool.total_size = m.pool.total_size ∧
      m3.pool.policy = m.pool.policy ∧ m3.total_nodes = m.total_nodes ∧
      m3.pool.num_gaps + ps.length = m.pool.num_gaps ∧
      m3.used_nodes + ps.length = m.used_nodes := by
  have hsegd : seg_of m.node_heap d = ((node_at m.node_heap d).mem,
      (node_at m.node_heap d).size, 0) := by
    simp only [seg_of, hM.dfree]
  by_cases hnf : ∀ y, pre.getLast? = some y → (node_at m.node_heap y).allocated ≠ 0
  · refine ⟨m, d, pre, [], [], merge_prev_none m pre post d hM hnf, by simp, rfl, hM, by simp,
      ?_, ?_, fun _ => hnf, hnf, ?_, fun _ _ => rfl, fun _ _ => rfl, fun _ => rfl,
      rfl, rfl, rfl, rfl, rfl, rfl, rfl, rfl⟩
    · intro x hx; simp at hx
    · intro x hx; simp at hx
    · rw [hsegd]; simp
  · push_neg at hnf
    obtain ⟨p, hp, hpf⟩ := hnf
    obtain ⟨pre3, hpre⟩ : ∃ pre3, pre = pre3 ++ [p] := by
      rcases List.eq_nil_or_concat pre with h0 | ⟨l0, b, h0⟩
      · rw [h0] at hp; simp at hp
      · rw [h0] at hp
        simp at hp
        subst hp
        exact ⟨l0, by rw [h0]; simp⟩
    subst hpre
    obtain ⟨m3, h1, h2, h3, hat, h5, h6, h7, h8, h9, h10, h11, h12⟩ :=
      merge_prev_some m pre3 post d p hM hpf
    obtain ⟨hdpre, _, _, _, _⟩ := hM.shape.split_nodup
    have hpd : p ≠ d := fun e => hdpre (by rw [← e]; simp)
    have hdp : d ≠ p := fun e => hpd e.symm
    refine ⟨m3, p, pre3, [p], [d], h1, rfl, rfl, h2, by simp, ?_, ?_, ?_, h3, ?_, ?_, ?_, ?_,
      h5, h6, h7, h8, h9, h10, h11, h12⟩
    · intro a ha
      simp only [List.mem_singleton] at ha
      subst ha
      rw [hat, if_neg hdp, if_pos rfl]
    · intro a ha
      simp only [List.mem_singleton] at ha
      subst ha
      exact hpf
    · intro hh; simp at hh
    · simp only [seg_of, hat, if_true, hpf, List.singleton_append, List.map_cons, List.map_nil,
        List.sum_cons, List.sum_nil, Nat.add_zero]
    · intro j hj
      simp only [seg_of, hat, if_neg hj]
      by_cases c1 : j = d
      · rw [if_pos c1, c1]
      · rw [if_neg c1]
        by_cases c : (node_at m.node_heap d).next = some j
        · rw [if_pos c]
        · rw [if_neg c]
    · intro j hj
      simp only [List.mem_singleton] at hj
      rw [hat, if_neg hj]
      by_cases c1 : j = p
      · rw [if_pos c1, c1]
      · rw [if_neg c1]
        by_cases c : (node_at m.node_heap d).next = some j
        · rw [if_pos c]
        · rw [if_neg c]
    · intro j
      rw [hat]
      by_cases c1 : j = p
      · rw [if_pos c1, c1]
      · rw [if_neg c1]
        by_cases c2 : j = d
        · rw [if_pos c2, c2]
        · rw [if_neg c2]
          by_cases c : (node_at m.node_heap d).next = some j
          · rw [if_pos c]
          · rw [if_neg c]

theorem del_spec (m : pool_mgr_t) (pre post : List Nat) (d : Nat)
    (hR : Rep m (pre ++ d :: post))
    (hda : (node_at m.node_heap d).allocated = 1) :
    ∃ m' pre' ps xs post' r rest,
      mem_del_alloc m (node_at m.node_heap d).mem = some (m', alloc_status.ALLOC_OK) ∧
      pre = pre' ++ ps ∧ post = xs ++ post' ∧ ps ++ d :: xs = r :: rest ∧
      ps.length ≤ 1 ∧ xs.length ≤ 1 ∧
      (∀ p, p ∈ ps → (node_at m.node_heap p).allocated = 0) ∧
      (ps = [] → ∀ y, pre.getLast? = some y → (node_at m.node_heap y).allocated ≠ 0) ∧
      (∀ x, x ∈ xs → (node_at m.node_heap x).allocated = 0) ∧
      (xs = [] → ∀ y, post.head? = some y → (node_at m.node_heap y).allocated ≠ 0) ∧
      Rep m' (pre' ++ r :: post') ∧
      seg_of m'.node_heap r = ((node_at m.node_heap r).mem,
        ((ps ++ d :: xs).map (fun i => (node_at m.node_heap i).size)).sum, 0) ∧
      (∀ a, a ∈ rest → (node_at m'.node_heap a).used = 0) ∧
      (∀ j, j ∉ ps ++ d :: xs → seg_of m'.node_heap j = seg_of m.node_heap j ∧
        (node_at m'.node_heap j).used = (node_at m.node_heap j).used) ∧
      m'.pool.num_allocs + 1 = m.pool.num_allocs ∧
      m'.pool.alloc_size + (node_at m.node_heap d).size = m.pool.alloc_size ∧
      m'.pool.mem = m.pool.mem ∧ m'.pool.total_size = m.pool.total_size ∧
      m'.pool.policy = m.pool.policy ∧ m'.total_nodes = m.total_nodes ∧
      m'.used_nodes + rest.length = m.used_nodes ∧
      m'.pool.num_gaps + rest.length = m.pool.num_gaps + 1 := by
  have hS := hR.shape
  have hdl : d ∈ pre ++ d :: post := by simp
  obtain ⟨hdpre, hdpost, -, -, hdisj⟩ := hS.split_nodup
  have hfind : find_mem m.node_heap (node_at m.node_heap d).mem 0 m.total_nodes = some d :=
    find_mem_first _ _ _ _ d (Nat.zero_le _) (by rw [hS.total]; have := hS.bound d hdl; omega) rfl
      (fun j _ hj => hS.stale d hdl j hj)
  obtain ⟨hM1, hat1, c1, c2, c3, c4, c5, c6, c7, c8⟩ := del_start m pre post d hR hda
  obtain ⟨m2, xs, post2, hmn, hpost, hM2, hxl, hxs, hxnil, hhead2, hsegd2, hseg2, hused2,
    e1, e2, e3, e4, e5, e6, e7, e8⟩ := merge_next_spec _ pre post d hM1
  obtain ⟨m3, r, pre3, ps, ds, hmp, hpre, hblock, hM3, hpl, hds, hps, hpnil, hlast3, hsegr3,
    hseg3, hused3, halloc3, f1, f2, f3, f4, f5, f6, f7, f8⟩ := merge_prev_spec m2 pre post2 d hM2
  obtain ⟨m', hadd, hR', hheap, g1, g2, g3, g4, g5, g6, g7, g8⟩ := del_finish m3 pre3 post2 r hM3
    hlast3 (fun y hy => by rw [halloc3]; exact hhead2 y hy)
  -- the three heaps agree with the first one outside the merged block
  have hA1 : ∀ j, j ≠ d → seg_of (mark_free m d).node_heap j = seg_of m.node_heap j := by
    intro j hj
    simp only [seg_of, hat1, if_neg hj]
  have hU1 : ∀ j, (node_at (mark_free m d).node_heap j).used = (node_at m.node_heap j).used := by
    intro j
    rw [hat1]
    by_cases c : j = d
    · rw [if_pos c, c]
    · rw [if_neg c]
  have hD1 : (node_at (mark_free m d).node_heap d).mem = (node_at m.node_heap d).mem ∧
      (node_at (mark_free m d).node_heap d).size = (node_at m.node_heap d).size := by
    rw [hat1, if_pos rfl]; exact ⟨rfl, rfl⟩
  have hxpost : ∀ x, x ∈ xs → x ∈ post := fun x hx => by rw [hpost]; exact List.mem_append_left _ hx
  have hppre : ∀ p, p ∈ ps → p ∈ pre := fun p hp => by rw [hpre]; exact List.mem_append_right _ hp
  have hxd : ∀ x, x ∈ xs → x ≠ d := fun x hx e => hdpost (e ▸ hxpost x hx)
  have hpd : ∀ p, p ∈ ps → p ≠ d := fun p hp e => hdpre (e ▸ hppre p hp)
  have hrmem : r ∈ ps ++ [d] := by rw [hblock]; simp
  have hdsmem : ∀ a, a ∈ ds → a ∈ ps ++ [d] := fun a ha => by
    rw [hblock]; exact List.mem_cons_of_mem _ ha
  have hdslen : ds.length = ps.length := by
    have := congrArg List.length hblock
    simp only [List.length_append, List.length_cons, List.length_nil] at this
    omega
  have hsz2 : ∀ i, i ∈ ps → (node_at m2.node_heap i).size = (node_at m.node_heap i).size := by
    intro i hi
    have h1 := hseg2 i (hpd i hi)
    have h2 := hA1 i (hpd i hi)
    simp only [seg_of, Prod.mk.injEq] at h1 h2
    rw [h1.2.1, h2.2.1]
  have hsz1 : ∀ i, i ∈ xs → (node_at (mark_free m d).node_heap i).size =
      (node_at m.node_heap i).size := by
    intro i hi
    have h2 := hA1 i (hxd i hi)
    simp only [seg_of, Prod.mk.injEq] at h2
    exact h2.2.1
  have hmemr : (node_at m2.node_heap r).mem = (node_at m.node_heap r).mem := by
    by_cases c : r = d
    · rw [c]
      have := hsegd2
      simp only [seg_of, Prod.mk.injEq] at this
      rw [this.1, hD1.1]
    · have h1 := hseg2 r c
      have h2 := hA1 r c
      simp only [seg_of, Prod.mk.injEq] at h1 h2
      rw [h1.1, h2.1]
  refine ⟨m', pre3, ps, xs, post2, r, ds ++ xs, ?_, hpre, hpost, ?_, hpl, hxl, ?_, ?_, ?_, ?_,
    hR', ?_, ?_, ?_, ?_, ?_, ?_, ?_, ?_, ?_, ?_, ?_⟩
  · unfold mem_del_alloc
    rw [hfind]
    dsimp only
    rw [hmn]
    dsimp only
    rw [hmp]
    dsimp only
    exact hadd
  · have : ps ++ d :: xs = (ps ++ [d]) ++ xs := by simp
    rw [this, hblock]
    rfl
  · intro p hp
    have h0 := hps p hp
    have h1 := hseg2 p (hpd p hp)
    have h2 := hA1 p (hpd p hp)
    simp only [seg_of, Prod.mk.injEq] at h1 h2
    rw [← h2.2.2, ← h1.2.2]
    exact h0
  · intro hnil y hy
    have h0 := hpnil hnil y hy
    have hyp : y ∈ pre := List.mem_of_getLast?_eq_some hy
    have hyd : y ≠ d := fun e => hdpre (e ▸ hyp)
    have h1 := hseg2 y hyd
    have h2 := hA1 y hyd
    simp only [seg_of, Prod.mk.injEq] at h1 h2
    rw [← h2.2.2, ← h1.2.2]
    exact h0
  · intro x hx
    have h0 := (hxs x hx).1
    have h2 := hA1 x (hxd x hx)
    simp only [seg_of, Prod.mk.injEq] at h2
    rw [← h2.2.2]
    exact h0
  · intro hnil y hy
    have h0 := hxnil hnil y hy
    have hyp : y ∈ post := List.mem_of_mem_head? hy
    have hyd : y ≠ d := fun e => hdpost (e ▸ hyp)
    have h2 := hA1 y hyd
    simp only [seg_of, Prod.mk.injEq] at h2
    rw [← h2.2.2]
    exact h0
  · rw [hheap, hsegr3, hmemr]
    have hsum : ((ps ++ [d]).map (fun i => (node_at m2.node_heap i).size)).sum =
        ((ps ++ d :: xs).map (fun i => (node_at m.node_heap i).size)).sum := by
      have hd2 : (node_at m2.node_heap d).size =
          ((d :: xs).map (fun i => (node_at (mark_free m d).node_heap i).size)).sum := by
        have := hsegd2
        simp only [seg_of, Prod.mk.injEq] at this
        exact this.2.1
      simp only [List.map_append, List.map_cons, List.map_nil, List.sum_append, List.sum_cons,
        List.sum_nil, Nat.add_zero]
      rw [hd2]
      simp only [List.map_cons, List.sum_cons]
      rw [hD1.2, List.map_congr_left (fun i hi => hsz2 i hi),
        List.map_congr_left (fun i hi => hsz1 i hi)]
    rw [hsum]
  · intro a ha
    rw [hheap]
    rcases List.mem_append.1 ha with h1 | h1
    · exact hds a h1
    · have hnot : a ∉ ds := by
        intro hh
        rcases List.mem_append.1 (hdsmem a hh) with h2 | h2
        · exact hdisj a (hppre a h2) (hxpost a h1)
        · simp only [List.mem_singleton] at h2
          exact hxd a h1 h2
      rw [hused3 a hnot]
      exact (hxs a h1).2
  · intro j hj
    have hjd : j ≠ d := fun e => hj (by rw [e]; simp)
    have hjx : j ∉ xs := fun hh => hj (by simp [hh])
    have hjp : j ∉ ps := fun hh => hj (by simp [hh])
    have hjr : j ≠ r := by
      intro e
      rw [e] at hjp hjd
      rcases List.mem_append.1 hrmem with h2 | h2
      · exact hjp h2
      · simp only [List.mem_singleton] at h2
        exact hjd h2
    have hjds : j ∉ ds := by
      intro hh
      rcases List.mem_append.1 (hdsmem j hh) with h2 | h2
      · exact hjp h2
      · simp only [List.mem_singleton] at h2
        exact hjd h2
    rw [hheap]
    exact ⟨by rw [hseg3 j hjr, hseg2 j hjd, hA1 j hjd],
      by rw [hused3 j hjds, hused2 j hjx, hU1 j]⟩
  · omega
  · omega
  · rw [g4, f3, e3, c3]
  · rw [g5, f4, e4, c4]
  · rw [g6, f5, e5, c5]
  · rw [g7, f6, e6, c7]
  · rw [List.length_append]; omega
  · rw [List.length_append]; omega

theorem carve_spec (m : pool_mgr_t) (pre post : List Nat) (g s : Nat)
    (hR : Rep m (pre ++ g :: post))
    (hfree : (node_at m.node_heap g).allocated = 0)
    (hs : 0 < s) (hsz : s ≤ (node_at m.node_heap g).size)
    (hslots : m.used_nodes < m.total_nodes) :
    ∃ m' ns, carve m s g = some (m', (node_at m.node_heap g).mem) ∧
      Rep m' (pre ++ g :: (ns ++ post)) ∧
      (s = (node_at m.node_heap g).size → ns = []) ∧
      (s < (node_at m.node_heap g).size → ∃ n, ns = [n] ∧ n ∉ pre ++ g :: post ∧ n < 40 ∧
        seg_of m'.node_heap n =
          ((node_at m.node_heap g).mem + s, (node_at m.node_heap g).size - s, 0)) ∧
      seg_of m'.node_heap g = ((node_at m.node_heap g).mem, s, 1) ∧
      (∀ j, j ≠ g → j ∉ ns → seg_of m'.node_heap j = seg_of m.node_heap j ∧
        (node_at m'.node_heap j).used = (node_at m.node_heap j).used) ∧
      m'.pool.num_allocs = m.pool.num_allocs + 1 ∧
      m'.pool.alloc_size = m.pool.alloc_size + s ∧
      m'.pool.num_gaps + 1 = m.pool.num_gaps + ns.length ∧
      m'.used_nodes = m.used_nodes + ns.length ∧ m'.total_nodes = m.total_nodes ∧
      m'.pool.policy = m.pool.policy ∧ m'.pool.mem = m.pool.mem ∧
      m'.pool.total_size = m.pool.total_size := by
  rcases Nat.eq_or_lt_of_le hsz with he | hl
  · obtain ⟨m', h1, h2, hat, h4, h5, h6, h7, h8, h9, h10, h11⟩ :=
      carve_exact m pre post g s hR hfree he
    refine ⟨m', [], h1, h2, fun _ => rfl, fun hh => by omega, ?_, ?_, h4, h5, by simpa using h6,
      by simpa using h7, h8, h9, h10, h11⟩
    · simp only [seg_of, hat, if_true]
    · intro j hj _
      simp only [seg_of, hat, if_neg hj, and_self]
  · obtain ⟨m', n, h1, hnl, hn40, h2, hat, h4, h5, h6, h7, h8, h9, h10, h11⟩ :=
      carve_split m pre post g s hR hfree hs hl hslots
    have hng : n ≠ g := fun e => hnl (by rw [e]; simp)
    refine ⟨m', [n], h1, h2, fun hh => by omega, fun _ => ⟨n, rfl, hnl, hn40, ?_⟩, ?_, ?_, h4, h5,
      by simp [h6], by simpa using h7, h8, h9, h10, h11⟩
    · simp only [seg_of, hat, if_neg hng, if_true]
    · simp only [seg_of, hat, if_true]
    · intro j hj hjn
      simp only [List.mem_singleton] at hjn
      simp only [seg_of, hat, if_neg hj, if_neg hjn]
      by_cases c : (node_at m.node_heap g).next = some j
      · simp only [if_pos c, and_self]
      · simp only [if_neg c, and_self]

/-! ### Selection -/

theorem best_fit_cases (gx : List gap_t) (s : Nat) : ∀ (k i : Nat),
    (best_fit gx s i k = none ∧ ∀ j, i ≤ j → j < i + k → (gap_at gx j).size < s) ∨
    (∃ j0, i ≤ j0 ∧ j0 < i + k ∧ s ≤ (gap_at gx j0).size ∧
      (∀ j, i ≤ j → j < j0 → (gap_at gx j).size < s) ∧
      best_fit gx s i k = (gap_at gx j0).node) := by
  intro k
  induction k with
  | zero =>
    intro i
    left
    exact ⟨rfl, fun j h1 h2 => by omega⟩
  | succ k ih =>
    intro i
    unfold best_fit
    by_cases c : (gap_at gx i).size ≥ s
    · right
      exact ⟨i, le_refl _, by omega, c, fun j h1 h2 => by omega, by rw [if_pos c]⟩
    · rw [if_neg c]
      rcases ih (i + 1) with ⟨h1, h2⟩ | ⟨j0, h1, h2, h3, h4, h5⟩
      · left
        refine ⟨h1, ?_⟩
        intro j hj1 hj2
        by_cases cj : j = i
        · rw [cj]; omega
        · exact h2 j (by omega) (by omega)
      · right
        refine ⟨j0, by omega, by omega, h3, ?_, h5⟩
        intro j hj1 hj2
        by_cases cj : j = i
        · rw [cj]; omega
        · exact h4 j (by omega) hj2

/-- What the selection step returns on a pool that satisfies the invariant. -/
theorem select_spec (m : pool_mgr_t) (l : List Nat) (s : Nat) (hR : Rep m l) :
    ∃ r, select_gap m s = some r ∧
      (r = none → ∀ i, i ∈ l → (node_at m.node_heap i).allocated = 0 →
        (node_at m.node_heap i).size < s) ∧
      (∀ g, r = some g → g ∈ l ∧ (node_at m.node_heap g).allocated = 0 ∧
        s ≤ (node_at m.node_heap g).size ∧
        (m.pool.policy = alloc_policy.FIRST_FIT →
          ∃ pre post, l = pre ++ g :: post ∧ ∀ a, a ∈ pre →
            ¬ ((node_at m.node_heap a).allocated = 0 ∧ s ≤ (node_at m.node_heap a).size)) ∧
        (m.pool.policy ≠ alloc_policy.FIRST_FIT →
          ∀ i, i ∈ l → (node_at m.node_heap i).allocated = 0 →
            s ≤ (node_at m.node_heap i).size →
            (node_at m.node_heap g).size < (node_at m.node_heap i).size ∨
            ((node_at m.node_heap g).size = (node_at m.node_heap i).size ∧ g ≤ i))) := by
  have hS := hR.shape
  unfold select_gap
  by_cases hp : m.pool.policy = alloc_policy.FIRST_FIT
  · rw [if_pos hp]
    have hhead : headOr l none = some 0 := by
      rw [headOr_eq, hS.head]
    have hff := first_fit_chain m.node_heap s l none m.total_nodes hS.chain
      (by rw [hS.total]; exact hS.len_le)
    rw [hhead] at hff
    refine ⟨_, hff, ?_, ?_⟩
    · intro hnone i hi hfree
      have := List.find?_eq_none.1 hnone i hi
      simp only [decide_eq_true_eq, not_and, not_le, ge_iff_le] at this
      exact this hfree
    · intro g hg
      obtain ⟨hP, pre, post, hl, hpre⟩ := List.find?_eq_some.1 hg
      simp only [decide_eq_true_eq, ge_iff_le] at hP
      refine ⟨by rw [hl]; simp, hP.1, hP.2, fun _ => ⟨pre, post, hl, ?_⟩, fun hh => absurd hp hh⟩
      intro a ha hc
      have := hpre a ha
      simp only [Bool.not_eq_true', decide_eq_false_iff_not, ge_iff_le] at this
      exact this hc
  · rw [if_neg hp]
    have hG := hR.gaps
    refine ⟨_, rfl, ?_, ?_⟩
    · intro hnone i hi hfree
      rcases best_fit_cases m.gap_ix s m.pool.num_gaps 0 with ⟨_, h2⟩ | ⟨j0, _, h2, h3, _, h5⟩
      · obtain ⟨j, hj, e⟩ := hG.2.2.1 i ⟨hi, hfree⟩
        have := h2 j (Nat.zero_le _) (by omega)
        rw [e] at this
        exact this
      · obtain ⟨i0, _, e⟩ := hG.2.1 j0 (by omega)
        rw [h5, e] at hnone
        simp at hnone
    · intro g hg
      rcases best_fit_cases m.gap_ix s m.pool.num_gaps 0 with ⟨h1, _⟩ | ⟨j0, _, h2, h3, h4, h5⟩
      · rw [h1] at hg; simp at hg
      · obtain ⟨i0, hi0, e⟩ := hG.2.1 j0 (by omega)
        rw [h5, e] at hg
        simp only [Option.some.injEq] at hg
        subst hg
        rw [e] at h3
        refine ⟨hi0.1, hi0.2, h3, fun hh => absurd hh hp, fun _ => ?_⟩
        intro i hi hfree hsz
        obtain ⟨j, hj, ej⟩ := hG.2.2.1 i ⟨hi, hfree⟩
        have hj0 : j0 ≤ j := by
          by_contra hc
          have := h4 j (Nat.zero_le _) (by omega)
          rw [ej] at this
          simp only at this
          omega
        rcases Nat.eq_or_lt_of_le hj0 with heq | hlt
        · rw [← heq, e] at ej
          simp only [gap_t.mk.injEq, Option.some.injEq] at ej
          right
          exact ⟨ej.1, by omega⟩
        · have := hG.2.2.2 j0 j hlt hj
          rw [e, ej] at this
          unfold gap_lt at this
          simp only [node_addr] at this
          omega

/-- An allocation on a pool that satisfies the invariant returns, and either
changes nothing or carves the selected gap. -/
theorem alloc_spec (m : pool_mgr_t) (l : List Nat) (s : Nat) (hR : Rep m l) (_ : 0 < s) :
    (mem_new_alloc m s = some (m, 0) ∧
      (m.total_nodes ≤ m.used_nodes ∨ select_gap m s = some none)) ∨
    (∃ g pre post, m.used_nodes < m.total_nodes ∧ select_gap m s = some (some g) ∧
      l = pre ++ g :: post ∧ (node_at m.node_heap g).allocated = 0 ∧
      s ≤ (node_at m.node_heap g).size ∧ mem_new_alloc m s = carve m s g) := by
  by_cases hfull : m.used_nodes ≥ m.total_nodes
  · left
    refine ⟨?_, Or.inl hfull⟩
    unfold mem_new_alloc
    rw [if_pos hfull]
  · obtain ⟨r, hsel, hnone, hsome⟩ := select_spec m l s hR
    cases r with
    | none =>
      left
      refine ⟨?_, Or.inr hsel⟩
      unfold mem_new_alloc
      rw [if_neg hfull, hsel]
    | some g =>
      right
      obtain ⟨hgl, hfree, hsz, _, _⟩ := hsome g rfl
      obtain ⟨pre, post, hl⟩ := List.append_of_mem hgl
      refine ⟨g, pre, post, by omega, hsel, hl, hfree, hsz, ?_⟩
      unfold mem_new_alloc
      rw [if_neg hfull, hsel]

/-! ### The invariant holds in every reachable state -/

theorem node_at_replicate (n j : Nat) : node_at (List.replicate n node_zero) j = node_zero := by
  unfold node_at
  rw [List.getD_eq_getElem?_getD]
  by_cases c : j < n
  · rw [List.getElem?_eq_getElem (by simpa using c)]
    simp
  · rw [List.getElem?_eq_none (by simpa using c)]
    rfl

theorem gap_at_replicate (n j : Nat) : gap_at (List.replicate n gap_zero) j = gap_zero := by
  unfold gap_at
  rw [List.getD_eq_getElem?_getD]
  by_cases c : j < n
  · rw [List.getElem?_eq_getElem (by simpa using c)]
    simp
  · rw [List.getElem?_eq_none (by simpa using c)]
    rfl

theorem open_rep (new_mem size : Nat) (policy : alloc_policy) (m : pool_mgr_t)
    (h0 : 0 < size) (hlt : size < 18446744073709551616)
    (ho : mem_pool_open new_mem size policy = some m) :
    Rep m [0] ∧ m.pool.policy = policy ∧ m.pool.total_size = size ∧ m.pool.mem = new_mem ∧
      new_mem ≠ 0 := by
  unfold mem_pool_open at ho
  by_cases hz : new_mem = 0
  · rw [if_pos hz] at ho; simp at ho
  · rw [if_neg hz] at ho
    simp only [Option.some.injEq] at ho
    subst ho
    have hat : ∀ j, node_at ((List.replicate MEM_NODE_HEAP_INIT_CAPACITY node_zero).set 0
        { mem := new_mem, size := size, used := 1, allocated := 0, next := none, prev := none }) j
        = if j = 0 then ⟨new_mem, size, 1, 0, none, none⟩ else node_zero := by
      intro j
      rw [node_at_set, node_at_replicate]
      simp [MEM_NODE_HEAP_INIT_CAPACITY]
    have hgat : ∀ j, gap_at ((List.replicate MEM_GAP_IX_INIT_CAPACITY gap_zero).set 0
        { size := size, node := some 0 }) j
        = if j = 0 then ⟨size, some 0⟩ else gap_zero := by
      intro j
      rw [gap_at_set, gap_at_replicate]
      simp [MEM_GAP_IX_INIT_CAPACITY]
    refine ⟨⟨⟨?_, rfl, ?_, rfl, by simp, ?_, ?_, rfl, ?_, ?_, ?_, ?_, hlt, hz, ?_, ?_⟩, ?_, ?_⟩,
      rfl, rfl, rfl, hz⟩
    · simp [MEM_NODE_HEAP_INIT_CAPACITY]
    · simp [MEM_GAP_IX_INIT_CAPACITY]
    · intro i hi
      simp only [List.mem_singleton] at hi
      omega
    · intro i
      dsimp only
      rw [hat]
      by_cases c : i = 0
      · simp [c]
      · simp [c, node_zero]
    · dsimp only
      refine ⟨?_, ?_, trivial⟩
      · rw [hat, if_pos rfl]
      · rw [hat, if_pos rfl]; rfl
    · dsimp only
      simp only [List.map_cons, List.map_nil, seg_of, hat, if_true]
      exact ⟨rfl, h0, rfl⟩
    · intro i hi
      simp only [List.mem_singleton] at hi
      dsimp only
      rw [hat, if_pos hi]
      left; rfl
    · intro i hi j hj
      simp only [List.mem_singleton] at hi
      omega
    · dsimp only
      simp only [List.map_cons, List.map_nil, seg_of, hat, if_true]
      rfl
    · dsimp only
      simp only [List.map_cons, List.map_nil, seg_of, hat, if_true]
      rfl
    · dsimp only
      simp only [List.map_cons, List.map_nil]
      exact List.chain'_singleton _
    · dsimp only
      refine ⟨by simp [MEM_GAP_IX_INIT_CAPACITY], ?_, ?_, ?_⟩
      · intro j hj
        have : j = 0 := by omega
        subst this
        refine ⟨0, ⟨by simp, ?_⟩, ?_⟩
        · rw [hat, if_pos rfl]
        · rw [hgat, if_pos rfl, hat, if_pos rfl]
      · intro i hi
        have hi0 : i = 0 := by simpa using hi.1
        subst hi0
        exact ⟨0, by omega, by rw [hgat, if_pos rfl, hat, if_pos rfl]⟩
      · intro j k hjk hk
        omega

theorem reach_inv (policy : alloc_policy) (m : pool_mgr_t) (hr : Reachable policy m) :
    ∃ l, Rep m l ∧ m.pool.policy = policy := by
  induction hr with
  | opened new_mem size mgr h0 hlt ho =>
    obtain ⟨h1, h2, _⟩ := open_rep new_mem size policy mgr h0 hlt ho
    exact ⟨[0], h1, h2⟩
  | alloc mgr mgr' size p _ hs ha ih =>
    obtain ⟨l, hR, hp⟩ := ih
    rcases alloc_spec mgr l size hR hs with ⟨h1, _⟩ | ⟨g, pre, post, hsl, _, hl, hfree, hsz, hc⟩
    · rw [h1] at ha
      simp only [Option.some.injEq, Prod.mk.injEq] at ha
      rw [← ha.1]
      exact ⟨l, hR, hp⟩
    · subst hl
      obtain ⟨m', ns, h1, h2, _, _, _, _, _, _, _, _, _, h3, _, _⟩ :=
        carve_spec mgr pre post g size hR hfree hs hsz hsl
      rw [hc, h1] at ha
      simp only [Option.some.injEq, Prod.mk.injEq] at ha
      rw [← ha.1]
      exact ⟨_, h2, by rw [h3, hp]⟩
  | del mgr mgr' a st _ hal hd ih =>
    obtain ⟨l, hR, hp⟩ := ih
    obtain ⟨i, ⟨hi1, hi2, hi3⟩, hi4⟩ := hal
    have hil : i ∈ l := by
      by_contra hc
      have := hR.shape.used i
      rw [if_neg hc] at this
      omega
    obtain ⟨pre, post, hl⟩ := List.append_of_mem hil
    subst hl
    obtain ⟨m', pre', ps, xs, post', r, rest, h1, _, _, _, _, _, _, _, _, _, h2, _, _, _, _, _, _,
      _, h3, _, _, _⟩ := del_spec mgr pre post i hR hi3
    rw [hi4, hd] at h1
    simp only [Option.some.injEq, Prod.mk.injEq] at h1
    rw [h1.1]
    exact ⟨_, h2, by rw [h3, hp]⟩

theorem seg_slots_eq (m : pool_mgr_t) (l : List Nat) (hR : Rep m l) : seg_slots m = l := by
  have hS := hR.shape
  unfold seg_slots
  have := seg_walk_chain m.node_heap l none m.total_nodes hS.chain
    (by rw [hS.total]; exact hS.len_le)
  rw [headOr_eq, hS.head] at this
  exact this

/-! ### Slots and list membership -/

theorem Rep.is_gap_iff {m : pool_mgr_t} {l : List Nat} (hR : Rep m l) (i : Nat) :
    is_gap m i ↔ i ∈ l ∧ (node_at m.node_heap i).allocated = 0 := by
  have hS := hR.shape
  unfold is_gap
  constructor
  · rintro ⟨_, h2, h3⟩
    refine ⟨?_, h3⟩
    by_contra hc
    have := hS.used i
    rw [if_neg hc] at this
    omega
  · rintro ⟨h1, h2⟩
    refine ⟨by rw [hS.total]; exact hS.bound i h1, ?_, h2⟩
    rw [hS.used, if_pos h1]

theorem Rep.is_alloc_iff {m : pool_mgr_t} {l : List Nat} (hR : Rep m l) (i : Nat) :
    is_alloc m i ↔ i ∈ l ∧ (node_at m.node_heap i).allocated = 1 := by
  have hS := hR.shape
  unfold is_alloc
  constructor
  · rintro ⟨_, h2, h3⟩
    refine ⟨?_, h3⟩
    by_contra hc
    have := hS.used i
    rw [if_neg hc] at this
    omega
  · rintro ⟨h1, h2⟩
    refine ⟨by rw [hS.total]; exact hS.bound i h1, ?_, h2⟩
    rw [hS.used, if_pos h1]

theorem Shape.base_inj {m : pool_mgr_t} {l : List Nat} (hS : Shape m l) (i j : Nat)
    (hi : i ∈ l) (hj : j ∈ l) (he : (node_at m.node_heap i).mem = (node_at m.node_heap j).mem) :
    i = j := by
  obtain ⟨pre, post, hl⟩ := List.append_of_mem hi
  subst hl
  obtain ⟨h1, h2, _, _, h5, _⟩ := hS.bases
  obtain ⟨_, h7, _⟩ := hS.split_tiles
  rcases List.mem_append.1 hj with c | c
  · have := h1 j c
    have := h5 j c
    omega
  · rcases List.mem_cons.1 c with c2 | c2
    · exact c2.symm
    · have := h2 j c2
      omega

/-- An allocation on a reachable pool: the complete description used by the
claims below. -/
theorem alloc_full (m : pool_mgr_t) (l : List Nat) (s : Nat) (hR : Rep m l) (hs : 0 < s)
    (hslots : m.used_nodes < m.total_nodes)
    (hex : ∃ i, is_gap m i ∧ s ≤ (node_at m.node_heap i).size) :
    ∃ g pre post m' ns, l = pre ++ g :: post ∧ select_gap m s = some (some g) ∧
      (node_at m.node_heap g).allocated = 0 ∧ s ≤ (node_at m.node_heap g).size ∧
      mem_new_alloc m s = some (m', (node_at m.node_heap g).mem) ∧
      Rep m' (pre ++ g :: (ns ++ post)) ∧
      (s = (node_at m.node_heap g).size → ns = []) ∧
      (s < (node_at m.node_heap g).size → ∃ n, ns = [n] ∧ n ∉ pre ++ g :: post ∧ n < 40 ∧
        seg_of m'.node_heap n =
          ((node_at m.node_heap g).mem + s, (node_at m.node_heap g).size - s, 0)) ∧
      seg_of m'.node_heap g = ((node_at m.node_heap g).mem, s, 1) ∧
      (∀ j, j ≠ g → j ∉ ns → seg_of m'.node_heap j = seg_of m.node_heap j ∧
        (node_at m'.node_heap j).used = (node_at m.node_heap j).used) ∧
      m'.pool.num_allocs = m.pool.num_allocs + 1 ∧
      m'.pool.alloc_size = m.pool.alloc_size + s ∧
      m'.pool.num_gaps + 1 = m.pool.num_gaps + ns.length ∧
      m'.used_nodes = m.used_nodes + ns.length ∧ m'.total_nodes = m.total_nodes ∧
      m'.pool.policy = m.pool.policy ∧ m'.pool.mem = m.pool.mem ∧
      m'.pool.total_size = m.pool.total_size := by
  rcases alloc_spec m l s hR hs with ⟨_, h2 | h2⟩ | ⟨g, pre, post, _, hsel, hl, hfree, hsz, hc⟩
  · omega
  · obtain ⟨r, hsel, hnone, _⟩ := select_spec m l s hR
    rw [h2] at hsel
    simp only [Option.some.injEq] at hsel
    obtain ⟨i, hi, hsz⟩ := hex
    have := hnone hsel.symm i ((hR.is_gap_iff i).1 hi).1 ((hR.is_gap_iff i).1 hi).2
    omega
  · subst hl
    obtain ⟨m', ns, h1, hrest⟩ := carve_spec m pre post g s hR hfree hs hsz hslots
    exact ⟨g, pre, post, m', ns, rfl, hsel, hfree, hsz, by rw [hc, h1], hrest⟩

/-- A non-null result of an allocation comes from the success path. -/
theorem alloc_success (m : pool_mgr_t) (l : List Nat) (s : Nat) (m' : pool_mgr_t) (p : Nat)
    (hR : Rep m l) (hs : 0 < s) (ha : mem_new_alloc m s = some (m', p)) (hp : p ≠ 0) :
    m.used_nodes < m.total_nodes ∧ ∃ i, is_gap m i ∧ s ≤ (node_at m.node_heap i).size := by
  rcases alloc_spec m l s hR hs with ⟨h1, _⟩ | ⟨g, pre, post, hsl, _, hl, hfree, hsz, _⟩
  · rw [h1] at ha
    simp only [Option.some.injEq, Prod.mk.injEq] at ha
    exact absurd ha.2.symm hp
  · exact ⟨hsl, g, (hR.is_gap_iff g).2 ⟨by rw [hl]; simp, hfree⟩, hsz⟩

/-! ### From the slot list to the slot array -/

theorem heap_eq_map (h : List node_t) (n : Nat) (hl : h.length = n) :
    h = (List.range n).map (node_at h) := by
  apply List.ext_getElem
  · simp [hl]
  · intro i h1 h2
    simp only [List.getElem_map, List.getElem_range, node_at]
    rw [List.getD_eq_getElem?_getD, List.getElem?_eq_getElem h1]
    rfl

/-- The used slots of the node heap are the slots of the segment list, up to
order. -/
theorem used_perm (m : pool_mgr_t) (l : List Nat) (hS : Shape m l) :
    (m.node_heap.filter (fun n => decide (n.used = 1))).Perm (l.map (node_at m.node_heap)) := by
  have e := heap_eq_map m.node_heap 40 hS.heap_len
  have h1 : m.node_heap.filter (fun n => decide (n.used = 1)) =
      ((List.range 40).filter (fun i => decide ((node_at m.node_heap i).used = 1))).map
        (node_at m.node_heap) := by
    conv_lhs => rw [e]
    rw [List.filter_map]
    rfl
  rw [h1]
  apply List.Perm.map
  rw [List.perm_ext_iff_of_nodup ((List.nodup_range 40).filter _) hS.nodup]
  intro i
  simp only [List.mem_filter, List.mem_range, decide_eq_true_eq]
  constructor
  · rintro ⟨_, hu⟩
    by_contra hc
    have := hS.used i
    rw [if_neg hc] at this
    omega
  · intro hi
    exact ⟨hS.bound i hi, by rw [hS.used, if_pos hi]⟩

theorem used_sum (m : pool_mgr_t) (l : List Nat) (hS : Shape m l)
    (p : node_t → Bool) (f : node_t → Nat) :
    (((m.node_heap.filter (fun n => decide (n.used = 1))).filter p).map f).sum =
      (((l.map (node_at m.node_heap)).filter p).map f).sum :=
  (((used_perm m l hS).filter p).map f).sum_eq

theorem used_count (m : pool_mgr_t) (l : List Nat) (hS : Shape m l) (p : node_t → Bool) :
    ((m.node_heap.filter (fun n => decide (n.used = 1))).filter p).length =
      ((l.map (node_at m.node_heap)).filter p).length :=
  ((used_perm m l hS).filter p).length_eq

theorem alloc_sum_nodes (h : List node_t) (l : List Nat) :
    alloc_sum (l.map (seg_of h)) =
      (((l.map (node_at h)).filter (fun n => decide (n.allocated = 1))).map
        (fun n => n.size)).sum := by
  induction l with
  | nil => rfl
  | cons i r ih =>
    rw [List.map_cons, alloc_sum_cons, List.map_cons, List.filter_cons, ih]
    by_cases c : (node_at h i).allocated = 1
    · have c' : (seg_of h i).2.2 = 1 := c
      simp [c, c', seg_of]
    · have c' : ¬ (seg_of h i).2.2 = 1 := c
      simp [c, c']

theorem alloc_count_nodes (h : List node_t) (l : List Nat) :
    alloc_count (l.map (seg_of h)) =
      ((l.map (node_at h)).filter (fun n => decide (n.allocated = 1))).length := by
  induction l with
  | nil => rfl
  | cons i r ih =>
    rw [List.map_cons, alloc_count_cons, List.map_cons, List.filter_cons, ih]
    by_cases c : (node_at h i).allocated = 1
    · have c' : (seg_of h i).2.2 = 1 := c
      simp [c, c']; omega
    · have c' : ¬ (seg_of h i).2.2 = 1 := c
      simp [c, c']

theorem size_sum_nodes (h : List node_t) (l : List Nat) :
    ((l.map (seg_of h)).map (fun v => v.2.1)).sum =
      ((l.map (node_at h)).map (fun n => n.size)).sum := by
  simp only [List.map_map]
  rfl

/-- The gap index has one entry per free segment. -/
theorem gap_count (m : pool_mgr_t) (l : List Nat) (hR : Rep m l) :
    m.pool.num_gaps =
      ((l.map (node_at m.node_heap)).filter (fun n => decide (n.allocated = 0))).length := by
  have hS := hR.shape
  have hG := hR.gaps
  have hnd : ((List.range m.pool.num_gaps).map
      (fun j => (gap_at m.gap_ix j).node.getD 0)).Nodup := by
    rw [List.nodup_map_iff_inj_on (List.nodup_range _)]
    intro a ha b hb hab
    have ha' := List.mem_range.1 ha
    have hb' := List.mem_range.1 hb
    obtain ⟨i1, _, e1⟩ := hG.2.1 a ha'
    obtain ⟨i2, _, e2⟩ := hG.2.1 b hb'
    rw [e1, e2] at hab
    simp only [Option.getD_some] at hab
    exact hG.unique ha' hb' (by rw [e1, e2, hab])
  have hp : ((List.range m.pool.num_gaps).map
      (fun j => (gap_at m.gap_ix j).node.getD 0)).Perm
      (l.filter (fun i => decide ((node_at m.node_heap i).allocated = 0))) := by
    rw [List.perm_ext_iff_of_nodup hnd (hS.nodup.filter _)]
    intro i
    simp only [List.mem_map, List.mem_range, List.mem_filter, decide_eq_true_eq]
    constructor
    · rintro ⟨j, hj, e⟩
      obtain ⟨i0, hi0, e0⟩ := hG.2.1 j hj
      rw [e0] at e
      simp only [Option.getD_some] at e
      rw [← e]
      exact hi0
    · intro hi
      obtain ⟨j, hj, e⟩ := hG.2.2.1 i hi
      exact ⟨j, hj, by rw [e]; rfl⟩
  have := hp.length_eq
  rw [List.length_map, List.length_range] at this
  rw [this, List.filter_map, List.length_map]
  rfl

/-! ### A pool without allocations -/

theorem all_free_single (vs : List (Nat × Nat × Nat)) (hn : NoAdj vs)
    (hf : ∀ v, v ∈ vs → v.2.2 = 0) : vs.length ≤ 1 := by
  cases vs with
  | nil => simp
  | cons a r =>
    cases r with
    | nil => simp
    | cons b r2 =>
      exfalso
      have := (List.chain'_cons.1 hn).1
      exact this ⟨hf a (by simp), hf b (by simp)⟩

/-- A pool that satisfies the invariant and holds no allocation is in the state
`mem_pool_open` left it in. -/
theorem no_alloc_state (m : pool_mgr_t) (l : List Nat) (hR : Rep m l)
    (hno : ∀ i, ¬ is_alloc m i) :
    (∀ i, (node_at m.node_heap i).used = 1 ↔ i = 0) ∧
    (node_at m.node_heap 0).allocated = 0 ∧
    (node_at m.node_heap 0).mem = m.pool.mem ∧
    (node_at m.node_heap 0).size = m.pool.total_size ∧
    gap_at m.gap_ix 0 = ⟨m.pool.total_size, some 0⟩ ∧
    m.pool.num_gaps = 1 ∧ m.pool.num_allocs = 0 ∧ m.pool.alloc_size = 0 ∧ m.used_nodes = 1 := by
  have hS := hR.shape
  have hfree : ∀ i, i ∈ l → (node_at m.node_heap i).allocated = 0 := by
    intro i hi
    rcases hS.alloc01 i hi with h | h
    · exact h
    · exact absurd ((hR.is_alloc_iff i).2 ⟨hi, h⟩) (hno i)
  have hlen : (l.map (seg_of m.node_heap)).length ≤ 1 := by
    apply all_free_single _ hR.noadj
    intro v hv
    obtain ⟨i, hi, e⟩ := List.mem_map.1 hv
    rw [← e]
    exact hfree i hi
  have hl : l = [0] := by
    have hh := hS.head
    cases l with
    | nil => simp at hh
    | cons a r =>
      cases r with
      | nil => simp only [List.head?_cons, Option.some.injEq] at hh; rw [hh]
      | cons b r2 => simp at hlen
  subst hl
  have ht := hS.tiles
  simp only [List.map_cons, List.map_nil, Tiles, seg_of] at ht
  have hG := hR.gaps
  have hf0 := hfree 0 (by simp)
  obtain ⟨j, hj, ej⟩ := hG.2.2.1 0 ⟨by simp, hf0⟩
  have hn1 : m.pool.num_gaps ≤ 1 := by
    by_contra hc
    obtain ⟨i0, hi0, e0⟩ := hG.2.1 0 (by omega)
    obtain ⟨i1, hi1, e1⟩ := hG.2.1 1 (by omega)
    have h0 : i0 = 0 := by simpa using hi0.1
    have h1 : i1 = 0 := by simpa using hi1.1
    have := hG.unique (by omega : 0 < m.pool.num_gaps) (by omega : 1 < m.pool.num_gaps)
      (by rw [e0, e1, h0, h1])
    omega
  have hj0 : j = 0 := by omega
  subst hj0
  have hsz : (node_at m.node_heap 0).size = m.pool.total_size := by omega
  refine ⟨?_, hf0, ht.1, hsz, by rw [ej, hsz], by omega, ?_, ?_, ?_⟩
  · intro i
    rw [hS.used]
    by_cases c : i = 0
    · simp [c]
    · simp [c]
  · have := hS.bal_num
    simp only [List.map_cons, List.map_nil, alloc_count_cons, seg_of, hf0] at this
    rw [this]; rfl
  · have := hS.bal_size
    simp only [List.map_cons, List.map_nil, alloc_sum_cons, seg_of, hf0] at this
    rw [this]; rfl
  · rw [hS.used_nodes]; rfl

/-! ### Outstanding addresses -/

theorem alloc_live (m : pool_mgr_t) (l : List Nat) (s : Nat) (m' : pool_mgr_t) (p : Nat)
    (hR : Rep m l) (hs : 0 < s) (ha : mem_new_alloc m s = some (m', p)) (hp : p ≠ 0) :
    (∃ l', Rep m' l') ∧ ¬ allocated_at m p ∧
      (∀ b, allocated_at m' b ↔ b = p ∨ allocated_at m b) ∧
      m'.pool.mem = m.pool.mem ∧ m'.pool.total_size = m.pool.total_size := by
  obtain ⟨hsl, hex⟩ := alloc_success m l s m' p hR hs ha hp
  obtain ⟨g, pre, post, m2, ns, hl, _, hfree, hsz, hcall, hR2, hns0, hns1, hsegg, hoth, _, _, _, _,
    _, _, hmem, htot⟩ := alloc_full m l s hR hs hsl hex
  rw [hcall] at ha
  simp only [Option.some.injEq, Prod.mk.injEq] at ha
  obtain ⟨e1, e2⟩ := ha
  subst e1
  subst e2
  have hgl : g ∈ l := by rw [hl]; simp
  have hga : ¬ is_alloc m g := by
    intro hh
    have := ((hR.is_alloc_iff g).1 hh).2
    omega
  have hnsfree : ∀ n, n ∈ ns → ¬ is_alloc m n ∧ ¬ is_alloc m2 n := by
    intro n hn
    rcases Nat.eq_or_lt_of_le hsz with he | hlt
    · rw [hns0 he] at hn; simp at hn
    · obtain ⟨n0, hn0, hnl, _, hsegn⟩ := hns1 hlt
      rw [hn0] at hn
      simp only [List.mem_singleton] at hn
      subst hn
      constructor
      · intro hh
        exact hnl (by rw [← hl]; exact ((hR.is_alloc_iff n).1 hh).1)
      · intro hh
        have h1 := hh.2.2
        simp only [seg_of, Prod.mk.injEq] at hsegn
        omega
  have hsame : ∀ j, j ≠ g → j ∉ ns → (is_alloc m2 j ↔ is_alloc m j) ∧
      (node_at m2.node_heap j).mem = (node_at m.node_heap j).mem := by
    intro j h1 h2
    obtain ⟨h3, h4⟩ := hoth j h1 h2
    simp only [seg_of, Prod.mk.injEq] at h3
    unfold is_alloc
    rw [h4, h3.2.2, h3.1]
    have : m2.total_nodes = m.total_nodes := by assumption
    rw [this]
    exact ⟨Iff.rfl, rfl⟩
  have hg2 : is_alloc m2 g ∧ (node_at m2.node_heap g).mem = (node_at m.node_heap g).mem := by
    simp only [seg_of, Prod.mk.injEq] at hsegg
    exact ⟨(hR2.is_alloc_iff g).2 ⟨by simp, hsegg.2.2⟩, hsegg.1⟩
  refine ⟨⟨_, hR2⟩, ?_, ?_, hmem, htot⟩
  · rintro ⟨i, hi, hie⟩
    have := hR.shape.base_inj i g ((hR.is_alloc_iff i).1 hi).1 hgl hie
    rw [this] at hi
    exact hga hi
  · intro b
    constructor
    · rintro ⟨i, hi, hie⟩
      by_cases c1 : i = g
      · left; rw [← hie, c1]; exact hg2.2
      · have c2 : i ∉ ns := fun hh => (hnsfree i hh).2 hi
        right
        exact ⟨i, ((hsame i c1 c2).1).1 hi, by rw [← (hsame i c1 c2).2]; exact hie⟩
    · rintro (hb | ⟨i, hi, hie⟩)
      · exact ⟨g, hg2.1, by rw [hb]; exact hg2.2⟩
      · have c1 : i ≠ g := fun e => hga (e ▸ hi)
        have c2 : i ∉ ns := fun hh => (hnsfree i hh).1 hi
        exact ⟨i, ((hsame i c1 c2).1).2 hi, by rw [(hsame i c1 c2).2]; exact hie⟩

theorem del_live (m : pool_mgr_t) (l : List Nat) (a : Nat) (hR : Rep m l)
    (hal : allocated_at m a) :
    ∃ m', mem_del_alloc m a = some (m', alloc_status.ALLOC_OK) ∧ (∃ l', Rep m' l') ∧
      (∀ b, allocated_at m' b ↔ allocated_at m b ∧ b ≠ a) ∧
      m'.pool.mem = m.pool.mem ∧ m'.pool.total_size = m.pool.total_size ∧
      m'.pool.policy = m.pool.policy := by
  obtain ⟨d, hd, hda⟩ := hal
  obtain ⟨hdl, hd1⟩ := (hR.is_alloc_iff d).1 hd
  obtain ⟨pre, post, hl⟩ := List.append_of_mem hdl
  subst hl
  obtain ⟨m', pre', ps, xs, post', r, rest, hcall, hpre, hpost, hblock, _, _, hps, _, hxs, _, hR2,
    hsegr, hrest, hoth, _, _, hmem, htot, hpol, htn, _, _⟩ := del_spec m pre post d hR hd1
  rw [hda] at hcall
  refine ⟨m', hcall, ⟨_, hR2⟩, ?_, hmem, htot, hpol⟩
  have hblockmem : ∀ j, j ∈ ps ++ d :: xs → ¬ is_alloc m' j ∧ (j = d ∨ ¬ is_alloc m j) := by
    intro j hj
    constructor
    · rw [hblock] at hj
      rcases List.mem_cons.1 hj with c | c
      · intro hh
        have := hh.2.2
        simp only [seg_of, Prod.mk.injEq] at hsegr
        rw [c] at this
        omega
      · intro hh
        have := hh.2.1
        have := hrest j c
        omega
    · rcases List.mem_append.1 hj with c | c
      · right
        intro hh
        have := hh.2.2
        have := hps j c
        omega
      · rcases List.mem_cons.1 c with c2 | c2
        · left; exact c2
        · right
          intro hh
          have := hh.2.2
          have := hxs j c2
          omega
  have hsame : ∀ j, j ∉ ps ++ d :: xs → (is_alloc m' j ↔ is_alloc m j) ∧
      (node_at m'.node_heap j).mem = (node_at m.node_heap j).mem := by
    intro j hj
    obtain ⟨h3, h4⟩ := hoth j hj
    simp only [seg_of, Prod.mk.injEq] at h3
    unfold is_alloc
    rw [h4, h3.2.2, h3.1, htn]
    exact ⟨Iff.rfl, rfl⟩
  intro b
  constructor
  · rintro ⟨i, hi, hie⟩
    have c : i ∉ ps ++ d :: xs := fun hh => (hblockmem i hh).1 hi
    have hi2 := ((hsame i c).1).1 hi
    have hie2 : (node_at m.node_heap i).mem = b := by rw [← (hsame i c).2]; exact hie
    refine ⟨⟨i, hi2, hie2⟩, ?_⟩
    intro hb
    have := hR.shape.base_inj i d ((hR.is_alloc_iff i).1 hi2).1 hdl (by rw [hie2, hb, hda])
    exact c (by rw [this]; simp)
  · rintro ⟨⟨i, hi, hie⟩, hb⟩
    have c : i ∉ ps ++ d :: xs := by
      intro hh
      rcases (hblockmem i hh).2 with c2 | c2
      · rw [c2] at hie
        exact hb (by rw [← hie, hda])
      · exact c2 hi
    exact ⟨i, ((hsame i c).1).2 hi, by rw [(hsame i c).2]; exact hie⟩

theorem trace_inv : ∀ (ops : List pool_op) (m : pool_mgr_t) (live : List Nat)
    (m' : pool_mgr_t) (live' : List Nat),
    (∃ l, Rep m l) → live.Nodup → (∀ a, a ∈ live ↔ allocated_at m a) →
    run_trace m live ops = some (m', live') →
    (∃ l', Rep m' l') ∧ (∀ a, a ∈ live' ↔ allocated_at m' a) ∧
      m'.pool.mem = m.pool.mem ∧ m'.pool.total_size = m.pool.total_size := by
  intro ops
  induction ops with
  | nil =>
    intro m live m' live' hR _ hlive hrun
    simp only [run_trace, Option.some.injEq, Prod.mk.injEq] at hrun
    rw [← hrun.1, ← hrun.2]
    exact ⟨hR, hlive, rfl, rfl⟩
  | cons op ops ih =>
    intro m live m' live' hR hnd hlive hrun
    obtain ⟨l, hRl⟩ := hR
    cases op with
    | alloc s =>
      rw [run_trace] at hrun
      by_cases hs : s = 0
      · rw [if_pos hs] at hrun; simp at hrun
      · rw [if_neg hs] at hrun
        cases hcall : mem_new_alloc m s with
        | none => rw [hcall] at hrun; simp at hrun
        | some r =>
          obtain ⟨m1, p⟩ := r
          rw [hcall] at hrun
          simp only at hrun
          by_cases hp : p = 0
          · rw [if_pos hp] at hrun; simp at hrun
          · rw [if_neg hp] at hrun
            obtain ⟨hR1, hnot, hiff, hmem, htot⟩ :=
              alloc_live m l s m1 p hRl (by omega) hcall hp
            obtain ⟨h1, h2, h3, h4⟩ := ih m1 (p :: live) m' live' hR1
              (List.nodup_cons.2 ⟨fun hh => hnot ((hlive p).1 hh), hnd⟩)
              (fun a => by
                rw [List.mem_cons, hiff a, hlive a])
              hrun
            exact ⟨h1, h2, by rw [h3, hmem], by rw [h4, htot]⟩
    | free a =>
      rw [run_trace] at hrun
      by_cases ha : a ∈ live
      · rw [if_pos ha] at hrun
        obtain ⟨m1, hcall, hR1, hiff, hmem, htot, _⟩ := del_live m l a hRl ((hlive a).1 ha)
        rw [hcall] at hrun
        simp only at hrun
        obtain ⟨h1, h2, h3, h4⟩ := ih m1 (live.erase a) m' live' hR1 (hnd.erase a)
          (fun b => by
            rw [hnd.mem_erase_iff, hiff b, hlive b]
            exact And.comm)
          hrun
        exact ⟨h1, h2, by rw [h3, hmem], by rw [h4, htot]⟩
      · rw [if_neg ha] at hrun; simp at hrun

/-! ### The calls return -/

theorem alloc_total (policy : alloc_policy) (m : pool_mgr_t) (s : Nat)
    (hr : Reachable policy m) (hs : 0 < s) :
    ∃ m' p, mem_new_alloc m s = some (m', p) ∧ Reachable policy m' := by
  obtain ⟨l, hR, _⟩ := reach_inv policy m hr
  rcases alloc_spec m l s hR hs with ⟨h1, _⟩ | ⟨g, pre, post, hsl, _, hl, hfree, hsz, hc⟩
  · exact ⟨m, 0, h1, hr⟩
  · subst hl
    obtain ⟨m', ns, h1, _⟩ := carve_spec m pre post g s hR hfree hs hsz hsl
    exact ⟨m', _, by rw [hc, h1], Reachable.alloc m m' s _ hr hs (by rw [hc, h1])⟩

theorem del_total (policy : alloc_policy) (m : pool_mgr_t) (a : Nat)
    (hr : Reachable policy m) (hal : allocated_at m a) :
    ∃ m', mem_del_alloc m a = some (m', alloc_status.ALLOC_OK) ∧ Reachable policy m' := by
  obtain ⟨l, hR, _⟩ := reach_inv policy m hr
  obtain ⟨m', h1, _⟩ := del_live m l a hR hal
  exact ⟨m', h1, Reachable.del m m' a _ hr hal h1⟩

/-! ### Neighbours along the `next` pointers -/

theorem tiles_chain (h : List node_t) : ∀ (l : List Nat) (s e : Nat),
    Tiles (l.map (seg_of h)) s e →
    List.Chain' (fun a b => (node_at h a).mem + (node_at h a).size = (node_at h b).mem) l := by
  intro l
  induction l with
  | nil => intro s e _; exact List.chain'_nil
  | cons a r ih =>
    intro s e ht
    cases r with
    | nil => exact List.chain'_singleton _
    | cons b r2 =>
      obtain ⟨h1, _, h3⟩ := ht
      have h3' := h3
      obtain ⟨h4, _, _⟩ := h3
      rw [List.chain'_cons]
      refine ⟨?_, ih _ _ h3'⟩
      have h1' : (node_at h a).mem = s := h1
      have h4' : (node_at h b).mem = s + (node_at h a).size := h4
      omega

theorem noadj_chain (h : List node_t) (l : List Nat) (hn : NoAdj (l.map (seg_of h))) :
    List.Chain' (fun a b => ¬ ((node_at h a).allocated = 0 ∧ (node_at h b).allocated = 0)) l := by
  unfold NoAdj at hn
  rw [List.chain'_map] at hn
  exact hn

theorem rep_no_adjacent_free (m : pool_mgr_t) (l : List Nat) (hR : Rep m l) :
    no_adjacent_free m := by
  intro a b _ hu hn
  have hal : a ∈ l := by
    by_contra hc
    have := hR.shape.used a
    rw [if_neg hc] at this
    omega
  exact (chain_next_rel m.node_heap _ l none hR.shape.chain (noadj_chain _ _ hR.noadj) a b hal hn).1

theorem filter_used_and (h : List node_t) (q : node_t → Prop) [DecidablePred q] :
    h.filter (fun n => decide (n.used = 1 ∧ q n)) =
      (h.filter (fun n => decide (n.used = 1))).filter (fun n => decide (q n)) := by
  rw [List.filter_filter]
  apply List.filter_congr
  intro x _
  simp [Bool.and_comm]

/-! ### The example pools are reachable -/

theorem ff0_open : mem_pool_open 1000 1000 alloc_policy.FIRST_FIT = some ff0 := by decide

theorem bf0_open : mem_pool_open 1000 1000 alloc_policy.BEST_FIT = some bf0 := by decide

theorem ff0_reach : Reachable alloc_policy.FIRST_FIT ff0 :=
  Reachable.opened 1000 1000 ff0 (by decide) (by decide) ff0_open

theorem ff3_reach : Reachable alloc_policy.FIRST_FIT ff3 := by
  have r1 : Reachable alloc_policy.FIRST_FIT (after_alloc ff0 100) :=
    Reachable.alloc ff0 _ 100 1000 ff0_reach (by decide) (by decide)
  have r2 : Reachable alloc_policy.FIRST_FIT (after_alloc (after_alloc ff0 100) 100) :=
    Reachable.alloc _ _ 100 1100 r1 (by decide) (by decide)
  exact Reachable.alloc _ _ 100 1200 r2 (by decide) (by decide)

theorem ff5_reach : Reachable alloc_policy.FIRST_FIT ff5 := by
  have r4 : Reachable alloc_policy.FIRST_FIT (after_del ff3 1100) :=
    Reachable.del ff3 _ 1100 alloc_status.ALLOC_OK ff3_reach
      ⟨1, ⟨by decide, by decide, by decide⟩, by decide⟩ (by decide)
  exact Reachable.del _ _ 1000 alloc_status.ALLOC_OK r4
    ⟨0, ⟨by decide, by decide, by decide⟩, by decide⟩ (by decide)

theorem ff5b_reach : Reachable alloc_policy.FIRST_FIT ff5b := by
  have r4 : Reachable alloc_policy.FIRST_FIT (after_del ff3 1000) :=
    Reachable.del ff3 _ 1000 alloc_status.ALLOC_OK ff3_reach
      ⟨0, ⟨by decide, by decide, by decide⟩, by decide⟩ (by decide)
  exact Reachable.del _ _ 1200 alloc_status.ALLOC_OK r4
    ⟨2, ⟨by decide, by decide, by decide⟩, by decide⟩ (by decide)

theorem bf8_reach : Reachable alloc_policy.BEST_FIT bf8 := by
  have r0 : Reachable alloc_policy.BEST_FIT bf0 :=
    Reachable.opened 1000 1000 bf0 (by decide) (by decide) bf0_open
  have r1 : Reachable alloc_policy.BEST_FIT (after_alloc bf0 100) :=
    Reachable.alloc bf0 _ 100 1000 r0 (by decide) (by decide)
  have r2 : Reachable alloc_policy.BEST_FIT (after_alloc (after_alloc bf0 100) 100) :=
    Reachable.alloc _ _ 100 1100 r1 (by decide) (by decide)
  have r3 : Reachable alloc_policy.BEST_FIT bf3 :=
    Reachable.alloc _ _ 250 1200 r2 (by decide) (by decide)
  have r4 : Reachable alloc_policy.BEST_FIT (after_del bf3 1000) :=
    Reachable.del bf3 _ 1000 alloc_status.ALLOC_OK r3
      ⟨0, ⟨by decide, by decide, by decide⟩, by decide⟩ (by decide)
  have r5 : Reachable alloc_policy.BEST_FIT (after_del (after_del bf3 1000) 1100) :=
    Reachable.del _ _ 1100 alloc_status.ALLOC_OK r4
      ⟨1, ⟨by decide, by decide, by decide⟩, by decide⟩ (by decide)
  have r6 : Reachable alloc_policy.BEST_FIT
      (after_alloc (after_del (after_del bf3 1000) 1100) 300) :=
    Reachable.alloc _ _ 300 1450 r5 (by decide) (by decide)
  have r7 : Reachable alloc_policy.BEST_FIT bf7 :=
    Reachable.alloc _ _ 200 1000 r6 (by decide) (by decide)
  exact Reachable.del bf7 _ 1200 alloc_status.ALLOC_OK r7
    ⟨2, ⟨by decide, by decide, by decide⟩, by decide⟩ (by decide)

/-! ## The claims -/

/-- C1: in a pool reachable under FIRST_FIT, a request of `s > 0` bytes made
while `used_nodes < total_nodes` and some free segment has size `>= s` returns
the base address of a free segment `g` of size `>= s` whose base is the lowest
among all free segments of size `>= s`. -/
theorem first_fit_lowest_address (m : pool_mgr_t) (s : Nat)
    (hr : Reachable alloc_policy.FIRST_FIT m) (hs : 0 < s)
    (hslots : m.used_nodes < m.total_nodes)
    (hex : ∃ i, is_gap m i ∧ s ≤ (node_at m.node_heap i).size) :
    ∃ m' g, mem_new_alloc m s = some (m', (node_at m.node_heap g).mem) ∧
      is_gap m g ∧ s ≤ (node_at m.node_heap g).size ∧
      ∀ i, is_gap m i → s ≤ (node_at m.node_heap i).size →
        (node_at m.node_heap g).mem ≤ (node_at m.node_heap i).mem := by
  obtain ⟨l, hR, hpol⟩ := reach_inv _ m hr
  obtain ⟨g, pre, post, m', ns, hl, hsel, hfree, hsz, hcall, _⟩ :=
    alloc_full m l s hR hs hslots hex
  obtain ⟨r, hsel2, _, hsome⟩ := select_spec m l s hR
  rw [hsel] at hsel2
  simp only [Option.some.injEq] at hsel2
  obtain ⟨hgl, _, _, hff, _⟩ := hsome g hsel2.symm
  obtain ⟨pre2, post2, hl2, hpre2⟩ := hff hpol
  refine ⟨m', g, hcall, (hR.is_gap_iff g).2 ⟨hgl, hfree⟩, hsz, ?_⟩
  intro i hi hsi
  obtain ⟨hil, hif⟩ := (hR.is_gap_iff i).1 hi
  have hS := hR.shape
  rw [hl2] at hS hil
  obtain ⟨_, hb2, _, _, _, _⟩ := hS.bases
  rcases List.mem_append.1 hil with c | c
  · exact absurd ⟨hif, hsi⟩ (hpre2 i c)
  · rcases List.mem_cons.1 c with c2 | c2
    · rw [c2]
    · have := hb2 i c2
      omega

/-- C1, at the example pool `ff5` (gaps of 200 bytes at 1000 and of 700 bytes
at 1300) and a request of 50 bytes. -/
theorem first_fit_lowest_address_witness :
    ∃ m' g, mem_new_alloc ff5 50 = some (m', (node_at ff5.node_heap g).mem) ∧
      is_gap ff5 g ∧ 50 ≤ (node_at ff5.node_heap g).size ∧
      ∀ i, is_gap ff5 i → 50 ≤ (node_at ff5.node_heap i).size →
        (node_at ff5.node_heap g).mem ≤ (node_at ff5.node_heap i).mem :=
  first_fit_lowest_address ff5 50 ff5_reach (by decide) (by decide)
    ⟨3, ⟨by decide, by decide, by decide⟩, by decide⟩

/-- C2: in a pool reachable under BEST_FIT, a request of `s > 0` bytes made
while `used_nodes < total_nodes` and some free segment has size `>= s` is
carved out of a free segment `g` whose size is the minimum over all free
segments of size `>= s`: the call returns the base of `g`, and afterwards `g`
is allocated with size `s` at the same base. -/
theorem best_fit_smallest_gap (m : pool_mgr_t) (s : Nat)
    (hr : Reachable alloc_policy.BEST_FIT m) (hs : 0 < s)
    (hslots : m.used_nodes < m.total_nodes)
    (hex : ∃ i, is_gap m i ∧ s ≤ (node_at m.node_heap i).size) :
    ∃ m' g, mem_new_alloc m s = some (m', (node_at m.node_heap g).mem) ∧
      is_gap m g ∧ s ≤ (node_at m.node_heap g).size ∧
      (∀ i, is_gap m i → s ≤ (node_at m.node_heap i).size →
        (node_at m.node_heap g).size ≤ (node_at m.node_heap i).size) ∧
      is_alloc m' g ∧ (node_at m'.node_heap g).size = s ∧
      (node_at m'.node_heap g).mem = (node_at m.node_heap g).mem := by
  obtain ⟨l, hR, hpol⟩ := reach_inv _ m hr
  obtain ⟨g, pre, post, m', ns, hl, hsel, hfree, hsz, hcall, hR2, _, _, hsegg, _⟩ :=
    alloc_full m l s hR hs hslots hex
  obtain ⟨r, hsel2, _, hsome⟩ := select_spec m l s hR
  rw [hsel] at hsel2
  simp only [Option.some.injEq] at hsel2
  obtain ⟨hgl, _, _, _, hbf⟩ := hsome g hsel2.symm
  simp only [seg_of, Prod.mk.injEq] at hsegg
  refine ⟨m', g, hcall, (hR.is_gap_iff g).2 ⟨hgl, hfree⟩, hsz, ?_,
    (hR2.is_alloc_iff g).2 ⟨by simp, hsegg.2.2⟩, hsegg.2.1, hsegg.1⟩
  intro i hi hsi
  obtain ⟨hil, hif⟩ := (hR.is_gap_iff i).1 hi
  have := hbf (by rw [hpol]; decide) i hil hif hsi
  omega

/-- C2, at the example pool `bf8` (two gaps of 250 bytes) and a request of 100
bytes. -/
theorem best_fit_smallest_gap_witness :
    ∃ m' g, mem_new_alloc bf8 100 = some (m', (node_at bf8.node_heap g).mem) ∧
      is_gap bf8 g ∧ 100 ≤ (node_at bf8.node_heap g).size ∧
      (∀ i, is_gap bf8 i → 100 ≤ (node_at bf8.node_heap i).size →
        (node_at bf8.node_heap g).size ≤ (node_at bf8.node_heap i).size) ∧
      is_alloc m' g ∧ (node_at m'.node_heap g).size = 100 ∧
      (node_at m'.node_heap g).mem = (node_at bf8.node_heap g).mem :=
  best_fit_smallest_gap bf8 100 bf8_reach (by decide) (by decide)
    ⟨2, ⟨by decide, by decide, by decide⟩, by decide⟩

/-- C3 (the code at a failing input): the best-fit pool `bf8` is reachable and
has two free segments of the smallest sufficient size 250, slot 2 at address
1200 and slot 1 at address 1750; a request of 250 bytes returns 1750, the
higher of the two addresses, because the index orders ties by node pointer. -/
theorem best_fit_tie_returns_higher_address :
    Reachable alloc_policy.BEST_FIT bf8 ∧
    is_gap bf8 2 ∧ (node_at bf8.node_heap 2).size = 250 ∧ (node_at bf8.node_heap 2).mem = 1200 ∧
    is_gap bf8 1 ∧ (node_at bf8.node_heap 1).size = 250 ∧ (node_at bf8.node_heap 1).mem = 1750 ∧
    (∀ i, is_gap bf8 i → 250 ≤ (node_at bf8.node_heap i).size → i = 1 ∨ i = 2) ∧
    (mem_new_alloc bf8 250).map (fun r => r.2) = some 1750 := by
  refine ⟨bf8_reach, ⟨by decide, by decide, by decide⟩, by decide, by decide,
    ⟨by decide, by decide, by decide⟩, by decide, by decide, ?_, by decide⟩
  intro i ⟨h1, h2, h3⟩ h4
  have key : ∀ j, j < 40 → (node_at bf8.node_heap j).used = 1 →
      (node_at bf8.node_heap j).allocated = 0 → 250 ≤ (node_at bf8.node_heap j).size →
      j = 1 ∨ j = 2 := by decide
  exact key i h1 h2 h3 h4

/-- C4: a successful allocation of `s > 0` bytes on a reachable pool returns the
base `b` of the selected free segment `g` (size `S >= s`); afterwards `g` is
allocated with size `s`; when `S > s` one new free segment of size `S - s` at
`b + s` is linked right after `g`, in a slot that was unused, and `used_nodes`
grows by 1; when `S = s` no segment is created, `used_nodes` is unchanged and
`num_gaps` drops by 1; every other slot keeps its segment; `num_allocs` grows
by 1 and `alloc_size` by `s`. -/
theorem alloc_carves_selected_gap (policy : alloc_policy) (m m' : pool_mgr_t) (s p : Nat)
    (hr : Reachable policy m) (hs : 0 < s)
    (ha : mem_new_alloc m s = some (m', p)) (hp : p ≠ 0) :
    ∃ g pre post ns,
      seg_slots m = pre ++ g :: post ∧ select_gap m s = some (some g) ∧ is_gap m g ∧
      s ≤ (node_at m.node_heap g).size ∧ p = (node_at m.node_heap g).mem ∧
      seg_slots m' = pre ++ g :: (ns ++ post) ∧
      seg_of m'.node_heap g = ((node_at m.node_heap g).mem, s, 1) ∧
      (node_at m'.node_heap g).used = 1 ∧
      (s < (node_at m.node_heap g).size → ∃ n, ns = [n] ∧
        (node_at m.node_heap n).used = 0 ∧ (node_at m'.node_heap n).used = 1 ∧
        seg_of m'.node_heap n =
          ((node_at m.node_heap g).mem + s, (node_at m.node_heap g).size - s, 0) ∧
        m'.used_nodes = m.used_nodes + 1 ∧ m'.pool.num_gaps = m.pool.num_gaps) ∧
      (s = (node_at m.node_heap g).size → ns = [] ∧ m'.used_nodes = m.used_nodes ∧
        m'.pool.num_gaps + 1 = m.pool.num_gaps) ∧
      (∀ j, j ≠ g → j ∉ ns → seg_of m'.node_heap j = seg_of m.node_heap j ∧
        (node_at m'.node_heap j).used = (node_at m.node_heap j).used) ∧
      m'.pool.num_allocs = m.pool.num_allocs + 1 ∧
      m'.pool.alloc_size = m.pool.alloc_size + s := by
  obtain ⟨l, hR, _⟩ := reach_inv _ m hr
  obtain ⟨hsl, hex⟩ := alloc_success m l s m' p hR hs ha hp
  obtain ⟨g, pre, post, m2, ns, hl, hsel, hfree, hsz, hcall, hR2, hns0, hns1, hsegg, hoth, hna, hsa,
    hng, hun, _⟩ := alloc_full m l s hR hs hsl hex
  rw [hcall] at ha
  simp only [Option.some.injEq, Prod.mk.injEq] at ha
  obtain ⟨e1, e2⟩ := ha
  subst e1
  have hgl : g ∈ l := by rw [hl]; simp
  refine ⟨g, pre, post, ns, by rw [seg_slots_eq m l hR, hl], hsel,
    (hR.is_gap_iff g).2 ⟨hgl, hfree⟩, hsz, e2.symm, seg_slots_eq _ _ hR2, hsegg, ?_, ?_, ?_,
    hoth, hna, hsa⟩
  · rw [hR2.shape.used, if_pos (by simp)]
  · intro hlt
    obtain ⟨n, hn, hnl, _, hsegn⟩ := hns1 hlt
    refine ⟨n, hn, ?_, ?_, hsegn, ?_, ?_⟩
    · rw [hR.shape.used, if_neg (by rw [hl]; exact hnl)]
    · rw [hR2.shape.used, if_pos (by rw [hn]; simp)]
    · rw [hun, hn]; rfl
    · rw [hn] at hng
      simp only [List.length_singleton] at hng
      omega
  · intro he
    have hn := hns0 he
    rw [hn] at hng hun
    exact ⟨hn, by simpa using hun, by simpa using hng⟩

/-- C4, at the example pool `ff5` and a request of 50 bytes (a split of the gap
of 200 bytes at address 1000). -/
theorem alloc_carves_selected_gap_witness :
    ∃ g pre post ns,
      seg_slots ff5 = pre ++ g :: post ∧ select_gap ff5 50 = some (some g) ∧ is_gap ff5 g ∧
      50 ≤ (node_at ff5.node_heap g).size ∧ 1000 = (node_at ff5.node_heap g).mem ∧
      seg_slots (after_alloc ff5 50) = pre ++ g :: (ns ++ post) ∧
      seg_of (after_alloc ff5 50).node_heap g = ((node_at ff5.node_heap g).mem, 50, 1) ∧
      (node_at (after_alloc ff5 50).node_heap g).used = 1 ∧
      (50 < (node_at ff5.node_heap g).size → ∃ n, ns = [n] ∧
        (node_at ff5.node_heap n).used = 0 ∧ (node_at (after_alloc ff5 50).node_heap n).used = 1 ∧
        seg_of (after_alloc ff5 50).node_heap n =
          ((node_at ff5.node_heap g).mem + 50, (node_at ff5.node_heap g).size - 50, 0) ∧
        (after_alloc ff5 50).used_nodes = ff5.used_nodes + 1 ∧
        (after_alloc ff5 50).pool.num_gaps = ff5.pool.num_gaps) ∧
      (50 = (node_at ff5.node_heap g).size → ns = [] ∧
        (after_alloc ff5 50).used_nodes = ff5.used_nodes ∧
        (after_alloc ff5 50).pool.num_gaps + 1 = ff5.pool.num_gaps) ∧
      (∀ j, j ≠ g → j ∉ ns →
        seg_of (after_alloc ff5 50).node_heap j = seg_of ff5.node_heap j ∧
        (node_at (after_alloc ff5 50).node_heap j).used = (node_at ff5.node_heap j).used) ∧
      (after_alloc ff5 50).pool.num_allocs = ff5.pool.num_allocs + 1 ∧
      (after_alloc ff5 50).pool.alloc_size = ff5.pool.alloc_size + 50 :=
  alloc_carves_selected_gap alloc_policy.FIRST_FIT ff5 (after_alloc ff5 50) 50 1000 ff5_reach
    (by decide) (by decide) (by decide)

/-- C5 (the code at a failing input): on the freshly opened pool `ff0` the
address 1000 is the base of the free segment, not of an allocated one, yet
`mem_del_alloc` returns `ALLOC_OK` and changes the pool: `num_gaps` becomes 2,
`num_allocs` wraps to `2^32 - 1` and `alloc_size` to `2^64 - 1000`. -/
theorem del_of_free_base_is_not_refused :
    ¬ allocated_at ff0 1000 ∧
    (mem_del_alloc ff0 1000).map
      (fun r => (r.2, r.1.pool.num_gaps, r.1.pool.num_allocs, r.1.pool.alloc_size)) =
      some (alloc_status.ALLOC_OK, 2, 4294967295, 18446744073709550616) ∧
    ff0.pool.num_gaps = 1 ∧ ff0.pool.num_allocs = 0 ∧ ff0.pool.alloc_size = 0 := by
  refine ⟨?_, by decide, by decide, by decide, by decide⟩
  rintro ⟨i, ⟨h1, h2, h3⟩, _⟩
  have key : ∀ j, j < 40 → (node_at ff0.node_heap j).used = 1 →
      (node_at ff0.node_heap j).allocated = 1 → False := by decide
  exact key i h1 h2 h3

/-- C6: releasing the base address `a` of an allocated segment `d` of a
reachable pool returns `ALLOC_OK`.  With `ps` the immediate predecessor of `d`
if it was free and `xs` the immediate successor if it was free (each a list
of at most one slot), the segment list afterwards holds the single free
segment `r` (the first slot of `ps ++ d :: xs`) in place of the block
`ps ++ d :: xs`: it starts at the old base of `r` and its size is the sum of
the old sizes of the block; the other slots of the block are marked unused;
every slot outside the block keeps its segment; `num_allocs` drops by 1 and
`alloc_size` by the old size of `d`. -/
theorem del_coalesces_neighbours (policy : alloc_policy) (m : pool_mgr_t) (a : Nat)
    (hr : Reachable policy m) (hal : allocated_at m a) :
    ∃ m' d pre post pre' ps xs post' r rest,
      seg_slots m = pre ++ d :: post ∧ is_alloc m d ∧ (node_at m.node_heap d).mem = a ∧
      mem_del_alloc m a = some (m', alloc_status.ALLOC_OK) ∧
      pre = pre' ++ ps ∧ post = xs ++ post' ∧ ps.length ≤ 1 ∧ xs.length ≤ 1 ∧
      (∀ p, p ∈ ps → (node_at m.node_heap p).allocated = 0) ∧
      (ps = [] → ∀ y, pre.getLast? = some y → (node_at m.node_heap y).allocated ≠ 0) ∧
      (∀ x, x ∈ xs → (node_at m.node_heap x).allocated = 0) ∧
      (xs = [] → ∀ y, post.head? = some y → (node_at m.node_heap y).allocated ≠ 0) ∧
      ps ++ d :: xs = r :: rest ∧
      seg_slots m' = pre' ++ r :: post' ∧
      seg_of m'.node_heap r = ((node_at m.node_heap r).mem,
        ((ps ++ d :: xs).map (fun i => (node_at m.node_heap i).size)).sum, 0) ∧
      (node_at m'.node_heap r).used = 1 ∧
      (∀ x, x ∈ rest → (node_at m'.node_heap x).used = 0) ∧
      (∀ j, j ∉ ps ++ d :: xs → seg_of m'.node_heap j = seg_of m.node_heap j ∧
        (node_at m'.node_heap j).used = (node_at m.node_heap j).used) ∧
      m'.pool.num_allocs + 1 = m.pool.num_allocs ∧
      m'.pool.alloc_size + (node_at m.node_heap d).size = m.pool.alloc_size := by
  obtain ⟨l, hR, _⟩ := reach_inv _ m hr
  obtain ⟨d, hd, hda⟩ := hal
  obtain ⟨hdl, hd1⟩ := (hR.is_alloc_iff d).1 hd
  obtain ⟨pre, post, hl⟩ := List.append_of_mem hdl
  subst hl
  obtain ⟨m', pre', ps, xs, post', r, rest, hcall, hpre, hpost, hblock, hpl, hxl, hps, hpnil, hxs,
    hxnil, hR2, hsegr, hrest, hoth, hna, hsa, _⟩ := del_spec m pre post d hR hd1
  rw [hda] at hcall
  refine ⟨m', d, pre, post, pre', ps, xs, post', r, rest, seg_slots_eq _ _ hR, hd, hda, hcall,
    hpre, hpost, hpl, hxl, hps, hpnil, hxs, hxnil, hblock, seg_slots_eq _ _ hR2, hsegr, ?_,
    hrest, hoth, hna, hsa⟩
  rw [hR2.shape.used, if_pos (by simp)]

/-- C6, at the example pool `ff5b` (a gap of 100 bytes at 1000, an allocation
of 100 bytes at 1100, a gap of 800 bytes at 1200) and the address 1100. -/
theorem del_coalesces_neighbours_witness :
    ∃ m' d pre post pre' ps xs post' r rest,
      seg_slots ff5b = pre ++ d :: post ∧ is_alloc ff5b d ∧
      (node_at ff5b.node_heap d).mem = 1100 ∧
      mem_del_alloc ff5b 1100 = some (m', alloc_status.ALLOC_OK) ∧
      pre = pre' ++ ps ∧ post = xs ++ post' ∧ ps.length ≤ 1 ∧ xs.length ≤ 1 ∧
      (∀ p, p ∈ ps → (node_at ff5b.node_heap p).allocated = 0) ∧
      (ps = [] → ∀ y, pre.getLast? = some y → (node_at ff5b.node_heap y).allocated ≠ 0) ∧
      (∀ x, x ∈ xs → (node_at ff5b.node_heap x).allocated = 0) ∧
      (xs = [] → ∀ y, post.head? = some y → (node_at ff5b.node_heap y).allocated ≠ 0) ∧
      ps ++ d :: xs = r :: rest ∧
      seg_slots m' = pre' ++ r :: post' ∧
      seg_of m'.node_heap r = ((node_at ff5b.node_heap r).mem,
        ((ps ++ d :: xs).map (fun i => (node_at ff5b.node_heap i).size)).sum, 0) ∧
      (node_at m'.node_heap r).used = 1 ∧
      (∀ x, x ∈ rest → (node_at m'.node_heap x).used = 0) ∧
      (∀ j, j ∉ ps ++ d :: xs → seg_of m'.node_heap j = seg_of ff5b.node_heap j ∧
        (node_at m'.node_heap j).used = (node_at ff5b.node_heap j).used) ∧
      m'.pool.num_allocs + 1 = ff5b.pool.num_allocs ∧
      m'.pool.alloc_size + (node_at ff5b.node_heap d).size = ff5b.pool.alloc_size :=
  del_coalesces_neighbours alloc_policy.FIRST_FIT ff5b 1100 ff5b_reach
    ⟨1, ⟨by decide, by decide, by decide⟩, by decide⟩

theorem open_free (new_mem size : Nat) (policy : alloc_policy) (m : pool_mgr_t)
    (ho : mem_pool_open new_mem size policy = some m) :
    (node_at m.node_heap 0).allocated = 0 := by
  unfold mem_pool_open at ho
  by_cases hz : new_mem = 0
  · rw [if_pos hz] at ho; simp at ho
  · rw [if_neg hz] at ho
    simp only [Option.some.injEq] at ho
    subst ho
    dsimp only
    rw [node_at_set]
    simp [MEM_NODE_HEAP_INIT_CAPACITY]

/-- C7: open a pool of `size > 0` bytes and run any sequence of successful
allocations of positive size and deallocations of outstanding addresses; when
no returned address is left outstanding, the pool is in the state it was opened
in: slot 0 is the only used slot, it is free, linked to nothing, starts at the
pool base and has size `total_size`; the gap index holds exactly the entry of
slot 0; `num_gaps = 1`, `num_allocs = 0`, `alloc_size = 0`, `used_nodes = 1`. -/
theorem alloc_del_round_trip (policy : alloc_policy) (new_mem size : Nat)
    (m0 m : pool_mgr_t) (ops : List pool_op)
    (h0 : 0 < size) (hlt : size < 18446744073709551616)
    (ho : mem_pool_open new_mem size policy = some m0)
    (hrun : run_trace m0 [] ops = some (m, [])) :
    (∀ i, (node_at m.node_heap i).used = 1 ↔ i = 0) ∧
    (node_at m.node_heap 0).allocated = 0 ∧
    (node_at m.node_heap 0).next = none ∧ (node_at m.node_heap 0).prev = none ∧
    (node_at m.node_heap 0).mem = new_mem ∧
    (node_at m.node_heap 0).size = size ∧
    m.pool.mem = new_mem ∧ m.pool.total_size = size ∧
    gap_at m.gap_ix 0 = ⟨size, some 0⟩ ∧
    m.pool.num_gaps = 1 ∧ m.pool.num_allocs = 0 ∧ m.pool.alloc_size = 0 ∧ m.used_nodes = 1 ∧
    seg_view m = seg_view m0 := by
  obtain ⟨hR0, _, htot0, hmem0, _⟩ := open_rep new_mem size policy m0 h0 hlt ho
  have hnone0 : ∀ a, a ∈ ([] : List Nat) ↔ allocated_at m0 a := by
    intro a
    constructor
    · intro hh; simp at hh
    · rintro ⟨i, hi, _⟩
      have := (hR0.is_alloc_iff i).1 hi
      have hi0 : i = 0 := by simpa using this.1
      have hf := open_free new_mem size policy m0 ho
      rw [hi0] at this
      omega
  obtain ⟨⟨l, hR⟩, hlive, hmem, htot⟩ := trace_inv ops m0 [] m [] ⟨[0], hR0⟩ List.nodup_nil
    hnone0 hrun
  have hno : ∀ i, ¬ is_alloc m i := by
    intro i hi
    have := (hlive (node_at m.node_heap i).mem).2 ⟨i, hi, rfl⟩
    simp at this
  obtain ⟨h1, h2, h3, h4, h5, h6, h7, h8, h9⟩ := no_alloc_state m l hR hno
  have hl : l = [0] := by
    have hS := hR.shape
    have hlen := hS.used_nodes
    rw [h9] at hlen
    have hh := hS.head
    cases l with
    | nil => simp at hh
    | cons a r =>
      cases r with
      | nil => simp only [List.head?_cons, Option.some.injEq] at hh; rw [hh]
      | cons b r2 => simp at hlen
  subst hl
  obtain ⟨hc1, hc2, _⟩ := hR.shape.chain
  have hf0 : (node_at m0.node_heap 0).allocated = 0 := open_free new_mem size policy m0 ho
  have ht0 := hR0.shape.tiles
  simp only [List.map_cons, List.map_nil, Tiles, seg_of] at ht0
  refine ⟨h1, h2, hc2, hc1, by rw [h3, hmem, hmem0], by rw [h4, htot, htot0],
    by rw [hmem, hmem0], by rw [htot, htot0], by rw [h5, htot, htot0], h6, h7, h8, h9, ?_⟩
  unfold seg_view
  rw [seg_slots_eq m _ hR, seg_slots_eq m0 _ hR0]
  simp only [List.map_cons, List.map_nil, seg_of, h2, h3, h4, hf0, hmem, htot]
  have e1 : (node_at m0.node_heap 0).mem = m0.pool.mem := ht0.1
  have e2 : (node_at m0.node_heap 0).size = m0.pool.total_size := by omega
  rw [e1, e2]

/-- C7, at the pool of 1000 bytes opened at address 1000 and the trace
allocate 100, 100, 100; release 1000, 1200, 1100. -/
theorem alloc_del_round_trip_witness :
    run_trace ff0 [] [pool_op.alloc 100, pool_op.alloc 100, pool_op.alloc 100,
      pool_op.free 1000, pool_op.free 1200, pool_op.free 1100] =
      some (after_del ff5b 1100, []) ∧
    (∀ i, (node_at (after_del ff5b 1100).node_heap i).used = 1 ↔ i = 0) ∧
    (node_at (after_del ff5b 1100).node_heap 0).allocated = 0 ∧
    (node_at (after_del ff5b 1100).node_heap 0).next = none ∧
    (node_at (after_del ff5b 1100).node_heap 0).prev = none ∧
    (node_at (after_del ff5b 1100).node_heap 0).mem = 1000 ∧
    (node_at (after_del ff5b 1100).node_heap 0).size = 1000 ∧
    (after_del ff5b 1100).pool.mem = 1000 ∧ (after_del ff5b 1100).pool.total_size = 1000 ∧
    gap_at (after_del ff5b 1100).gap_ix 0 = ⟨1000, some 0⟩ ∧
    (after_del ff5b 1100).pool.num_gaps = 1 ∧ (after_del ff5b 1100).pool.num_allocs = 0 ∧
    (after_del ff5b 1100).pool.alloc_size = 0 ∧ (after_del ff5b 1100).used_nodes = 1 ∧
    seg_view (after_del ff5b 1100) = seg_view ff0 :=
  ⟨by decide, alloc_del_round_trip alloc_policy.FIRST_FIT 1000 1000 ff0 (after_del ff5b 1100)
    [pool_op.alloc 100, pool_op.alloc 100, pool_op.alloc 100,
      pool_op.free 1000, pool_op.free 1200, pool_op.free 1100]
    (by decide) (by decide) ff0_open (by decide)⟩

/-- C8 (tiling): in every reachable pool the segment list starts at slot 0,
which lies at the pool base; the segments in list order tile the pool region
with positive sizes; along every `next` pointer of a used slot `a` to `b`,
`a.base + a.size = b.base`; every used slot has a positive size; and the sizes
of the used slots sum to `total_size`. -/
theorem tiling_invariant (policy : alloc_policy) (m : pool_mgr_t)
    (hr : Reachable policy m) :
    (seg_slots m).head? = some 0 ∧ (node_at m.node_heap 0).mem = m.pool.mem ∧
    Tiles (seg_view m) m.pool.mem (m.pool.mem + m.pool.total_size) ∧
    (∀ a b, a < m.total_nodes → (node_at m.node_heap a).used = 1 →
      (node_at m.node_heap a).next = some b →
      (node_at m.node_heap b).used = 1 ∧
      (node_at m.node_heap a).mem + (node_at m.node_heap a).size = (node_at m.node_heap b).mem) ∧
    (∀ a, a < m.total_nodes → (node_at m.node_heap a).used = 1 →
      0 < (node_at m.node_heap a).size) ∧
    ((m.node_heap.filter (fun n => decide (n.used = 1))).map (fun n => n.size)).sum =
      m.pool.total_size := by
  obtain ⟨l, hR, _⟩ := reach_inv _ m hr
  have hS := hR.shape
  have hmeml : ∀ a, (node_at m.node_heap a).used = 1 → a ∈ l := by
    intro a hu
    by_contra hc
    have := hS.used a
    rw [if_neg hc] at this
    omega
  have hhead : l.head? = some 0 := hS.head
  refine ⟨by rw [seg_slots_eq m l hR]; exact hhead, ?_, ?_, ?_, ?_, ?_⟩
  · have ht := hS.tiles
    cases l with
    | nil => simp at hhead
    | cons a r =>
      simp only [List.head?_cons, Option.some.injEq] at hhead
      subst hhead
      exact ht.1
  · unfold seg_view
    rw [seg_slots_eq m l hR]
    exact hS.tiles
  · intro a b _ hu hn
    obtain ⟨h1, h2⟩ := chain_next_rel m.node_heap _ l none hS.chain
      (tiles_chain m.node_heap l _ _ hS.tiles) a b (hmeml a hu) hn
    exact ⟨by rw [hS.used, if_pos h2], h1⟩
  · intro a _ hu
    exact (tiles_mem _ _ _ hS.tiles (seg_of m.node_heap a)
      (List.mem_map_of_mem _ (hmeml a hu))).2.2
  · have h1 := used_sum m l hS (fun _ => true) (fun n => n.size)
    simp only [List.filter_true] at h1
    rw [h1, ← size_sum_nodes]
    have := tiles_sum _ _ _ hS.tiles
    omega

/-- C8, at the example pool `ff5`. -/
theorem tiling_invariant_witness :
    (seg_slots ff5).head? = some 0 ∧ (node_at ff5.node_heap 0).mem = ff5.pool.mem ∧
    Tiles (seg_view ff5) ff5.pool.mem (ff5.pool.mem + ff5.pool.total_size) ∧
    (∀ a b, a < ff5.total_nodes → (node_at ff5.node_heap a).used = 1 →
      (node_at ff5.node_heap a).next = some b →
      (node_at ff5.node_heap b).used = 1 ∧
      (node_at ff5.node_heap a).mem + (node_at ff5.node_heap a).size =
        (node_at ff5.node_heap b).mem) ∧
    (∀ a, a < ff5.total_nodes → (node_at ff5.node_heap a).used = 1 →
      0 < (node_at ff5.node_heap a).size) ∧
    ((ff5.node_heap.filter (fun n => decide (n.used = 1))).map (fun n => n.size)).sum =
      ff5.pool.total_size :=
  tiling_invariant alloc_policy.FIRST_FIT ff5 ff5_reach

/-- C9 (no adjacent free): in every reachable pool no two neighbours of the
segment list are both free; an allocation of positive size returns and leaves
such a pool, and so does a deallocation of a currently allocated address. -/
theorem no_adjacent_free_invariant (policy : alloc_policy) (m : pool_mgr_t)
    (hr : Reachable policy m) :
    no_adjacent_free m ∧ NoAdj (seg_view m) ∧
    (∀ s, 0 < s → ∃ m' p, mem_new_alloc m s = some (m', p) ∧
      no_adjacent_free m' ∧ NoAdj (seg_view m')) ∧
    (∀ a, allocated_at m a → ∃ m', mem_del_alloc m a = some (m', alloc_status.ALLOC_OK) ∧
      no_adjacent_free m' ∧ NoAdj (seg_view m')) := by
  have key : ∀ m1, Reachable policy m1 → no_adjacent_free m1 ∧ NoAdj (seg_view m1) := by
    intro m1 h1
    obtain ⟨l, hR, _⟩ := reach_inv _ m1 h1
    refine ⟨rep_no_adjacent_free m1 l hR, ?_⟩
    unfold seg_view
    rw [seg_slots_eq m1 l hR]
    exact hR.noadj
  refine ⟨(key m hr).1, (key m hr).2, ?_, ?_⟩
  · intro s hs
    obtain ⟨m', p, h1, h2⟩ := alloc_total policy m s hr hs
    exact ⟨m', p, h1, key m' h2⟩
  · intro a ha
    obtain ⟨m', h1, h2⟩ := del_total policy m a hr ha
    exact ⟨m', h1, key m' h2⟩

/-- C9, at the example pool `ff5b`. -/
theorem no_adjacent_free_invariant_witness :
    no_adjacent_free ff5b ∧ NoAdj (seg_view ff5b) ∧
    (∀ s, 0 < s → ∃ m' p, mem_new_alloc ff5b s = some (m', p) ∧
      no_adjacent_free m' ∧ NoAdj (seg_view m')) ∧
    (∀ a, allocated_at ff5b a → ∃ m',
      mem_del_alloc ff5b a = some (m', alloc_status.ALLOC_OK) ∧
      no_adjacent_free m' ∧ NoAdj (seg_view m')) :=
  no_adjacent_free_invariant alloc_policy.FIRST_FIT ff5b ff5b_reach

/-- C10 (balance): in every reachable pool `alloc_size` is the sum of the sizes
of the used slots with `allocated = 1`, `num_allocs` is the number of those
slots, and `num_gaps` is the number of used slots with `allocated = 0`. -/
theorem balance_invariant (policy : alloc_policy) (m : pool_mgr_t)
    (hr : Reachable policy m) :
    m.pool.alloc_size =
      ((m.node_heap.filter (fun n => decide (n.used = 1 ∧ n.allocated = 1))).map
        (fun n => n.size)).sum ∧
    m.pool.num_allocs =
      (m.node_heap.filter (fun n => decide (n.used = 1 ∧ n.allocated = 1))).length ∧
    m.pool.num_gaps =
      (m.node_heap.filter (fun n => decide (n.used = 1 ∧ n.allocated = 0))).length := by
  obtain ⟨l, hR, _⟩ := reach_inv _ m hr
  have hS := hR.shape
  refine ⟨?_, ?_, ?_⟩
  · rw [filter_used_and m.node_heap (fun n => n.allocated = 1),
      used_sum m l hS (fun n => decide (n.allocated = 1)) (fun n => n.size),
      ← alloc_sum_nodes]
    exact hS.bal_size
  · rw [filter_used_and m.node_heap (fun n => n.allocated = 1),
      used_count m l hS (fun n => decide (n.allocated = 1)), ← alloc_count_nodes]
    exact hS.bal_num
  · rw [filter_used_and m.node_heap (fun n => n.allocated = 0),
      used_count m l hS (fun n => decide (n.allocated = 0))]
    exact gap_count m l hR

/-- C10, at the example pool `bf8` (two allocations, 500 bytes, and two gaps). -/
theorem balance_invariant_witness :
    bf8.pool.alloc_size = 500 ∧ bf8.pool.num_allocs = 2 ∧ bf8.pool.num_gaps = 2 ∧
    bf8.pool.alloc_size =
      ((bf8.node_heap.filter (fun n => decide (n.used = 1 ∧ n.allocated = 1))).map
        (fun n => n.size)).sum ∧
    bf8.pool.num_allocs =
      (bf8.node_heap.filter (fun n => decide (n.used = 1 ∧ n.allocated = 1))).length ∧
    bf8.pool.num_gaps =
      (bf8.node_heap.filter (fun n => decide (n.used = 1 ∧ n.allocated = 0))).length :=
  ⟨by decide, by decide, by decide, balance_invariant alloc_policy.BEST_FIT bf8 bf8_reach⟩

/-- The base of every segment of the list is not `NULL`. -/
theorem Shape.mem_ne_zero {m : pool_mgr_t} {l : List Nat} (hS : Shape m l) (i : Nat)
    (hi : i ∈ l) : (node_at m.node_heap i).mem ≠ 0 := by
  have h1 := (tiles_mem _ _ _ hS.tiles (seg_of m.node_heap i) (List.mem_map_of_mem _ hi)).1
  have h2 := hS.mem_pos
  simp only [seg_of] at h1
  omega

/-- C11: on a reachable pool a request of `s > 0` bytes returns, and the address
returned is `NULL` exactly when no free segment has size `>= s` or the slot
array is full (`used_nodes >= total_nodes`). -/
theorem alloc_null_iff (policy : alloc_policy) (m : pool_mgr_t) (s : Nat)
    (hr : Reachable policy m) (hs : 0 < s) :
    ∃ m' p, mem_new_alloc m s = some (m', p) ∧
      (p = 0 ↔ (¬ ∃ i, is_gap m i ∧ s ≤ (node_at m.node_heap i).size) ∨
        m.used_nodes ≥ m.total_nodes) := by
  obtain ⟨l, hR, _⟩ := reach_inv _ m hr
  obtain ⟨m', p, ha, _⟩ := alloc_total policy m s hr hs
  refine ⟨m', p, ha, ?_, ?_⟩
  · intro hp
    by_contra hc
    rw [not_or, not_not] at hc
    obtain ⟨hex, hsl⟩ := hc
    obtain ⟨g, pre, post, m2, ns, hl, _, _, _, hcall, _⟩ :=
      alloc_full m l s hR hs (by omega) hex
    rw [hcall] at ha
    simp only [Option.some.injEq, Prod.mk.injEq] at ha
    exact hR.shape.mem_ne_zero g (by rw [hl]; simp) (by rw [ha.2]; exact hp)
  · intro h
    by_contra hp
    obtain ⟨h1, h2⟩ := alloc_success m l s m' p hR hs ha hp
    rcases h with h | h
    · exact h h2
    · omega

/-- C11, at the example pool `ff3` (one gap of 700 bytes) and a request of 800
bytes. -/
theorem alloc_null_iff_witness :
    (mem_new_alloc ff3 800).map (fun r => r.2) = some 0 ∧
    ∃ m' p, mem_new_alloc ff3 800 = some (m', p) ∧
      (p = 0 ↔ (¬ ∃ i, is_gap ff3 i ∧ 800 ≤ (node_at ff3.node_heap i).size) ∨
        ff3.used_nodes ≥ ff3.total_nodes) :=
  ⟨by decide, alloc_null_iff alloc_policy.FIRST_FIT ff3 800 ff3_reach (by decide)⟩

/-- C12: every non-null address `p` returned by a request of `s > 0` bytes on a
reachable pool satisfies `pool.mem <= p <= pool.mem + total_size - s` (and
`s <= total_size`, so the subtraction is exact). -/
theorem alloc_address_in_range (policy : alloc_policy) (m m' : pool_mgr_t) (s p : Nat)
    (hr : Reachable policy m) (hs : 0 < s)
    (ha : mem_new_alloc m s = some (m', p)) (hp : p ≠ 0) :
    m.pool.mem ≤ p ∧ p ≤ m.pool.mem + m.pool.total_size - s ∧ s ≤ m.pool.total_size := by
  obtain ⟨l, hR, _⟩ := reach_inv _ m hr
  obtain ⟨hsl, hex⟩ := alloc_success m l s m' p hR hs ha hp
  obtain ⟨g, pre, post, m2, ns, hl, _, _, hsz, hcall, _⟩ := alloc_full m l s hR hs hsl hex
  rw [hcall] at ha
  simp only [Option.some.injEq, Prod.mk.injEq] at ha
  have hS := hR.shape
  rw [hl] at hS
  obtain ⟨_, _, h3, h4, _, _⟩ := hS.bases
  rw [← ha.2]
  omega

/-- C12, at the example pool `ff5` and a request of 50 bytes, which returns the
address 1000 of the pool at `[1000, 2000)`. -/
theorem alloc_address_in_range_witness :
    mem_new_alloc ff5 50 = some (after_alloc ff5 50, 1000) ∧
    (ff5.pool.mem ≤ 1000 ∧ 1000 ≤ ff5.pool.mem + ff5.pool.total_size - 50 ∧
      50 ≤ ff5.pool.total_size) :=
  ⟨by decide, alloc_address_in_range alloc_policy.FIRST_FIT ff5 (after_alloc ff5 50) 50 1000
    ff5_reach (by decide) (by decide) (by decide)⟩

/-! ### The pool store -/

theorem store_at_set (arr : List Nat) (i j v : Nat) :
    store_at (arr.set i v) j = if j = i ∧ i < arr.length then v else store_at arr j := by
  unfold store_at
  by_cases hji : j = i
  · subst hji
    by_cases hl : j < arr.length
    · simp [List.getD_eq_getElem?_getD, hl]
    · rw [if_neg (by omega)]
      simp only [List.getD_eq_getElem?_getD]
      rw [List.getElem?_eq_none (by simp; omega), List.getElem?_eq_none (by omega)]
  · have : ¬ i = j := fun e => hji e.symm
    simp [List.getD_eq_getElem?_getD, List.getElem?_set, hji, this]

theorem store_at_ge (arr : List Nat) (j : Nat) (hj : arr.length ≤ j) : store_at arr j = 0 := by
  unfold store_at
  rw [List.getD_eq_getElem?_getD, List.getElem?_eq_none hj]; rfl

theorem store_find_some (arr : List Nat) (p : Nat) : ∀ (k i j : Nat),
    store_find arr p i k = some j →
    i ≤ j ∧ j < i + k ∧ store_at arr j = p ∧ ∀ t, i ≤ t → t < j → store_at arr t ≠ p := by
  intro k
  induction k with
  | zero => intro i j h; simp [store_find] at h
  | succ k ih =>
    intro i j h
    rw [store_find] at h
    by_cases hp : store_at arr i = p
    · rw [if_pos hp] at h
      simp only [Option.some.injEq] at h
      subst h
      exact ⟨le_refl _, by omega, hp, fun t h1 h2 => by omega⟩
    · rw [if_neg hp] at h
      obtain ⟨h1, h2, h3, h4⟩ := ih (i + 1) j h
      refine ⟨by omega, by omega, h3, ?_⟩
      intro t ht1 ht2
      by_cases e : t = i
      · rw [e]; exact hp
      · exact h4 t (by omega) ht2

theorem store_find_none (arr : List Nat) (p : Nat) : ∀ (k i : Nat),
    store_find arr p i k = none → ∀ t, i ≤ t → t < i + k → store_at arr t ≠ p := by
  intro k
  induction k with
  | zero => intro i _ t h1 h2; omega
  | succ k ih =>
    intro i h t h1 h2
    rw [store_find] at h
    by_cases hp : store_at arr i = p
    · rw [if_pos hp] at h; simp at h
    · rw [if_neg hp] at h
      by_cases e : t = i
      · rw [e]; exact hp
      · exact ih (i + 1) h t (by omega) (by omega)

theorem alloc_count_zero (vs : List (Nat × Nat × Nat)) (h : alloc_count vs = 0) :
    ∀ v, v ∈ vs → v.2.2 ≠ 1 := by
  intro v hv hc
  unfold alloc_count at h
  have : v ∈ vs.filter (fun v => v.2.2 = 1) := List.mem_filter.2 ⟨hv, by simpa using hc⟩
  rw [List.length_eq_zero] at h
  rw [h] at this
  simp at this

/-- A pool that satisfies the invariant passes the three checks of
`mem_pool_close` exactly when it has no allocation and one gap. -/
theorem close_checks (m : pool_mgr_t) (l : List Nat) (hR : Rep m l) :
    (m.pool.num_allocs = 0 → m.pool.num_gaps = 1 ∧ m.pool.alloc_size = 0) := by
  intro h0
  have hno : ∀ i, ¬ is_alloc m i := by
    intro i hi
    obtain ⟨hil, hia⟩ := (hR.is_alloc_iff i).1 hi
    have hb := hR.shape.bal_num
    rw [h0] at hb
    exact alloc_count_zero _ hb.symm (seg_of m.node_heap i) (List.mem_map_of_mem _ hil) hia
  obtain ⟨_, _, _, _, _, h6, _, h8, _⟩ := no_alloc_state m l hR hno
  exact ⟨h6, h8⟩

/-- C13: on a reachable pool `mem_pool_close` returns `ALLOC_OK` exactly when
`num_allocs = 0` and `num_gaps = 1`; it then frees the manager and sets the
first entry of the pool store that holds the handle to `NULL`, leaving every
other entry and the two counters of the store as they were, so that a handle
stored once is stored no more.  In every other case it returns
`ALLOC_NOT_FREED` and leaves the pool and the store unchanged. -/
theorem close_gate (policy : alloc_policy) (m : pool_mgr_t) (hr : Reachable policy m)
    (st : store_t) (p : Nat) :
    ((mem_pool_close st p m).2.2 = alloc_status.ALLOC_OK ↔
      (m.pool.num_allocs = 0 ∧ m.pool.num_gaps = 1)) ∧
    (m.pool.num_allocs = 0 ∧ m.pool.num_gaps = 1 →
      (mem_pool_close st p m).2.1 = none ∧
      (mem_pool_close st p m).1.pool_store_size = st.pool_store_size ∧
      (mem_pool_close st p m).1.pool_store_capacity = st.pool_store_capacity ∧
      (st.pool_store = none → (mem_pool_close st p m).1.pool_store = none) ∧
      (∀ arr, st.pool_store = some arr →
        ∃ arr', (mem_pool_close st p m).1.pool_store = some arr' ∧ arr'.length = arr.length ∧
          (∀ j, store_at arr' j =
            if j < st.pool_store_capacity ∧ store_at arr j = p ∧
                ∀ t, t < j → store_at arr t ≠ p then 0
            else store_at arr j) ∧
          (p ≠ 0 → (∀ i j, i < st.pool_store_capacity → j < st.pool_store_capacity →
              store_at arr i = p → store_at arr j = p → i = j) →
            ∀ j, j < st.pool_store_capacity → store_at arr' j ≠ p))) ∧
    (¬ (m.pool.num_allocs = 0 ∧ m.pool.num_gaps = 1) →
      mem_pool_close st p m = (st, some m, alloc_status.ALLOC_NOT_FREED)) := by
  obtain ⟨l, hR, _⟩ := reach_inv _ m hr
  have hck := close_checks m l hR
  have hpass : m.pool.num_allocs = 0 ∧ m.pool.num_gaps = 1 →
      mem_pool_close st p m =
        (match st.pool_store with
          | none => (st, none, alloc_status.ALLOC_OK)
          | some arr =>
            match store_find arr p 0 st.pool_store_capacity with
            | some i => ({ st with pool_store := some (arr.set i 0) }, none,
                alloc_status.ALLOC_OK)
            | none => (st, none, alloc_status.ALLOC_OK)) := by
    intro hc
    have h2 := (hck hc.1).2
    unfold mem_pool_close
    rw [if_neg (by omega), if_neg (by omega), if_neg (by omega)]
  have hfail : ¬ (m.pool.num_allocs = 0 ∧ m.pool.num_gaps = 1) →
      mem_pool_close st p m = (st, some m, alloc_status.ALLOC_NOT_FREED) := by
    intro hc
    have hpos : 0 < m.pool.num_allocs := by
      by_contra h
      have h0 : m.pool.num_allocs = 0 := by omega
      exact hc ⟨h0, (hck h0).1⟩
    unfold mem_pool_close
    by_cases h1 : m.pool.alloc_size > 0
    · rw [if_pos h1]
    · rw [if_neg h1]
      by_cases h2 : m.pool.num_gaps > 1
      · rw [if_pos h2]
      · rw [if_neg h2, if_pos hpos]
  have hst : ∀ hc : m.pool.num_allocs = 0 ∧ m.pool.num_gaps = 1,
      (mem_pool_close st p m).2.2 = alloc_status.ALLOC_OK ∧ (mem_pool_close st p m).2.1 = none := by
    intro hc
    rw [hpass hc]
    cases hs : st.pool_store with
    | none => exact ⟨rfl, rfl⟩
    | some arr =>
      dsimp only
      cases store_find arr p 0 st.pool_store_capacity <;> exact ⟨rfl, rfl⟩
  refine ⟨⟨?_, fun hc => (hst hc).1⟩, ?_, hfail⟩
  · intro hok
    by_contra hc
    rw [hfail hc] at hok
    simp at hok
  · intro hc
    refine ⟨(hst hc).2, ?_, ?_, ?_, ?_⟩
    · rw [hpass hc]
      cases hs : st.pool_store with
      | none => rfl
      | some arr =>
        dsimp only
        cases store_find arr p 0 st.pool_store_capacity <;> rfl
    · rw [hpass hc]
      cases hs : st.pool_store with
      | none => rfl
      | some arr =>
        dsimp only
        cases store_find arr p 0 st.pool_store_capacity <;> rfl
    · intro hs
      rw [hpass hc, hs]
      exact hs
    · intro arr hs
      rw [hpass hc, hs]
      dsimp only
      have key : ∀ arr', (∀ j, store_at arr' j =
            if j < st.pool_store_capacity ∧ store_at arr j = p ∧
                ∀ t, t < j → store_at arr t ≠ p then 0
            else store_at arr j) →
          (p ≠ 0 → (∀ i j, i < st.pool_store_capacity → j < st.pool_store_capacity →
              store_at arr i = p → store_at arr j = p → i = j) →
            ∀ j, j < st.pool_store_capacity → store_at arr' j ≠ p) := by
        intro arr' hat hp0 huniq j hj hjp
        rw [hat j] at hjp
        by_cases hcond : j < st.pool_store_capacity ∧ store_at arr j = p ∧
            ∀ t, t < j → store_at arr t ≠ p
        · rw [if_pos hcond] at hjp
          exact hp0 hjp.symm
        · rw [if_neg hcond] at hjp
          apply hcond
          refine ⟨hj, hjp, ?_⟩
          intro t ht htp
          have := huniq t j (by omega) hj htp hjp
          omega
      cases hf : store_find arr p 0 st.pool_store_capacity with
      | none =>
        have hn := store_find_none arr p _ 0 hf
        have hat : ∀ j, store_at arr j =
            if j < st.pool_store_capacity ∧ store_at arr j = p ∧
                ∀ t, t < j → store_at arr t ≠ p then 0
            else store_at arr j := by
          intro j
          rw [if_neg]
          rintro ⟨h1, h2, _⟩
          exact hn j (Nat.zero_le _) (by omega) h2
        exact ⟨arr, hs, rfl, hat, key arr hat⟩
      | some i =>
        obtain ⟨_, h2, h3, h4⟩ := store_find_some arr p _ 0 i hf
        have hat : ∀ j, store_at (arr.set i 0) j =
            if j < st.pool_store_capacity ∧ store_at arr j = p ∧
                ∀ t, t < j → store_at arr t ≠ p then 0
            else store_at arr j := by
          intro j
          rw [store_at_set]
          by_cases hji : j = i
          · subst hji
            have hc1 : j < st.pool_store_capacity ∧ store_at arr j = p ∧
                ∀ t, t < j → store_at arr t ≠ p :=
              ⟨by omega, h3, fun t ht => h4 t (Nat.zero_le _) ht⟩
            by_cases hl : j < arr.length
            · rw [if_pos (show j = j ∧ j < arr.length from ⟨rfl, hl⟩), if_pos hc1]
            · rw [if_neg (show ¬ (j = j ∧ j < arr.length) from fun hh => hl hh.2), if_pos hc1]
              exact store_at_ge arr j (by omega)
          · rw [if_neg (by omega), if_neg]
            rintro ⟨h5, h6, h7⟩
            rcases Nat.lt_or_gt_of_ne hji with c | c
            · exact h4 j (Nat.zero_le _) c h6
            · exact h7 i c h3
        exact ⟨arr.set i 0, rfl, by simp, hat, key _ hat⟩

/-- C13, at the freshly opened pool `ff0`, registered under the handle 7 in the
store of `world1`. -/
theorem close_gate_witness :
    mem_pool_close world1.store 7 ff0 =
      (⟨some (List.replicate 20 0), 1, 20⟩, none, alloc_status.ALLOC_OK) ∧
    mem_pool_close world1.store 7 ff3 = (world1.store, some ff3, alloc_status.ALLOC_NOT_FREED) ∧
    ((mem_pool_close world1.store 7 ff0).2.2 = alloc_status.ALLOC_OK ↔
      (ff0.pool.num_allocs = 0 ∧ ff0.pool.num_gaps = 1)) :=
  ⟨by decide, by decide, (close_gate alloc_policy.FIRST_FIT ff0 ff0_reach world1.store 7).1⟩

/-! ### `mem_inspect_pool` -/

theorem inspect_loop_chain (h : List node_t) : ∀ (l : List Nat) (p : Option Nat),
    ChainSeg h p l none →
    inspect_loop h l.length (headOr l none) =
      some (l.map (fun i => ⟨(node_at h i).size, (node_at h i).allocated⟩)) := by
  intro l
  induction l with
  | nil => intro p _; rfl
  | cons a r ih =>
    intro p hc
    obtain ⟨_, hn, hr⟩ := hc
    simp only [List.length_cons, headOr, inspect_loop, List.map_cons]
    rw [hn, ih (some a) hr]

theorem tiles_sorted (vs : List (Nat × Nat × Nat)) : ∀ (s e : Nat), Tiles vs s e →
    List.Pairwise (fun a b => a < b) (vs.map (fun v => v.1)) := by
  induction vs with
  | nil => intro s e _; exact List.Pairwise.nil
  | cons v r ih =>
    intro s e ht
    obtain ⟨h1, h2, h3⟩ := ht
    rw [List.map_cons, List.pairwise_cons]
    refine ⟨?_, ih _ _ h3⟩
    intro b hb
    obtain ⟨w, hw, e1⟩ := List.mem_map.1 hb
    have := (tiles_mem r _ _ h3 w hw).1
    omega

/-- C14: on a reachable pool `mem_inspect_pool` returns: it never reads through
a `NULL` node pointer.  It leaves the manager unchanged, reports
`num_segments = used_nodes`, and the array holds, in the order of the segment
list from slot 0, the pair (size, allocated) of each segment.  That list has
`used_nodes` elements, its slots are exactly the used slots, each once, it
starts at the pool base and its base addresses are strictly ascending. -/
theorem inspect_reports_segments (policy : alloc_policy) (m : pool_mgr_t)
    (hr : Reachable policy m) :
    mem_inspect_pool m =
      some (m, (seg_view m).map (fun v => ⟨v.2.1, v.2.2⟩), m.used_nodes) ∧
    (seg_view m).length = m.used_nodes ∧
    (∀ i, i ∈ seg_slots m ↔ i < m.total_nodes ∧ (node_at m.node_heap i).used = 1) ∧
    (seg_slots m).Nodup ∧
    (seg_view m).head?.map (fun v => v.1) = some m.pool.mem ∧
    List.Pairwise (fun a b => a < b) ((seg_view m).map (fun v => v.1)) := by
  obtain ⟨l, hR, _⟩ := reach_inv _ m hr
  have hS := hR.shape
  have hsl := seg_slots_eq m l hR
  have hv : seg_view m = l.map (seg_of m.node_heap) := by unfold seg_view; rw [hsl]
  refine ⟨?_, ?_, ?_, ?_, ?_, ?_⟩
  · unfold mem_inspect_pool
    have hh : headOr l none = some 0 := by
      have := hS.head
      cases l with
      | nil => simp at this
      | cons a r => simpa [headOr] using this
    have := inspect_loop_chain m.node_heap l none hS.chain
    rw [hh, ← hS.used_nodes] at this
    rw [this, hv, List.map_map]
    rfl
  · rw [hv, List.length_map, hS.used_nodes]
  · intro i
    rw [hsl]
    constructor
    · intro hi
      exact ⟨by rw [hS.total]; exact hS.bound i hi, by rw [hS.used, if_pos hi]⟩
    · rintro ⟨_, hu⟩
      by_contra hc
      rw [hS.used, if_neg hc] at hu
      omega
  · rw [hsl]; exact hS.nodup
  · rw [hv]
    have ht := hS.tiles
    have hh := hS.head
    cases l with
    | nil => simp at hh
    | cons a r =>
      simp only [List.map_cons, List.head?_cons, Option.map_some', Option.some.injEq]
      exact ht.1
  · rw [hv]
    exact tiles_sorted _ _ _ hS.tiles

/-- C14, at the example pool `ff5`: a gap of 200 bytes, an allocation of 100
bytes and a gap of 700 bytes. -/
theorem inspect_reports_segments_witness :
    mem_inspect_pool ff5 = some (ff5, [⟨200, 0⟩, ⟨100, 1⟩, ⟨700, 0⟩], 3) ∧
    mem_inspect_pool ff5 =
      some (ff5, (seg_view ff5).map (fun v => ⟨v.2.1, v.2.2⟩), ff5.used_nodes) ∧
    (seg_view ff5).length = ff5.used_nodes ∧
    (∀ i, i ∈ seg_slots ff5 ↔ i < ff5.total_nodes ∧ (node_at ff5.node_heap i).used = 1) ∧
    (seg_slots ff5).Nodup ∧
    (seg_view ff5).head?.map (fun v => v.1) = some ff5.pool.mem ∧
    List.Pairwise (fun a b => a < b) ((seg_view ff5).map (fun v => v.1)) :=
  ⟨by decide, inspect_reports_segments alloc_policy.FIRST_FIT ff5 ff5_reach⟩

/-! ### The gap index -/

/-- C16 (the code at a failing input): the best-fit pool `bf8` is reachable and
its gap index holds two entries of size 250; the first one points to slot 1,
whose segment starts at 1750, the second one to slot 2, whose segment starts at
1200: the pair is ordered by node pointer, against the base addresses. -/
theorem gap_index_tie_not_by_address :
    Reachable alloc_policy.BEST_FIT bf8 ∧ bf8.pool.num_gaps = 2 ∧
    gap_at bf8.gap_ix 0 = ⟨250, some 1⟩ ∧ gap_at bf8.gap_ix 1 = ⟨250, some 2⟩ ∧
    (node_at bf8.node_heap 1).mem = 1750 ∧ (node_at bf8.node_heap 2).mem = 1200 ∧
    ¬ ((gap_at bf8.gap_ix 0).size < (gap_at bf8.gap_ix 1).size ∨
      ((gap_at bf8.gap_ix 0).size = (gap_at bf8.gap_ix 1).size ∧
        (node_at bf8.node_heap 1).mem < (node_at bf8.node_heap 2).mem)) :=
  ⟨bf8_reach, by decide, by decide, by decide, by decide, by decide, by decide⟩

/-- C17: in a reachable pool each of the first `num_gaps` entries of the gap
index points to a used free slot and caches its current size; two different
entries point to different slots; every used free slot has exactly one entry;
and no entry points to an allocated or an unused slot. -/
theorem gap_index_complete (policy : alloc_policy) (m : pool_mgr_t)
    (hr : Reachable policy m) :
    (∀ j, j < m.pool.num_gaps → ∃ i, (gap_at m.gap_ix j).node = some i ∧ is_gap m i ∧
      (gap_at m.gap_ix j).size = (node_at m.node_heap i).size) ∧
    (∀ j k, j < m.pool.num_gaps → k < m.pool.num_gaps →
      (gap_at m.gap_ix j).node = (gap_at m.gap_ix k).node → j = k) ∧
    (∀ i, is_gap m i → ∃ j, j < m.pool.num_gaps ∧ (gap_at m.gap_ix j).node = some i ∧
      ∀ k, k < m.pool.num_gaps → (gap_at m.gap_ix k).node = some i → k = j) ∧
    (∀ j i, j < m.pool.num_gaps → (gap_at m.gap_ix j).node = some i →
      (node_at m.node_heap i).used = 1 ∧ (node_at m.node_heap i).allocated ≠ 1) ∧
    m.pool.num_gaps ≤ m.gap_ix.length := by
  obtain ⟨l, hR, _⟩ := reach_inv _ m hr
  obtain ⟨hlen, hfwd, hbwd, hsorted⟩ := hR.gaps
  have hentry : ∀ j, j < m.pool.num_gaps → ∃ i, (gap_at m.gap_ix j).node = some i ∧
      is_gap m i ∧ (gap_at m.gap_ix j).size = (node_at m.node_heap i).size := by
    intro j hj
    obtain ⟨i, hi, e⟩ := hfwd j hj
    exact ⟨i, by rw [e], (hR.is_gap_iff i).2 hi, by rw [e]⟩
  have hinj : ∀ j k, j < m.pool.num_gaps → k < m.pool.num_gaps →
      (gap_at m.gap_ix j).node = (gap_at m.gap_ix k).node → j = k := by
    intro j k hj hk he
    obtain ⟨i1, h1, _, s1⟩ := hentry j hj
    obtain ⟨i2, h2, _, s2⟩ := hentry k hk
    have hii : i1 = i2 := by
      rw [h1, h2] at he
      simpa using he
    subst hii
    have heq : gap_at m.gap_ix j = gap_at m.gap_ix k := by
      cases hgj : gap_at m.gap_ix j
      cases hgk : gap_at m.gap_ix k
      rw [hgj] at h1 s1
      rw [hgk] at h2 s2
      simp only at h1 s1 h2 s2
      rw [h1, h2, s1, s2]
    by_contra hne
    rcases Nat.lt_or_gt_of_ne hne with c | c
    · have := hsorted j k c hk
      rw [heq] at this
      exact gap_lt_irrefl _ this
    · have := hsorted k j c hj
      rw [heq] at this
      exact gap_lt_irrefl _ this
  refine ⟨hentry, hinj, ?_, ?_, hlen⟩
  · intro i hi
    obtain ⟨j, hj, e⟩ := hbwd i ((hR.is_gap_iff i).1 hi)
    refine ⟨j, hj, by rw [e], ?_⟩
    intro k hk hke
    exact hinj k j hk hj (by rw [hke, e])
  · intro j i hj hji
    obtain ⟨i2, h2, hg, _⟩ := hentry j hj
    rw [hji] at h2
    simp only [Option.some.injEq] at h2
    subst h2
    exact ⟨hg.2.1, by rw [hg.2.2]; decide⟩

/-- C17, at the example pool `bf8` with its two gaps. -/
theorem gap_index_complete_witness :
    bf8.pool.num_gaps = 2 ∧
    (∀ j, j < bf8.pool.num_gaps → ∃ i, (gap_at bf8.gap_ix j).node = some i ∧ is_gap bf8 i ∧
      (gap_at bf8.gap_ix j).size = (node_at bf8.node_heap i).size) ∧
    (∀ j k, j < bf8.pool.num_gaps → k < bf8.pool.num_gaps →
      (gap_at bf8.gap_ix j).node = (gap_at bf8.gap_ix k).node → j = k) ∧
    (∀ i, is_gap bf8 i → ∃ j, j < bf8.pool.num_gaps ∧ (gap_at bf8.gap_ix j).node = some i ∧
      ∀ k, k < bf8.pool.num_gaps → (gap_at bf8.gap_ix k).node = some i → k = j) ∧
    (∀ j i, j < bf8.pool.num_gaps → (gap_at bf8.gap_ix j).node = some i →
      (node_at bf8.node_heap i).used = 1 ∧ (node_at bf8.node_heap i).allocated ≠ 1) ∧
    bf8.pool.num_gaps ≤ bf8.gap_ix.length :=
  ⟨by decide, gap_index_complete alloc_policy.BEST_FIT bf8 bf8_reach⟩

theorem gap_find_first (gx : List gap_t) (node : Option Nat) : ∀ (k i p : Nat),
    gap_find gx node i k = some p →
    i ≤ p ∧ p < i + k ∧ (gap_at gx p).node = node ∧
      ∀ t, i ≤ t → t < p → (gap_at gx t).node ≠ node := by
  intro k
  induction k with
  | zero => intro i p h; simp [gap_find] at h
  | succ k ih =>
    intro i p h
    rw [gap_find] at h
    by_cases hp : (gap_at gx i).node = node
    · rw [if_pos hp] at h
      simp only [Option.some.injEq] at h
      subst h
      exact ⟨le_refl _, by omega, hp, fun t h1 h2 => by omega⟩
    · rw [if_neg hp] at h
      obtain ⟨h1, h2, h3, h4⟩ := ih (i + 1) p h
      refine ⟨by omega, by omega, h3, ?_⟩
      intro t ht1 ht2
      by_cases e : t = i
      · rw [e]; exact hp
      · exact h4 t (by omega) ht2

theorem getElem?_gap_at (l : List gap_t) (j : Nat) (h : j < l.length) :
    l[j]? = some (gap_at l j) := by
  simp [gap_at, List.getD_eq_getElem?_getD, h]

/-- C18: let the gap index hold `n = num_gaps` entries (`n` within the array
and within `unsigned`).  If one of them points to `node`, then
`_mem_remove_from_gap_ix` returns `ALLOC_OK`; with `pos` the first such entry,
the first `n - 1` entries afterwards are the first `n` entries before with the
one at `pos` deleted, in the same order; `num_gaps` is `n - 1`; the entry at
`n - 1` is zeroed; the entries from `n` on and everything else in the manager
are unchanged.  If no entry points to `node`, it returns `ALLOC_FAIL` and
changes nothing. -/
theorem remove_from_gap_ix_spec (mgr : pool_mgr_t) (sz : Nat) (node : Option Nat)
    (hn : mgr.pool.num_gaps ≤ mgr.gap_ix.length) (h32 : mgr.pool.num_gaps < 4294967296) :
    ((∃ j, j < mgr.pool.num_gaps ∧ (gap_at mgr.gap_ix j).node = node) →
      ∃ pos gx, pos < mgr.pool.num_gaps ∧ (gap_at mgr.gap_ix pos).node = node ∧
        (∀ j, j < pos → (gap_at mgr.gap_ix j).node ≠ node) ∧
        _mem_remove_from_gap_ix mgr sz node =
          ({ mgr with gap_ix := gx, pool := { mgr.pool with num_gaps := mgr.pool.num_gaps - 1 } },
            alloc_status.ALLOC_OK) ∧
        gx.length = mgr.gap_ix.length ∧
        gx.take (mgr.pool.num_gaps - 1) = (mgr.gap_ix.take mgr.pool.num_gaps).eraseIdx pos ∧
        gap_at gx (mgr.pool.num_gaps - 1) = gap_zero ∧
        gx.drop mgr.pool.num_gaps = mgr.gap_ix.drop mgr.pool.num_gaps) ∧
    ((∀ j, j < mgr.pool.num_gaps → (gap_at mgr.gap_ix j).node ≠ node) →
      _mem_remove_from_gap_ix mgr sz node = (mgr, alloc_status.ALLOC_FAIL)) := by
  constructor
  · rintro ⟨j, hj, hjn⟩
    obtain ⟨pos, hfind, _, _, _⟩ := gap_find_some mgr.gap_ix node mgr.pool.num_gaps 0
      ⟨j, Nat.zero_le _, by omega, hjn⟩
    obtain ⟨_, hpos, hnode, hfirst⟩ := gap_find_first mgr.gap_ix node _ 0 pos hfind
    have heq := remove_eq mgr sz node pos hfind (by omega) h32
    have hlen : ((gap_shift mgr.gap_ix pos (mgr.pool.num_gaps - 1 - pos)).set
        (mgr.pool.num_gaps - 1) gap_zero).length = mgr.gap_ix.length := by
      rw [List.length_set, gap_shift_length]
    have hat : ∀ k, gap_at ((gap_shift mgr.gap_ix pos (mgr.pool.num_gaps - 1 - pos)).set
        (mgr.pool.num_gaps - 1) gap_zero) k =
        if k = mgr.pool.num_gaps - 1 then gap_zero
        else if pos ≤ k ∧ k < mgr.pool.num_gaps - 1 then gap_at mgr.gap_ix (k + 1)
        else gap_at mgr.gap_ix k := by
      intro k
      rw [gap_at_set, gap_shift_length, gap_shift_at]
      by_cases hk : k = mgr.pool.num_gaps - 1
      · rw [if_pos (show k = mgr.pool.num_gaps - 1 ∧ mgr.pool.num_gaps - 1 < mgr.gap_ix.length
          from ⟨hk, by omega⟩), if_pos hk]
      · rw [if_neg (show ¬ (k = mgr.pool.num_gaps - 1 ∧
          mgr.pool.num_gaps - 1 < mgr.gap_ix.length) from fun hh => hk hh.1), if_neg hk]
        by_cases hc : pos ≤ k ∧ k < mgr.pool.num_gaps - 1
        · rw [if_pos (show pos ≤ k ∧ k < pos + (mgr.pool.num_gaps - 1 - pos) from
            ⟨hc.1, by omega⟩), if_pos hc]
        · rw [if_neg (show ¬ (pos ≤ k ∧ k < pos + (mgr.pool.num_gaps - 1 - pos)) from
            fun hh => hc ⟨hh.1, by omega⟩), if_neg hc]
    refine ⟨pos, _, by omega, hnode, fun t ht => hfirst t (Nat.zero_le _) ht, heq, hlen, ?_, ?_, ?_⟩
    · apply List.ext_getElem?
      intro k
      rw [List.getElem?_take, List.getElem?_eraseIdx]
      by_cases hk : k < mgr.pool.num_gaps - 1
      · rw [if_pos hk, getElem?_gap_at _ k (by rw [hlen]; omega), hat k,
          if_neg (by omega)]
        by_cases hkp : k < pos
        · rw [if_pos hkp, if_neg (by omega), List.getElem?_take, if_pos (by omega),
            getElem?_gap_at _ k (by omega)]
        · rw [if_neg hkp, if_pos ⟨by omega, hk⟩, List.getElem?_take, if_pos (by omega),
            getElem?_gap_at _ (k + 1) (by omega)]
      · rw [if_neg hk]
        by_cases hkp : k < pos
        · omega
        · rw [if_neg hkp, List.getElem?_take, if_neg (by omega)]
    · rw [hat, if_pos rfl]
    · apply List.ext_getElem?
      intro k
      rw [List.getElem?_drop, List.getElem?_drop]
      by_cases hk : mgr.pool.num_gaps + k < mgr.gap_ix.length
      · rw [getElem?_gap_at _ _ (by rw [hlen]; exact hk), getElem?_gap_at _ _ hk, hat,
          if_neg (by omega), if_neg (by omega)]
      · rw [List.getElem?_eq_none (by rw [hlen]; omega), List.getElem?_eq_none (by omega)]
  · intro hno
    have := gap_find_none mgr.gap_ix node mgr.pool.num_gaps 0
      (fun j _ hj => hno j (by omega))
    unfold _mem_remove_from_gap_ix
    rw [this]

/-- C18, at the gap index of the example pool `bf8` (entries for the slots 1
and 2) and the slot 1. -/
theorem remove_from_gap_ix_spec_witness :
    (_mem_remove_from_gap_ix bf8 250 (some 1)).2 = alloc_status.ALLOC_OK ∧
    (_mem_remove_from_gap_ix bf8 250 (some 1)).1.pool.num_gaps = 1 ∧
    gap_at (_mem_remove_from_gap_ix bf8 250 (some 1)).1.gap_ix 0 = ⟨250, some 2⟩ ∧
    gap_at (_mem_remove_from_gap_ix bf8 250 (some 1)).1.gap_ix 1 = gap_zero ∧
    _mem_remove_from_gap_ix bf8 250 (some 5) = (bf8, alloc_status.ALLOC_FAIL) ∧
    (((∃ j, j < bf8.pool.num_gaps ∧ (gap_at bf8.gap_ix j).node = some 1) →
      ∃ pos gx, pos < bf8.pool.num_gaps ∧ (gap_at bf8.gap_ix pos).node = some 1 ∧
        (∀ j, j < pos → (gap_at bf8.gap_ix j).node ≠ some 1) ∧
        _mem_remove_from_gap_ix bf8 250 (some 1) =
          ({ bf8 with gap_ix := gx, pool := { bf8.pool with num_gaps := bf8.pool.num_gaps - 1 } },
            alloc_status.ALLOC_OK) ∧
        gx.length = bf8.gap_ix.length ∧
        gx.take (bf8.pool.num_gaps - 1) = (bf8.gap_ix.take bf8.pool.num_gaps).eraseIdx pos ∧
        gap_at gx (bf8.pool.num_gaps - 1) = gap_zero ∧
        gx.drop bf8.pool.num_gaps = bf8.gap_ix.drop bf8.pool.num_gaps) ∧
    ((∀ j, j < bf8.pool.num_gaps → (gap_at bf8.gap_ix j).node ≠ some 1) →
      _mem_remove_from_gap_ix bf8 250 (some 1) = (bf8, alloc_status.ALLOC_FAIL))) :=
  ⟨by decide, by decide, by decide, by decide, by decide,
    remove_from_gap_ix_spec bf8 250 (some 1) (by decide) (by decide)⟩

/-- C19: on a reachable pool a request of `s > 0` bytes returns, and when it
returns `NULL` the manager is exactly what it was before the call and the
`NULL` comes from one of the two exits taken before anything is written (the
slot array is full, or no gap is large enough).  The exit after the search for
an unused slot is never taken: `used_nodes` is the number of slots with
`used = 1`, and with `used_nodes < total_nodes` the search, made on the heap in
which the selected gap is already marked allocated, finds an unused slot. -/
theorem alloc_failure_atomic (policy : alloc_policy) (m : pool_mgr_t) (s : Nat)
    (hr : Reachable policy m) (hs : 0 < s) :
    (∃ m' p, mem_new_alloc m s = some (m', p) ∧
      (p = 0 → m' = m ∧ (m.used_nodes ≥ m.total_nodes ∨ select_gap m s = some none))) ∧
    m.used_nodes = (m.node_heap.filter (fun n => decide (n.used = 1))).length ∧
    (∀ g, m.used_nodes < m.total_nodes → select_gap m s = some (some g) →
      ∃ n, find_unused
          (wr m.node_heap g (fun nd => { nd with allocated := 1, size := s })) 0
          m.total_nodes = some n ∧
        n < m.total_nodes ∧ (node_at m.node_heap n).used = 0) := by
  obtain ⟨l, hR, _⟩ := reach_inv _ m hr
  have hS := hR.shape
  refine ⟨?_, ?_, ?_⟩
  · rcases alloc_spec m l s hR hs with ⟨h1, h2⟩ | ⟨g, pre, post, hsl, _, hl, hfree, hsz, _⟩
    · exact ⟨m, 0, h1, fun _ => ⟨rfl, h2⟩⟩
    · obtain ⟨g2, pre2, post2, m2, ns, hl2, _, _, _, hcall, _⟩ := alloc_full m l s hR hs hsl
        ⟨g, (hR.is_gap_iff g).2 ⟨by rw [hl]; simp, hfree⟩, hsz⟩
      refine ⟨m2, _, hcall, ?_⟩
      intro hp
      exact absurd hp (hS.mem_ne_zero g2 (by rw [hl2]; simp))
  · have h1 := used_count m l hS (fun _ => true)
    simp only [List.filter_true, List.length_map] at h1
    rw [h1, hS.used_nodes]
  · intro g hsl hsel
    obtain ⟨r, hsel2, _, hsome⟩ := select_spec m l s hR
    rw [hsel] at hsel2
    simp only [Option.some.injEq] at hsel2
    obtain ⟨hgl, _⟩ := hsome g hsel2.symm
    have hg40 := hS.bound g hgl
    have hat : ∀ j, j ≠ g →
        node_at (wr m.node_heap g (fun nd => { nd with allocated := 1, size := s })) j =
          node_at m.node_heap j := by
      intro j hj
      rw [node_at_wr, if_neg (fun hh => hj hh.1)]
    have hll : l.length < 40 := by
      have := hS.used_nodes; have := hS.total; omega
    obtain ⟨j0, hj0, hj0l⟩ := exists_unused_slot _ hll
    have hj0g : j0 ≠ g := fun e => hj0l (e ▸ hgl)
    obtain ⟨n, hfind, _, hn40, hnused, _⟩ := find_unused_some
      (wr m.node_heap g (fun nd => { nd with allocated := 1, size := s })) m.total_nodes 0
      ⟨j0, Nat.zero_le _, by rw [hS.total]; omega, by
        rw [hat j0 hj0g, hS.used, if_neg hj0l]⟩
    refine ⟨n, hfind, by omega, ?_⟩
    by_cases hng : n = g
    · exfalso
      rw [hng, node_at_wr, if_pos ⟨rfl, by rw [hS.heap_len]; exact hg40⟩] at hnused
      have := hS.used g
      rw [if_pos hgl] at this
      simp only at hnused
      omega
    · rw [hat n hng] at hnused
      exact hnused

/-- C19, at the example pool `ff3` (one gap of 700 bytes) and a request of 800
bytes. -/
theorem alloc_failure_atomic_witness :
    mem_new_alloc ff3 800 = some (ff3, 0) ∧
    ((∃ m' p, mem_new_alloc ff3 800 = some (m', p) ∧
      (p = 0 → m' = ff3 ∧ (ff3.used_nodes ≥ ff3.total_nodes ∨
        select_gap ff3 800 = some none))) ∧
    ff3.used_nodes = (ff3.node_heap.filter (fun n => decide (n.used = 1))).length ∧
    (∀ g, ff3.used_nodes < ff3.total_nodes → select_gap ff3 800 = some (some g) →
      ∃ n, find_unused
          (wr ff3.node_heap g (fun nd => { nd with allocated := 1, size := 800 })) 0
          ff3.total_nodes = some n ∧
        n < ff3.total_nodes ∧ (node_at ff3.node_heap n).used = 0)) :=
  ⟨by decide, alloc_failure_atomic alloc_policy.FIRST_FIT ff3 800 ff3_reach (by decide)⟩

/-! ### The library state -/

theorem pool_get_mem : ∀ (l : List (Nat × pool_mgr_t)) (p : Nat) (m : pool_mgr_t),
    pool_get l p = some m → p ∈ l.map (fun e => e.1) := by
  intro l
  induction l with
  | nil => intro p m h; simp [pool_get] at h
  | cons e r ih =>
    intro p m h
    rw [pool_get] at h
    by_cases he : e.1 = p
    · simp [he]
    · rw [if_neg he] at h
      exact List.mem_cons_of_mem _ (ih p m h)

theorem pool_set_keys : ∀ (l : List (Nat × pool_mgr_t)) (p : Nat) (m : pool_mgr_t),
    (pool_set l p m).map (fun e => e.1) = l.map (fun e => e.1) := by
  intro l
  induction l with
  | nil => intro p m; rfl
  | cons e r ih =>
    intro p m
    rw [pool_set]
    by_cases he : e.1 = p
    · rw [if_pos he]; simp [he]
    · rw [if_neg he, List.map_cons, ih, List.map_cons]

theorem pool_del_keys : ∀ (l : List (Nat × pool_mgr_t)) (p : Nat),
    (pool_del l p).map (fun e => e.1) = (l.map (fun e => e.1)).erase p := by
  intro l
  induction l with
  | nil => intro p; rfl
  | cons e r ih =>
    intro p
    rw [pool_del]
    by_cases he : e.1 = p
    · rw [if_pos he, List.map_cons, he, List.erase_cons_head]
    · rw [if_neg he, List.map_cons, ih, List.map_cons, List.erase_cons_tail]
      simpa using he

theorem store_live_iff (arr : List Nat) : ∀ (k i : Nat),
    store_live arr i k = true ↔ ∃ j, i ≤ j ∧ j < i + k ∧ store_at arr j ≠ 0 := by
  intro k
  induction k with
  | zero =>
    intro i
    simp only [store_live, Bool.false_eq_true, false_iff]
    rintro ⟨j, h1, h2, _⟩
    omega
  | succ k ih =>
    intro i
    rw [store_live]
    by_cases h0 : store_at arr i ≠ 0
    · rw [if_pos h0]
      simp only [true_iff]
      exact ⟨i, le_refl _, by omega, h0⟩
    · rw [if_neg h0, ih]
      constructor
      · rintro ⟨j, h1, h2, h3⟩
        exact ⟨j, by omega, by omega, h3⟩
      · rintro ⟨j, h1, h2, h3⟩
        by_cases e : j = i
        · rw [e] at h3; exact absurd h3 h0
        · exact ⟨j, by omega, by omega, h3⟩

theorem store_at_replicate (n i : Nat) : store_at (List.replicate n 0) i = 0 := by
  unfold store_at
  rw [List.getD_eq_getElem?_getD]
  by_cases h : i < n
  · simp [List.getElem?_replicate, h]
  · simp [List.getElem?_replicate, h]

theorem winv_start : WInv world0 := by
  refine ⟨List.nodup_nil, ?_, ?_, ?_⟩
  · intro p hp; simp [world0] at hp
  · intro _; exact ⟨rfl, rfl, rfl⟩
  · intro arr h; simp [world0, store_null] at h

theorem winv_init (w : world) (ok : Bool) (hw : WInv w) :
    WInv { w with store := (mem_init w.store ok).1 } := by
  unfold mem_init
  cases hs : w.store.pool_store with
  | some arr =>
    dsimp only
    exact hw
  | none =>
    dsimp only
    obtain ⟨hp, _, _⟩ := hw.closed hs
    cases ok with
    | false =>
      simp only [Bool.false_eq_true, if_false]
      exact hw
    | true =>
      simp only [if_true]
      refine ⟨hw.keys_nodup, hw.keys_pos, ?_, ?_⟩
      · intro h; simp at h
      · intro arr h
        simp only [Option.some.injEq] at h
        subst h
        refine ⟨by simp [MEM_POOL_STORE_INIT_CAPACITY], rfl, Nat.zero_le _, ?_, ?_, ?_⟩
        · intro i _; exact store_at_replicate _ _
        · intro p hp0
          rw [hp]
          constructor
          · rintro ⟨i, _, hi⟩
            rw [store_at_replicate] at hi
            exact absurd hi.symm hp0
          · intro h; simp at h
        · intro i j _ _ _ h
          rw [store_at_replicate] at h
          exact absurd rfl h

theorem winv_free (w : world) (hw : WInv w) :
    WInv { w with store := (mem_free w.store).1 } := by
  unfold mem_free
  cases hs : w.store.pool_store with
  | none =>
    dsimp only
    exact hw
  | some arr =>
    dsimp only
    obtain ⟨hlen, hcap, _, _, hmem, _⟩ := hw.opened arr hs
    by_cases hl : store_live arr 0 w.store.pool_store_capacity = true
    · rw [if_pos hl]
      exact hw
    · rw [if_neg hl]
      have hempty : w.pools = [] := by
        cases hp : w.pools with
        | nil => rfl
        | cons e r =>
          exfalso
          apply hl
          have hk : e.1 ∈ w.pools.map (fun e => e.1) := by rw [hp]; simp
          have hk0 := hw.keys_pos _ hk
          obtain ⟨i, hi, hie⟩ := (hmem e.1 hk0).2 hk
          rw [store_live_iff]
          exact ⟨i, Nat.zero_le _, by omega, by rw [hie]; exact hk0⟩
      refine ⟨hw.keys_nodup, hw.keys_pos, ?_, ?_⟩
      · intro _; exact ⟨hempty, rfl, rfl⟩
      · intro arr2 h; simp at h

theorem open_reg_cases (st st' : store_t) (new_mgr new_mem size p : Nat)
    (policy : alloc_policy) (r : Option pool_mgr_t)
    (h : mem_pool_open_reg st new_mgr new_mem size policy = some (st', p, r)) :
    (r = none ∧ st' = st ∧ p = 0) ∨
    (∃ arr mgr, r = some mgr ∧ st.pool_store = some arr ∧ new_mgr ≠ 0 ∧ p = new_mgr ∧
      mem_pool_open new_mem size policy = some mgr ∧
      st.pool_store_size < arr.length ∧
      st' = ⟨some (arr.set st.pool_store_size new_mgr), u32 (st.pool_store_size + 1),
        st.pool_store_capacity⟩) := by
  unfold mem_pool_open_reg at h
  cases hs : st.pool_store with
  | none =>
    rw [hs] at h
    simp only [Option.some.injEq, Prod.mk.injEq] at h
    exact Or.inl ⟨h.2.2.symm, h.1.symm, h.2.1.symm⟩
  | some arr =>
    rw [hs] at h
    dsimp only at h
    by_cases h0 : new_mgr = 0
    · rw [if_pos h0] at h
      simp only [Option.some.injEq, Prod.mk.injEq] at h
      exact Or.inl ⟨h.2.2.symm, h.1.symm, h.2.1.symm⟩
    · rw [if_neg h0] at h
      cases ho : mem_pool_open new_mem size policy with
      | none =>
        rw [ho] at h
        simp only [Option.some.injEq, Prod.mk.injEq] at h
        exact Or.inl ⟨h.2.2.symm, h.1.symm, h.2.1.symm⟩
      | some mgr =>
        rw [ho] at h
        dsimp only at h
        by_cases hi : st.pool_store_size < arr.length
        · rw [if_pos hi] at h
          simp only [Option.some.injEq, Prod.mk.injEq] at h
          exact Or.inr ⟨arr, mgr, h.2.2.symm, rfl, h0, h.2.1.symm, rfl, hi, h.1.symm⟩
        · rw [if_neg hi] at h
          simp at h

theorem winv_open (w : world) (arr : List Nat) (new_mgr : Nat) (mgr : pool_mgr_t)
    (hw : WInv w) (hs : w.store.pool_store = some arr) (h0 : new_mgr ≠ 0)
    (hfresh : new_mgr ∉ w.pools.map (fun e => e.1))
    (hi : w.store.pool_store_size < arr.length) :
    WInv ⟨⟨some (arr.set w.store.pool_store_size new_mgr), u32 (w.store.pool_store_size + 1),
      w.store.pool_store_capacity⟩, (new_mgr, mgr) :: w.pools⟩ := by
  obtain ⟨hlen, hcap, hsz, hzero, hmem, hdist⟩ := hw.opened arr hs
  have hidx0 : store_at arr w.store.pool_store_size = 0 := hzero _ (le_refl _)
  refine ⟨?_, ?_, ?_, ?_⟩
  · simp only [List.map_cons]
    exact List.nodup_cons.2 ⟨hfresh, hw.keys_nodup⟩
  · intro p hp
    simp only [List.map_cons, List.mem_cons] at hp
    rcases hp with hp | hp
    · rw [hp]; exact h0
    · exact hw.keys_pos p hp
  · intro h; simp at h
  · intro arr2 h
    simp only [Option.some.injEq] at h
    subst h
    have hat : ∀ j, store_at (arr.set w.store.pool_store_size new_mgr) j =
        if j = w.store.pool_store_size then new_mgr else store_at arr j := by
      intro j
      rw [store_at_set]
      by_cases hj : j = w.store.pool_store_size
      · rw [if_pos ⟨hj, hi⟩, if_pos hj]
      · rw [if_neg (fun hh => hj hh.1), if_neg hj]
    refine ⟨by simp [hlen], hcap, ?_, ?_, ?_, ?_⟩
    · show u32 (w.store.pool_store_size + 1) ≤ 20
      rw [u32_of_lt _ (by omega)]
      omega
    · intro i hge
      have hge2 : u32 (w.store.pool_store_size + 1) ≤ i := hge
      rw [u32_of_lt _ (by omega)] at hge2
      rw [hat, if_neg (by omega)]
      exact hzero i (by omega)
    · intro p hp0
      simp only [List.map_cons, List.mem_cons]
      constructor
      · rintro ⟨i, hi20, hip⟩
        rw [hat] at hip
        by_cases hj : i = w.store.pool_store_size
        · rw [if_pos hj] at hip
          exact Or.inl hip.symm
        · rw [if_neg hj] at hip
          exact Or.inr ((hmem p hp0).1 ⟨i, hi20, hip⟩)
      · rintro (hp | hp)
        · exact ⟨w.store.pool_store_size, by omega, by rw [hat, if_pos rfl, hp]⟩
        · obtain ⟨i, hi20, hip⟩ := (hmem p hp0).2 hp
          refine ⟨i, hi20, ?_⟩
          rw [hat, if_neg]
          · exact hip
          · intro e
            rw [e, hidx0] at hip
            exact hp0 hip.symm
    · intro i j hi20 hj20 heq hne
      rw [hat, hat] at heq
      rw [hat] at hne
      by_cases ci : i = w.store.pool_store_size
      · by_cases cj : j = w.store.pool_store_size
        · omega
        · exfalso
          rw [if_pos ci, if_neg cj] at heq
          exact hfresh ((hmem new_mgr h0).1 ⟨j, hj20, heq.symm⟩)
      · by_cases cj : j = w.store.pool_store_size
        · exfalso
          rw [if_neg ci, if_pos cj] at heq
          exact hfresh ((hmem new_mgr h0).1 ⟨i, hi20, heq⟩)
        · rw [if_neg ci, if_neg cj] at heq
          rw [if_neg ci] at hne
          exact hdist i j hi20 hj20 heq hne

theorem close_cases (st st' : store_t) (p : Nat) (mgr : pool_mgr_t) (r : Option pool_mgr_t)
    (status : alloc_status) (h : mem_pool_close st p mgr = (st', r, status)) :
    (r = some mgr ∧ st' = st ∧ status = alloc_status.ALLOC_NOT_FREED) ∨
    (r = none ∧ status = alloc_status.ALLOC_OK ∧
      st' = (match st.pool_store with
        | none => st
        | some arr =>
          match store_find arr p 0 st.pool_store_capacity with
          | some i => { st with pool_store := some (arr.set i 0) }
          | none => st)) := by
  unfold mem_pool_close at h
  by_cases h1 : mgr.pool.alloc_size > 0
  · rw [if_pos h1] at h
    simp only [Prod.mk.injEq] at h
    exact Or.inl ⟨h.2.1.symm, h.1.symm, h.2.2.symm⟩
  · rw [if_neg h1] at h
    by_cases h2 : mgr.pool.num_gaps > 1
    · rw [if_pos h2] at h
      simp only [Prod.mk.injEq] at h
      exact Or.inl ⟨h.2.1.symm, h.1.symm, h.2.2.symm⟩
    · rw [if_neg h2] at h
      by_cases h3 : mgr.pool.num_allocs > 0
      · rw [if_pos h3] at h
        simp only [Prod.mk.injEq] at h
        exact Or.inl ⟨h.2.1.symm, h.1.symm, h.2.2.symm⟩
      · rw [if_neg h3] at h
        right
        cases hs : st.pool_store with
        | none =>
          rw [hs] at h
          simp only [Prod.mk.injEq] at h
          exact ⟨h.2.1.symm, h.2.2.symm, h.1.symm⟩
        | some arr =>
          rw [hs] at h
          dsimp only at h ⊢
          cases hf : store_find arr p 0 st.pool_store_capacity with
          | none =>
            rw [hf] at h
            simp only [Prod.mk.injEq] at h
            exact ⟨h.2.1.symm, h.2.2.symm, h.1.symm⟩
          | some i =>
            rw [hf] at h
            simp only [Prod.mk.injEq] at h
            exact ⟨h.2.1.symm, h.2.2.symm, h.1.symm⟩

theorem winv_close (w : world) (p : Nat) (arr : List Nat) (i : Nat)
    (hw : WInv w) (hs : w.store.pool_store = some arr)
    (hf : store_find arr p 0 w.store.pool_store_capacity = some i) :
    WInv ⟨{ w.store with pool_store := some (arr.set i 0) }, pool_del w.pools p⟩ := by
  obtain ⟨hlen, hcap, hsz, hzero, hmem, hdist⟩ := hw.opened arr hs
  obtain ⟨_, hi20, hip, _⟩ := store_find_some arr p _ 0 i hf
  rw [hcap] at hi20
  have hat : ∀ j, store_at (arr.set i 0) j = if j = i then 0 else store_at arr j := by
    intro j
    rw [store_at_set]
    by_cases hj : j = i
    · rw [if_pos ⟨hj, by omega⟩, if_pos hj]
    · rw [if_neg (fun hh => hj hh.1), if_neg hj]
  have hkeys := pool_del_keys w.pools p
  refine ⟨?_, ?_, ?_, ?_⟩
  · show ((pool_del w.pools p).map (fun e => e.1)).Nodup
    rw [hkeys]
    exact hw.keys_nodup.erase p
  · intro q hq
    have hq2 : q ∈ (pool_del w.pools p).map (fun e => e.1) := hq
    rw [hkeys] at hq2
    exact hw.keys_pos q (List.mem_of_mem_erase hq2)
  · intro h; simp at h
  · intro arr2 h
    simp only [Option.some.injEq] at h
    subst h
    refine ⟨by simp [hlen], hcap, hsz, ?_, ?_, ?_⟩
    · intro j hj
      rw [hat]
      by_cases c : j = i
      · rw [if_pos c]
      · rw [if_neg c]; exact hzero j hj
    · intro q hq0
      show (∃ j, j < 20 ∧ store_at (arr.set i 0) j = q) ↔
        q ∈ (pool_del w.pools p).map (fun e => e.1)
      rw [hkeys, hw.keys_nodup.mem_erase_iff]
      constructor
      · rintro ⟨j, hj20, hjq⟩
        rw [hat] at hjq
        by_cases c : j = i
        · rw [if_pos c] at hjq
          exact absurd hjq.symm hq0
        · rw [if_neg c] at hjq
          refine ⟨?_, (hmem q hq0).1 ⟨j, hj20, hjq⟩⟩
          intro e
          apply c
          exact hdist j i hj20 hi20 (by rw [hjq, hip, e]) (by rw [hjq]; exact hq0)
      · rintro ⟨hne, hq⟩
        obtain ⟨j, hj20, hjq⟩ := (hmem q hq0).2 hq
        refine ⟨j, hj20, ?_⟩
        rw [hat, if_neg]
        · exact hjq
        · intro e
          rw [e, hip] at hjq
          exact hne hjq.symm
    · intro a b ha hb heq hne
      rw [hat, hat] at heq
      rw [hat] at hne
      by_cases ca : a = i
      · rw [if_pos ca] at hne
        exact absurd rfl hne
      · rw [if_neg ca] at hne heq
        by_cases cb : b = i
        · rw [if_pos cb] at heq
          exact absurd heq hne
        · rw [if_neg cb] at heq
          exact hdist a b ha hb heq hne

theorem winv_pools (w : world) (p : Nat) (m : pool_mgr_t) (hw : WInv w) :
    WInv { w with pools := pool_set w.pools p m } := by
  have hk := pool_set_keys w.pools p m
  refine ⟨?_, ?_, ?_, ?_⟩
  · show ((pool_set w.pools p m).map (fun e => e.1)).Nodup
    rw [hk]; exact hw.keys_nodup
  · intro q hq
    have hq2 : q ∈ (pool_set w.pools p m).map (fun e => e.1) := hq
    rw [hk] at hq2
    exact hw.keys_pos q hq2
  · intro h
    obtain ⟨h1, h2, h3⟩ := hw.closed h
    refine ⟨?_, h2, h3⟩
    show pool_set w.pools p m = []
    rw [h1]; rfl
  · intro arr h
    obtain ⟨h1, h2, h3, h4, h5, h6⟩ := hw.opened arr h
    refine ⟨h1, h2, h3, h4, ?_, h6⟩
    intro q hq0
    show _ ↔ q ∈ (pool_set w.pools p m).map (fun e => e.1)
    rw [hk]
    exact h5 q hq0

/-- Every call with defined behaviour keeps the invariant of the library. -/
theorem winv_step (w w' : world) (c : reg_call) (hw : WInv w) (he : env_ok w c)
    (h : reg_step w c = some w') : WInv w' := by
  cases c with
  | init ok =>
    simp only [reg_step, Option.some.injEq] at h
    subst h
    exact winv_init w ok hw
  | free =>
    simp only [reg_step, Option.some.injEq] at h
    subst h
    exact winv_free w hw
  | open_pool new_mgr new_mem size policy =>
    simp only [reg_step] at h
    cases ho : mem_pool_open_reg w.store new_mgr new_mem size policy with
    | none => rw [ho] at h; simp at h
    | some res =>
      obtain ⟨st, p, r⟩ := res
      rw [ho] at h
      rcases open_reg_cases _ _ _ _ _ _ _ _ ho with ⟨hr, hst, _⟩ |
        ⟨arr, mgr, hr, hs, h0, hp, _, hi, hst⟩
      · subst hr
        simp only [Option.some.injEq] at h
        subst h
        rw [hst]
        exact hw
      · subst hr
        simp only [Option.some.injEq] at h
        subst h
        rw [hst, hp]
        exact winv_open w arr new_mgr mgr hw hs h0 he.1 hi
  | close p =>
    simp only [reg_step] at h
    cases hg : pool_get w.pools p with
    | none => rw [hg] at h; simp at h
    | some mgr =>
      rw [hg] at h
      dsimp only at h
      have hpk := pool_get_mem _ _ _ hg
      have hp0 := hw.keys_pos p hpk
      cases hc : mem_pool_close w.store p mgr with
      | mk st rest =>
        obtain ⟨r, status⟩ := rest
        rw [hc] at h
        rcases close_cases _ _ _ _ _ _ hc with ⟨hr, hst, _⟩ | ⟨hr, _, hst⟩
        · subst hr
          simp only [Option.some.injEq] at h
          subst h
          rw [hst]
          exact hw
        · subst hr
          simp only [Option.some.injEq] at h
          subst h
          cases hs : w.store.pool_store with
          | none =>
            have := (hw.closed hs).1
            rw [this] at hpk
            simp at hpk
          | some arr =>
            rw [hs] at hst
            dsimp only at hst
            obtain ⟨_, hcap, _, _, hmem, _⟩ := hw.opened arr hs
            cases hf : store_find arr p 0 w.store.pool_store_capacity with
            | none =>
              exfalso
              obtain ⟨i, hi, hip⟩ := (hmem p hp0).2 hpk
              exact store_find_none arr p _ 0 hf i (Nat.zero_le _) (by omega) hip
            | some i =>
              rw [hf] at hst
              dsimp only at hst
              rw [hst]
              exact winv_close w p arr i hw hs hf
  | alloc p size =>
    simp only [reg_step] at h
    cases hg : pool_get w.pools p with
    | none => rw [hg] at h; simp at h
    | some mgr =>
      rw [hg] at h
      dsimp only at h
      cases ha : mem_new_alloc mgr size with
      | none => rw [ha] at h; simp at h
      | some res =>
        rw [ha] at h
        simp only [Option.some.injEq] at h
        subst h
        exact winv_pools w p res.1 hw
  | del p a =>
    simp only [reg_step] at h
    cases hg : pool_get w.pools p with
    | none => rw [hg] at h; simp at h
    | some mgr =>
      rw [hg] at h
      dsimp only at h
      cases ha : mem_del_alloc mgr a with
      | none => rw [ha] at h; simp at h
      | some res =>
        rw [ha] at h
        simp only [Option.some.injEq] at h
        subst h
        exact winv_pools w p res.1 hw

theorem wreach_inv (w : world) (hr : WReach w) : WInv w := by
  induction hr with
  | start => exact winv_start
  | step w w' c _ he hs ih => exact winv_step w w' c ih he hs

theorem run_reach : ∀ (cs : List reg_call) (w w' : world),
    WReach w → run_calls w cs = some w' → WReach w' := by
  intro cs
  induction cs with
  | nil =>
    intro w w' hw h
    simp only [run_calls, Option.some.injEq] at h
    rw [← h]; exact hw
  | cons c cs ih =>
    intro w w' hw h
    rw [run_calls] at h
    by_cases he : env_ok w c
    · rw [if_pos he] at h
      cases hs : reg_step w c with
      | none => rw [hs] at h; simp at h
      | some w1 =>
        rw [hs] at h
        exact ih w1 w' (WReach.step w w1 c hw he hs) h
    · rw [if_neg he] at h; simp at h

theorem run_reach_getD (cs : List reg_call)
    (h : (run_calls world0 cs).isSome = true) :
    WReach ((run_calls world0 cs).getD world0) := by
  obtain ⟨w', hw⟩ := Option.isSome_iff_exists.1 h
  rw [hw]
  exact run_reach cs world0 w' WReach.start hw

theorem world1_reach : WReach world1 := run_reach_getD _ (by decide)

theorem world20_reach : WReach world20 := run_reach_getD _ (by decide)

/-- The life cycle of the pool store in the states of the library reached by
calls with defined behaviour: `mem_init` returns `ALLOC_CALLED_AGAIN`, changing
nothing, exactly when the pool store is allocated, and otherwise `ALLOC_OK`
when its `calloc` succeeds, after which the store is allocated; `mem_free`
returns `ALLOC_CALLED_AGAIN` when the store is not allocated,
`ALLOC_NOT_FREED` with the store unchanged when a pool that was opened has not
been closed, and `ALLOC_OK` otherwise, and then the store is back in its
initial state, in which `mem_init` returns `ALLOC_OK` again.  No such state
follows a `mem_pool_open` that finds `pool_store_size = 20`. -/
theorem registry_lifecycle (w : world) (hw : WReach w) :
    (∀ ok, (mem_init w.store ok).2 = alloc_status.ALLOC_CALLED_AGAIN ↔
      w.store.pool_store ≠ none) ∧
    (w.store.pool_store ≠ none → ∀ ok, (mem_init w.store ok).1 = w.store) ∧
    (w.store.pool_store = none → (mem_init w.store true).2 = alloc_status.ALLOC_OK ∧
      (mem_init w.store true).1.pool_store ≠ none) ∧
    (w.store.pool_store = none → mem_free w.store = (w.store, alloc_status.ALLOC_CALLED_AGAIN)) ∧
    (w.store.pool_store ≠ none → w.pools ≠ [] →
      mem_free w.store = (w.store, alloc_status.ALLOC_NOT_FREED)) ∧
    (w.store.pool_store ≠ none → w.pools = [] →
      mem_free w.store = (store_null, alloc_status.ALLOC_OK) ∧
      (mem_init (mem_free w.store).1 true).2 = alloc_status.ALLOC_OK) := by
  have hI := wreach_inv w hw
  refine ⟨?_, ?_, ?_, ?_, ?_, ?_⟩
  · intro ok
    unfold mem_init
    cases hs : w.store.pool_store with
    | none =>
      cases ok <;> simp
    | some arr => simp
  · intro hne ok
    unfold mem_init
    cases hs : w.store.pool_store with
    | none => exact absurd hs hne
    | some arr => rfl
  · intro hs
    unfold mem_init
    rw [hs]
    simp
  · intro hs
    unfold mem_free
    rw [hs]
  · intro hne hp
    unfold mem_free
    cases hs : w.store.pool_store with
    | none => exact absurd hs hne
    | some arr =>
      dsimp only
      obtain ⟨_, hcap, _, _, hmem, _⟩ := hI.opened arr hs
      have hl : store_live arr 0 w.store.pool_store_capacity = true := by
        cases hpl : w.pools with
        | nil => exact absurd hpl hp
        | cons e r =>
          have hk : e.1 ∈ w.pools.map (fun e => e.1) := by rw [hpl]; simp
          have hk0 := hI.keys_pos _ hk
          obtain ⟨i, hi, hie⟩ := (hmem e.1 hk0).2 hk
          rw [store_live_iff]
          exact ⟨i, Nat.zero_le _, by omega, by rw [hie]; exact hk0⟩
      rw [if_pos hl]
  · intro hne hp
    have hfree : mem_free w.store = (store_null, alloc_status.ALLOC_OK) := by
      unfold mem_free
      cases hs : w.store.pool_store with
      | none => exact absurd hs hne
      | some arr =>
        dsimp only
        obtain ⟨_, hcap, _, _, hmem, _⟩ := hI.opened arr hs
        have hl : ¬ store_live arr 0 w.store.pool_store_capacity = true := by
          rw [store_live_iff]
          rintro ⟨j, _, hj, hj0⟩
          have := (hmem _ hj0).1 ⟨j, by omega, rfl⟩
          rw [hp] at this
          simp at this
        rw [if_neg hl]
        rfl
    rw [hfree]
    exact ⟨rfl, rfl⟩

/-- The life cycle of the pool store at the state `world1` (the store is set up
and one pool is open) and at the state before the first call. -/
theorem registry_lifecycle_witness :
    mem_init world1.store true = (world1.store, alloc_status.ALLOC_CALLED_AGAIN) ∧
    mem_free world1.store = (world1.store, alloc_status.ALLOC_NOT_FREED) ∧
    mem_free world0.store = (world0.store, alloc_status.ALLOC_CALLED_AGAIN) ∧
    ((∀ ok, (mem_init world1.store ok).2 = alloc_status.ALLOC_CALLED_AGAIN ↔
      world1.store.pool_store ≠ none) ∧
    (world1.store.pool_store ≠ none → ∀ ok, (mem_init world1.store ok).1 = world1.store) ∧
    (world1.store.pool_store = none →
      (mem_init world1.store true).2 = alloc_status.ALLOC_OK ∧
      (mem_init world1.store true).1.pool_store ≠ none) ∧
    (world1.store.pool_store = none →
      mem_free world1.store = (world1.store, alloc_status.ALLOC_CALLED_AGAIN)) ∧
    (world1.store.pool_store ≠ none → world1.pools ≠ [] →
      mem_free world1.store = (world1.store, alloc_status.ALLOC_NOT_FREED)) ∧
    (world1.store.pool_store ≠ none → world1.pools = [] →
      mem_free world1.store = (store_null, alloc_status.ALLOC_OK) ∧
      (mem_init (mem_free world1.store).1 true).2 = alloc_status.ALLOC_OK)) :=
  ⟨by decide, by decide, by decide, registry_lifecycle world1 world1_reach⟩

/-- C20 (the code at a failing input): after `mem_init` and twenty calls of
`mem_pool_open` the library is in a state with defined behaviour in which the
pool store is allocated and `pool_store_size = pool_store_capacity = 20`; the
next `mem_pool_open`, with every allocation succeeding, gets past the check of
the store and writes the manager to `pool_store[20]`, outside the array of 20
pointers. -/
theorem pool_store_write_out_of_bounds :
    WReach world20 ∧
    world20.store.pool_store = some ((List.range 20).map (fun i => i + 1)) ∧
    world20.store.pool_store_size = 20 ∧ world20.store.pool_store_capacity = 20 ∧
    env_ok world20 (reg_call.open_pool 21 5000 8 alloc_policy.FIRST_FIT) ∧
    (mem_pool_open 5000 8 alloc_policy.FIRST_FIT).isSome = true ∧
    ¬ (world20.store.pool_store_size < world20.store.pool_store_capacity) ∧
    mem_pool_open_reg world20.store 21 5000 8 alloc_policy.FIRST_FIT = none :=
  ⟨world20_reach, by decide, by decide, by decide, by decide, by decide, by decide, by decide⟩

theorem world20c_reach : WReach world20c := run_reach_getD _ (by decide)

/-- C15 (the code at a failing input): after `mem_init` and twenty pools opened
and closed again the library is in a state with defined behaviour in which no
pool is open, the 20 entries of the pool store are `NULL` and
`pool_store_size = pool_store_capacity = 20`.  The next `mem_pool_open`, with
every allocation succeeding, builds its manager and writes the handle to
`pool_store[20]`, outside the array.  `mem_free` scans the entries 0 to 19
only: whatever the array holds elsewhere and whatever `pool_store_size` is, it
returns `ALLOC_OK` and gives the store up, as it does when the handle 21 lies
right behind the 20 entries, although that pool has not been closed. -/
theorem mem_free_misses_open_pool :
    WReach world20c ∧ world20c.pools = [] ∧
    world20c.store = ⟨some (List.replicate 20 0), 20, 20⟩ ∧
    env_ok world20c (reg_call.open_pool 21 5000 8 alloc_policy.FIRST_FIT) ∧
    (mem_pool_open 5000 8 alloc_policy.FIRST_FIT).isSome = true ∧
    mem_pool_open_reg world20c.store 21 5000 8 alloc_policy.FIRST_FIT = none ∧
    (∀ arr size, (∀ i, i < 20 → store_at arr i = 0) →
      mem_free ⟨some arr, size, 20⟩ = (store_null, alloc_status.ALLOC_OK)) ∧
    mem_free ⟨some (List.replicate 20 0 ++ [21]), 21, 20⟩ =
      (store_null, alloc_status.ALLOC_OK) := by
  refine ⟨world20c_reach, by decide, by decide, by decide, by decide, by decide, ?_, by decide⟩
  intro arr size h
  have hl : ¬ store_live arr 0 20 = true := by
    rw [store_live_iff]
    rintro ⟨j, _, hj, hj0⟩
    exact hj0 (h j (by omega))
  unfold mem_free
  dsimp only
  rw [if_neg hl]
  rfl

/-! ### The bound on `num_gaps` -/

theorem remove_bounds (m : pool_mgr_t) (sz : Nat) (node : Option Nat)
    (h32 : m.pool.num_gaps < 4294967296) :
    (_mem_remove_from_gap_ix m sz node).1.pool.num_gaps ≤ m.pool.num_gaps ∧
    (_mem_remove_from_gap_ix m sz node).1.gap_ix_capacity = m.gap_ix_capacity ∧
    (_mem_remove_from_gap_ix m sz node).1.gap_ix.length = m.gap_ix.length := by
  cases hf : gap_find m.gap_ix node 0 m.pool.num_gaps with
  | none =>
    have e : _mem_remove_from_gap_ix m sz node = (m, alloc_status.ALLOC_FAIL) := by
      unfold _mem_remove_from_gap_ix
      rw [hf]
    rw [e]
    exact ⟨le_refl _, rfl, rfl⟩
  | some p =>
    obtain ⟨_, hp, _, _⟩ := gap_find_first m.gap_ix node _ 0 p hf
    rw [remove_eq m sz node p hf (by omega) h32]
    refine ⟨Nat.sub_le _ _, rfl, ?_⟩
    show ((gap_shift m.gap_ix p (m.pool.num_gaps - 1 - p)).set
      (m.pool.num_gaps - 1) gap_zero).length = m.gap_ix.length
    rw [List.length_set, gap_shift_length]

theorem add_bounds (m m' : pool_mgr_t) (sz : Nat) (node : Option Nat) (st : alloc_status)
    (h : _mem_add_to_gap_ix m sz node = some (m', st)) :
    m'.gap_ix_capacity = m.gap_ix_capacity ∧ m'.pool.num_gaps = u32 (m.pool.num_gaps + 1) := by
  unfold _mem_add_to_gap_ix _mem_sort_gap_ix at h
  simp only [if_true, Option.some.injEq, Prod.mk.injEq] at h
  obtain ⟨h1, _⟩ := h
  subst h1
  exact ⟨rfl, rfl⟩

theorem carve_converted_bounds (m : pool_mgr_t) (s g : Nat)
    (h32 : m.pool.num_gaps < 4294967296) :
    (carve_converted m s g).pool.num_gaps ≤ m.pool.num_gaps ∧
    (carve_converted m s g).gap_ix_capacity = m.gap_ix_capacity ∧
    (carve_converted m s g).gap_ix.length = m.gap_ix.length := by
  have := remove_bounds
    { m with pool := { m.pool with
      num_allocs := u32 (m.pool.num_allocs + 1),
      alloc_size := u64 (m.pool.alloc_size + s) } }
    (node_at m.node_heap g).size (some g) h32
  exact this

theorem carve_add_arg_bounds (m : pool_mgr_t) (s g n : Nat)
    (h32 : m.pool.num_gaps < 4294967296) :
    (carve_add_arg m s g n).pool.num_gaps ≤ m.pool.num_gaps ∧
    (carve_add_arg m s g n).gap_ix_capacity = m.gap_ix_capacity ∧
    (carve_add_arg m s g n).gap_ix.length = m.gap_ix.length :=
  carve_converted_bounds m s g h32

/-- How `carve` reaches line 330: the status of the removal is `ALLOC_OK`,
a gap remains and the search for an unused slot finds `n`. -/
theorem carve_calls_add (m : pool_mgr_t) (s g n : Nat)
    (hrem : (_mem_remove_from_gap_ix
      { m with pool := { m.pool with
        num_allocs := u32 (m.pool.num_allocs + 1),
        alloc_size := u64 (m.pool.alloc_size + s) } }
      (node_at m.node_heap g).size (some g)).2 = alloc_status.ALLOC_OK)
    (hgap : u64 ((node_at m.node_heap g).size + 18446744073709551616 - s) > 0)
    (hfind : find_unused (carve_converted m s g).node_heap 0
      (carve_converted m s g).total_nodes = some n) :
    carve m s g =
      match _mem_add_to_gap_ix (carve_add_arg m s g n)
          (u64 ((node_at m.node_heap g).size + 18446744073709551616 - s)) (some n) with
      | none => none
      | some (mgr5, _) => some (mgr5, (node_at mgr5.node_heap g).mem) := by
  unfold carve
  dsimp only
  rw [if_neg (by rw [hrem]; simp), if_pos hgap]
  have hfind2 := hfind
  unfold carve_converted at hfind2
  dsimp only at hfind2
  rw [hfind2]
  rfl

/-- How `mem_del_alloc` reaches line 447. -/
theorem del_calls_add (m : pool_mgr_t) (a : Nat) :
    mem_del_alloc m a =
      match find_mem m.node_heap a 0 m.total_nodes with
      | none => some (m, alloc_status.ALLOC_FAIL)
      | some d =>
        match del_add_arg m d with
        | none => none
        | some (mgr3, r) => _mem_add_to_gap_ix mgr3 (node_at mgr3.node_heap r).size (some r) := by
  unfold mem_del_alloc del_add_arg
  cases find_mem m.node_heap a 0 m.total_nodes with
  | none => rfl
  | some d =>
    dsimp only
    cases merge_next (mark_free m d) d with
    | none => rfl
    | some mgr2 => rfl

theorem merge_next_bounds (m m' : pool_mgr_t) (d : Nat) (h32 : m.pool.num_gaps < 4294967296)
    (h : merge_next m d = some m') :
    m'.pool.num_gaps ≤ m.pool.num_gaps ∧ m'.gap_ix_capacity = m.gap_ix_capacity ∧
    m'.gap_ix.length = m.gap_ix.length := by
  unfold merge_next at h
  cases hn : (node_at m.node_heap d).next with
  | none =>
    rw [hn] at h
    simp only [Option.some.injEq] at h
    subst h
    exact ⟨le_refl _, rfl, rfl⟩
  | some x =>
    rw [hn] at h
    dsimp only at h
    by_cases hc : (node_at m.node_heap x).used = 1 ∧ (node_at m.node_heap x).allocated = 0
    · rw [if_pos hc] at h
      by_cases hst : (_mem_remove_from_gap_ix m (node_at m.node_heap x).size (some x)).2 ≠
          alloc_status.ALLOC_OK
      · rw [if_pos hst] at h; simp at h
      · rw [if_neg hst] at h
        simp only [Option.some.injEq] at h
        subst h
        exact remove_bounds m (node_at m.node_heap x).size (some x) h32
    · rw [if_neg hc] at h
      simp only [Option.some.injEq] at h
      subst h
      exact ⟨le_refl _, rfl, rfl⟩

theorem merge_prev_bounds (m m' : pool_mgr_t) (d r : Nat) (h32 : m.pool.num_gaps < 4294967296)
    (h : merge_prev m d = some (m', r)) :
    m'.pool.num_gaps ≤ m.pool.num_gaps ∧ m'.gap_ix_capacity = m.gap_ix_capacity ∧
    m'.gap_ix.length = m.gap_ix.length := by
  unfold merge_prev at h
  cases hn : (node_at m.node_heap d).prev with
  | none =>
    rw [hn] at h
    simp only [Option.some.injEq, Prod.mk.injEq] at h
    obtain ⟨h, _⟩ := h
    subst h
    exact ⟨le_refl _, rfl, rfl⟩
  | some x =>
    rw [hn] at h
    dsimp only at h
    by_cases hc : (node_at m.node_heap x).used = 1 ∧ (node_at m.node_heap x).allocated = 0
    · rw [if_pos hc] at h
      by_cases hst : (_mem_remove_from_gap_ix m (node_at m.node_heap x).size (some x)).2 ≠
          alloc_status.ALLOC_OK
      · rw [if_pos hst] at h; simp at h
      · rw [if_neg hst] at h
        simp only [Option.some.injEq, Prod.mk.injEq] at h
        obtain ⟨h, _⟩ := h
        subst h
        exact remove_bounds m (node_at m.node_heap x).size (some x) h32
    · rw [if_neg hc] at h
      simp only [Option.some.injEq, Prod.mk.injEq] at h
      obtain ⟨h, _⟩ := h
      subst h
      exact ⟨le_refl _, rfl, rfl⟩

theorem del_add_arg_bounds (m mgr3 : pool_mgr_t) (d r : Nat)
    (h32 : m.pool.num_gaps < 4294967296) (h : del_add_arg m d = some (mgr3, r)) :
    mgr3.pool.num_gaps ≤ m.pool.num_gaps ∧ mgr3.gap_ix_capacity = m.gap_ix_capacity ∧
    mgr3.gap_ix.length = m.gap_ix.length := by
  unfold del_add_arg at h
  cases hn : merge_next (mark_free m d) d with
  | none => rw [hn] at h; simp at h
  | some mgr2 =>
    rw [hn] at h
    dsimp only at h
    have h1 := merge_next_bounds (mark_free m d) mgr2 d h32 hn
    have h2 := merge_prev_bounds mgr2 mgr3 d r (lt_of_le_of_lt h1.1 h32) h
    have e1 : (mark_free m d).pool.num_gaps = m.pool.num_gaps := rfl
    have e2 : (mark_free m d).gap_ix_capacity = m.gap_ix_capacity := rfl
    have e3 : (mark_free m d).gap_ix = m.gap_ix := rfl
    refine ⟨?_, ?_, ?_⟩
    · rw [← e1]; exact le_trans h2.1 h1.1
    · rw [h2.2.1, h1.2.1, e2]
    · rw [h2.2.2, h1.2.2, e3]

theorem carve_capacity (m m' : pool_mgr_t) (s g p : Nat) (h32 : m.pool.num_gaps < 4294967296)
    (h : carve m s g = some (m', p)) : m'.gap_ix_capacity = m.gap_ix_capacity := by
  have hb := carve_converted_bounds m s g h32
  unfold carve at h
  dsimp only at h
  split_ifs at h with h1 h2
  · cases hf : find_unused
        (wr (_mem_remove_from_gap_ix
          { m with pool := { m.pool with
            num_allocs := u32 (m.pool.num_allocs + 1),
            alloc_size := u64 (m.pool.alloc_size + s) } }
          (node_at m.node_heap g).size (some g)).1.node_heap g
          (fun nd => { nd with allocated := 1, size := s })) 0
        (_mem_remove_from_gap_ix
          { m with pool := { m.pool with
            num_allocs := u32 (m.pool.num_allocs + 1),
            alloc_size := u64 (m.pool.alloc_size + s) } }
          (node_at m.node_heap g).size (some g)).1.total_nodes with
    | none =>
      rw [hf] at h
      simp only [Option.some.injEq, Prod.mk.injEq] at h
      rw [← h.1]
      exact hb.2.1
    | some n =>
      rw [hf] at h
      dsimp only at h
      cases ha : _mem_add_to_gap_ix (carve_add_arg m s g n)
          (u64 ((node_at m.node_heap g).size + 18446744073709551616 - s)) (some n) with
      | none =>
        have ha2 := ha
        unfold carve_add_arg carve_converted at ha2
        dsimp only at ha2
        rw [ha2] at h
        simp at h
      | some res =>
        have ha2 := ha
        unfold carve_add_arg carve_converted at ha2
        dsimp only at ha2
        rw [ha2] at h
        simp only [Option.some.injEq, Prod.mk.injEq] at h
        have := (add_bounds _ _ _ _ res.2 ha).1
        rw [← h.1, this]
        exact (carve_add_arg_bounds m s g n h32).2.1
  · simp only [Option.some.injEq, Prod.mk.injEq] at h
    rw [← h.1]
    exact hb.2.1

theorem alloc_capacity (m m' : pool_mgr_t) (s p : Nat) (h32 : m.pool.num_gaps < 4294967296)
    (h : mem_new_alloc m s = some (m', p)) : m'.gap_ix_capacity = m.gap_ix_capacity := by
  unfold mem_new_alloc at h
  split_ifs at h with h1
  · simp only [Option.some.injEq, Prod.mk.injEq] at h
    rw [← h.1]
  · cases hsel : select_gap m s with
    | none => rw [hsel] at h; simp at h
    | some r =>
      rw [hsel] at h
      cases r with
      | none =>
        simp only [Option.some.injEq, Prod.mk.injEq] at h
        rw [← h.1]
      | some g => exact carve_capacity m m' s g p h32 h

theorem del_capacity (m m' : pool_mgr_t) (a : Nat) (st : alloc_status)
    (h32 : m.pool.num_gaps < 4294967296)
    (h : mem_del_alloc m a = some (m', st)) : m'.gap_ix_capacity = m.gap_ix_capacity := by
  rw [del_calls_add] at h
  cases hf : find_mem m.node_heap a 0 m.total_nodes with
  | none =>
    rw [hf] at h
    simp only [Option.some.injEq, Prod.mk.injEq] at h
    rw [← h.1]
  | some d =>
    rw [hf] at h
    dsimp only at h
    cases hd : del_add_arg m d with
    | none => rw [hd] at h; simp at h
    | some res =>
      obtain ⟨mgr3, r⟩ := res
      rw [hd] at h
      dsimp only at h
      rw [(add_bounds _ _ _ _ st h).1]
      exact (del_add_arg_bounds m mgr3 d r h32 hd).2.1

/-- Among segments of which no two neighbours are free, the free ones are at
most half, rounded up. -/
theorem free_count_le (vs : List (Nat × Nat × Nat)) (hn : NoAdj vs) :
    2 * free_count vs ≤ vs.length + 1 ∧
    (∀ v r, vs = v :: r → v.2.2 ≠ 0 → 2 * free_count vs ≤ vs.length) := by
  induction vs with
  | nil =>
    refine ⟨by simp [free_count], ?_⟩
    intro v r h; simp at h
  | cons a r ih =>
    have hr : NoAdj r := by
      unfold NoAdj at hn ⊢
      exact hn.tail
    obtain ⟨ih1, ih2⟩ := ih hr
    by_cases ha : a.2.2 = 0
    · have hfc : free_count (a :: r) = free_count r + 1 := by
        unfold free_count
        rw [List.filter_cons_of_pos (by simpa using ha)]
        rfl
      have hr2 : 2 * free_count r ≤ r.length := by
        cases r with
        | nil => simp [free_count]
        | cons b t =>
          apply ih2 b t rfl
          intro hb
          unfold NoAdj at hn
          have := List.chain'_cons.1 hn
          exact this.1 ⟨ha, hb⟩
      refine ⟨by rw [hfc, List.length_cons]; omega, ?_⟩
      intro v t hvt hv
      simp only [List.cons.injEq] at hvt
      rw [← hvt.1] at hv
      exact absurd ha hv
    · have hfc : free_count (a :: r) = free_count r := by
        unfold free_count
        rw [List.filter_cons_of_neg (by simpa using ha)]
      refine ⟨by rw [hfc, List.length_cons]; omega, ?_⟩
      intro v t _ _
      rw [hfc, List.length_cons]
      omega

theorem free_count_nodes (h : List node_t) (l : List Nat) :
    free_count (l.map (seg_of h)) =
      ((l.map (node_at h)).filter (fun n => decide (n.allocated = 0))).length := by
  induction l with
  | nil => rfl
  | cons a r ih =>
    unfold free_count at ih ⊢
    rw [List.map_cons, List.map_cons]
    by_cases ha : (node_at h a).allocated = 0
    · rw [List.filter_cons_of_pos (by simpa [seg_of] using ha),
        List.filter_cons_of_pos (by simpa using ha), List.length_cons, List.length_cons, ih]
    · rw [List.filter_cons_of_neg (by simpa [seg_of] using ha),
        List.filter_cons_of_neg (by simpa using ha), ih]

/-- A pool that satisfies the invariant has at most 20 gaps. -/
theorem Rep.num_gaps_le {m : pool_mgr_t} {l : List Nat} (hR : Rep m l) :
    m.pool.num_gaps ≤ 20 := by
  have h1 := gap_count m l hR
  rw [← free_count_nodes] at h1
  have h2 := (free_count_le _ hR.noadj).1
  have h3 := hR.shape.len_le
  rw [List.length_map] at h2
  omega

theorem reach_capacity (policy : alloc_policy) (m : pool_mgr_t) (hr : Reachable policy m) :
    m.gap_ix_capacity = 40 := by
  induction hr with
  | opened new_mem size mgr _ _ ho =>
    unfold mem_pool_open at ho
    split_ifs at ho
    simp only [Option.some.injEq] at ho
    rw [← ho]
    rfl
  | alloc mgr mgr' size p hr _ ha ih =>
    obtain ⟨l, hR, _⟩ := reach_inv _ mgr hr
    have := hR.num_gaps_le
    rw [alloc_capacity mgr mgr' size p (by omega) ha, ih]
  | del mgr mgr' a st hr _ hd ih =>
    obtain ⟨l, hR, _⟩ := reach_inv _ mgr hr
    have := hR.num_gaps_le
    rw [del_capacity mgr mgr' a st (by omega) hd, ih]

/-- C21: in a reachable pool `gap_ix_capacity` is 40, the gap index has 40
entries and `num_gaps` is at most 20.  `_mem_add_to_gap_ix` is called in two
places.  `mem_new_alloc` calls it on line 330 with the manager
`carve_add_arg`, and `mem_del_alloc` on line 447 with the manager of
`del_add_arg`; at both calls `num_gaps` is at most 20, hence strictly below
`gap_ix_capacity` and inside the array, so the write to `gap_ix[num_gaps]` is
in bounds. -/
theorem gap_ix_append_in_bounds (policy : alloc_policy) (m : pool_mgr_t)
    (hr : Reachable policy m) :
    m.gap_ix_capacity = 40 ∧ m.gap_ix.length = 40 ∧ m.pool.num_gaps ≤ 20 ∧
    (∀ s g n,
      (_mem_remove_from_gap_ix
        { m with pool := { m.pool with
          num_allocs := u32 (m.pool.num_allocs + 1),
          alloc_size := u64 (m.pool.alloc_size + s) } }
        (node_at m.node_heap g).size (some g)).2 = alloc_status.ALLOC_OK →
      u64 ((node_at m.node_heap g).size + 18446744073709551616 - s) > 0 →
      find_unused (carve_converted m s g).node_heap 0
        (carve_converted m s g).total_nodes = some n →
      carve m s g =
        match _mem_add_to_gap_ix (carve_add_arg m s g n)
            (u64 ((node_at m.node_heap g).size + 18446744073709551616 - s)) (some n) with
        | none => none
        | some (mgr5, _) => some (mgr5, (node_at mgr5.node_heap g).mem)) ∧
    (∀ s g n, (carve_add_arg m s g n).pool.num_gaps ≤ 20 ∧
      (carve_add_arg m s g n).pool.num_gaps < (carve_add_arg m s g n).gap_ix_capacity ∧
      (carve_add_arg m s g n).pool.num_gaps < (carve_add_arg m s g n).gap_ix.length) ∧
    (∀ a, mem_del_alloc m a =
      match find_mem m.node_heap a 0 m.total_nodes with
      | none => some (m, alloc_status.ALLOC_FAIL)
      | some d =>
        match del_add_arg m d with
        | none => none
        | some (mgr3, r) =>
          _mem_add_to_gap_ix mgr3 (node_at mgr3.node_heap r).size (some r)) ∧
    (∀ d mgr3 r, del_add_arg m d = some (mgr3, r) →
      mgr3.pool.num_gaps ≤ 20 ∧ mgr3.pool.num_gaps < mgr3.gap_ix_capacity ∧
      mgr3.pool.num_gaps < mgr3.gap_ix.length) := by
  obtain ⟨l, hR, _⟩ := reach_inv _ m hr
  have hcap := reach_capacity policy m hr
  have hlen := hR.shape.gx_len
  have hn := hR.num_gaps_le
  refine ⟨hcap, hlen, hn, ?_, ?_, ?_, ?_⟩
  · intro s g n h1 h2 h3
    exact carve_calls_add m s g n h1 h2 h3
  · intro s g n
    obtain ⟨h1, h2, h3⟩ := carve_add_arg_bounds m s g n (by omega)
    rw [h2, h3, hcap, hlen]
    omega
  · intro a
    exact del_calls_add m a
  · intro d mgr3 r hd
    obtain ⟨h1, h2, h3⟩ := del_add_arg_bounds m mgr3 d r (by omega) hd
    rw [h2, h3, hcap, hlen]
    omega

/-- C21, at the example pool `ff5` with its two gaps: a request of 50 bytes
takes the gap in slot 0 and puts the rest into slot 1; the release of the
address 1200 merges slot 2 into slot 0. -/
theorem gap_ix_append_in_bounds_witness :
    ff5.pool.num_gaps = 2 ∧
    (carve_add_arg ff5 50 0 1).pool.num_gaps = 1 ∧
    (del_add_arg ff5 2).map (fun r => (r.1.pool.num_gaps, r.2)) = some (0, 0) ∧
    (ff5.gap_ix_capacity = 40 ∧ ff5.gap_ix.length = 40 ∧ ff5.pool.num_gaps ≤ 20 ∧
    (∀ s g n,
      (_mem_remove_from_gap_ix
        { ff5 with pool := { ff5.pool with
          num_allocs := u32 (ff5.pool.num_allocs + 1),
          alloc_size := u64 (ff5.pool.alloc_size + s) } }
        (node_at ff5.node_heap g).size (some g)).2 = alloc_status.ALLOC_OK →
      u64 ((node_at ff5.node_heap g).size + 18446744073709551616 - s) > 0 →
      find_unused (carve_converted ff5 s g).node_heap 0
        (carve_converted ff5 s g).total_nodes = some n →
      carve ff5 s g =
        match _mem_add_to_gap_ix (carve_add_arg ff5 s g n)
            (u64 ((node_at ff5.node_heap g).size + 18446744073709551616 - s)) (some n) with
        | none => none
        | some (mgr5, _) => some (mgr5, (node_at mgr5.node_heap g).mem)) ∧
    (∀ s g n, (carve_add_arg ff5 s g n).pool.num_gaps ≤ 20 ∧
      (carve_add_arg ff5 s g n).pool.num_gaps < (carve_add_arg ff5 s g n).gap_ix_capacity ∧
      (carve_add_arg ff5 s g n).pool.num_gaps < (carve_add_arg ff5 s g n).gap_ix.length) ∧
    (∀ a, mem_del_alloc ff5 a =
      match find_mem ff5.node_heap a 0 ff5.total_nodes with
      | none => some (ff5, alloc_status.ALLOC_FAIL)
      | some d =>
        match del_add_arg ff5 d with
        | none => none
        | some (mgr3, r) =>
          _mem_add_to_gap_ix mgr3 (node_at mgr3.node_heap r).size (some r)) ∧
    (∀ d mgr3 r, del_add_arg ff5 d = some (mgr3, r) →
      mgr3.pool.num_gaps ≤ 20 ∧ mgr3.pool.num_gaps < mgr3.gap_ix_capacity ∧
      mgr3.pool.num_gaps < mgr3.gap_ix.length)) :=
  ⟨by decide, by decide, by decide,
    gap_ix_append_in_bounds alloc_policy.FIRST_FIT ff5 ff5_reach⟩

end MemPool
